import Mathlib

/-!
# Transaction ordering core of the block builder (`core/types/transaction.go`)

A shallow embedding of the fee model, the order wrapper, the price and time
heap and the order book, followed by the properties proved about them.

Conventions of the embedding:
* `*big.Int` values are `Int`; a `*big.Int` that the code tests against `nil`
  (the base fee) is `Option Int`.
* `uint64` values are `Nat`.
* a pointer that the code tests against `nil` is an `Option`; a pointer that
  the code dereferences unconditionally is the value itself.
* `time.Time` is the instant as an `Int`, and `Before` is `<` on instants.
* a Go map is an association list with pairwise distinct keys; the order of
  the list is the order in which `range` visits the map.
* a run-time abort (index out of range, nil dereference) is `none`.
* where two books may share what they point to, the objects that the methods
  write are kept in an explicit memory and a book is a struct of addresses.
-/

set_option autoImplicit false

namespace types

/-! ## Data model -/

/-- The `common.Address` of an account. The zero value is `0`. -/
abbrev Address := Nat

/-- The `common.Hash` of a transaction or bundle, as its bytes. -/
abbrev Hash := List Nat

/-- The errors of the package. -/
inductive Error where
  | ErrInvalidSig
  | ErrUnexpectedProtection
  | ErrInvalidTxType
  | ErrTxTypeNotSupported
  | ErrGasFeeCapTooLow
  | errShortTypedTx
  deriving DecidableEq, Repr

/-- A `Transaction`, seen through the accessors of `TxData` that the fee model
and the order book read, together with the time it was first seen. -/
structure Transaction where
  nonce : Nat
  gasPrice : Int
  gasTipCap : Int
  gasFeeCap : Int
  gas : Nat
  time : Int
  deriving DecidableEq, Repr

/-- The type `Transactions`, a slice of transactions. -/
abbrev Transactions := List Transaction

/-- The struct `MevBundle`. -/
structure MevBundle where
  Txs : Transactions
  BlockNumber : Int
  Uuid : List Nat
  SigningAddress : Address
  MinTimestamp : Nat
  MaxTimestamp : Nat
  RevertingTxHashes : List Hash
  Hash : Hash
  deriving DecidableEq, Repr

/-- The struct `SimulatedBundle`. -/
structure SimulatedBundle where
  MevGasPrice : Int
  TotalEth : Int
  EthSentToCoinbase : Int
  TotalGasUsed : Nat
  OriginalBundle : MevBundle
  deriving DecidableEq, Repr

/-- Modelled from the spec: the struct `SimSBundle` is declared outside this
file; the code reads its fields `MevGasPrice` and `Profit`, the precomputed MEV
gas price and profit of the data model. -/
structure SimSBundle where
  MevGasPrice : Int
  Profit : Int
  deriving DecidableEq, Repr

/-- The interface `_Order` with its three implementations `_TxOrder`,
`_BundleOrder` and `_SBundleOrder`; each holds a pointer that may be nil. -/
inductive _Order where
  | _TxOrder (tx : Option Transaction)
  | _BundleOrder (bundle : Option SimulatedBundle)
  | _SBundleOrder (sbundle : Option SimSBundle)
  deriving DecidableEq, Repr

/-- The method `AsTx` of the three order kinds. -/
def _Order.AsTx : _Order → Option Transaction
  | _TxOrder tx => tx
  | _BundleOrder _ => none
  | _SBundleOrder _ => none

/-- The method `AsBundle` of the three order kinds. -/
def _Order.AsBundle : _Order → Option SimulatedBundle
  | _TxOrder _ => none
  | _BundleOrder bundle => bundle
  | _SBundleOrder _ => none

/-- The method `AsSBundle` of the three order kinds. -/
def _Order.AsSBundle : _Order → Option SimSBundle
  | _TxOrder _ => none
  | _BundleOrder _ => none
  | _SBundleOrder sbundle => sbundle

/-- The struct `TxWithMinerFee`: an order with its cached price. -/
structure TxWithMinerFee where
  order : _Order
  minerFee : Int
  deriving DecidableEq, Repr

/-- The method `TxWithMinerFee.Tx`. -/
def TxWithMinerFee.Tx (t : TxWithMinerFee) : Option Transaction :=
  t.order.AsTx

/-- The method `TxWithMinerFee.Bundle`. -/
def TxWithMinerFee.Bundle (t : TxWithMinerFee) : Option SimulatedBundle :=
  t.order.AsBundle

/-- The method `TxWithMinerFee.SBundle`. -/
def TxWithMinerFee.SBundle (t : TxWithMinerFee) : Option SimSBundle :=
  t.order.AsSBundle

/-- The method `TxWithMinerFee.Price`. -/
def TxWithMinerFee.Price (t : TxWithMinerFee) : Int :=
  t.minerFee

/-! ## Fee model -/

/-- The method `Transaction.GasTipCap`. -/
def Transaction.GasTipCap (tx : Transaction) : Int := tx.gasTipCap

/-- The method `Transaction.GasFeeCap`. -/
def Transaction.GasFeeCap (tx : Transaction) : Int := tx.gasFeeCap

/-- Modelled from the spec: `math.BigMin` of the go-ethereum `common/math`
package, declared outside this file, returns the smaller of its two arguments
(the first one when they are equal). -/
def BigMin (x y : Int) : Int :=
  if x > y then y else x

/-- The method `Transaction.EffectiveGasTip`: the value and the error that the
method returns together. -/
def Transaction.EffectiveGasTip (tx : Transaction) (baseFee : Option Int) :
    Int × Option Error :=
  match baseFee with
  | none => (tx.GasTipCap, none)
  | some baseFee =>
    let gasFeeCap := tx.GasFeeCap
    let err : Option Error :=
      if gasFeeCap < baseFee then some Error.ErrGasFeeCapTooLow else none
    (BigMin tx.GasTipCap (gasFeeCap - baseFee), err)

/-- The method `Transaction.EffectiveGasTipValue`. -/
def Transaction.EffectiveGasTipValue (tx : Transaction) (baseFee : Option Int) : Int :=
  (tx.EffectiveGasTip baseFee).1

/-! ## Order wrapper -/

/-- The function `NewTxWithMinerFee`. -/
def NewTxWithMinerFee (tx : Transaction) (baseFee : Option Int) :
    Except Error TxWithMinerFee :=
  match tx.EffectiveGasTip baseFee with
  | (_, some err) => Except.error err
  | (minerFee, none) => Except.ok ⟨_Order._TxOrder (some tx), minerFee⟩

/-- The function `NewBundleWithMinerFee`; the base fee is ignored. -/
def NewBundleWithMinerFee (bundle : SimulatedBundle) (_baseFee : Option Int) :
    Except Error TxWithMinerFee :=
  Except.ok ⟨_Order._BundleOrder (some bundle), bundle.MevGasPrice⟩

/-- The function `NewSBundleWithMinerFee`; the base fee is ignored. -/
def NewSBundleWithMinerFee (sbundle : SimSBundle) (_baseFee : Option Int) :
    Except Error TxWithMinerFee :=
  Except.ok ⟨_Order._SBundleOrder (some sbundle), sbundle.MevGasPrice⟩

/-- The method `Transaction.GasPrice`. -/
def Transaction.GasPrice (tx : Transaction) : Int := tx.gasPrice

/-- The method `Transaction.Gas`. -/
def Transaction.Gas (tx : Transaction) : Nat := tx.gas

/-- The method `TxWithMinerFee.Profit`. It aborts, which is `none`, when the
wrapper holds a transaction and the base fee is nil (`Sub` dereferences it) and
when the wrapper holds none of the three kinds. -/
def TxWithMinerFee.Profit (t : TxWithMinerFee) (baseFee : Option Int) (gasUsed : Nat) :
    Option Int :=
  match t.Tx with
  | some tx =>
    match baseFee with
    | none => none
    | some b =>
      let profit := tx.GasPrice - b
      if gasUsed ≠ 0 then some (profit * (gasUsed : Int))
      else some (profit * (tx.Gas : Int))
  | none =>
    match t.Bundle with
    | some bundle => some bundle.EthSentToCoinbase
    | none =>
      match t.SBundle with
      | some sbundle => some sbundle.Profit
      | none => none

/-- The method `TxWithMinerFee.SetProfit`. The bundle or sbundle behind the
pointer of the wrapper is changed in place; the result is the wrapper with the
changed bundle. It aborts, which is `none`, when the wrapper holds neither a
bundle nor an sbundle. The pointers `bundle.TotalEth`, `sbundle.Profit` and
`profit`, which `Set` dereferences, are values here, so the abort of `Set` on a
nil pointer among them is not part of this definition. -/
def TxWithMinerFee.SetProfit (t : TxWithMinerFee) (profit : Int) : Option TxWithMinerFee :=
  match t.Bundle with
  | some bundle =>
    some ⟨_Order._BundleOrder (some ⟨bundle.MevGasPrice, profit, bundle.EthSentToCoinbase,
      bundle.TotalGasUsed, bundle.OriginalBundle⟩), t.minerFee⟩
  | none =>
    match t.SBundle with
    | some sbundle =>
      some ⟨_Order._SBundleOrder (some ⟨sbundle.MevGasPrice, profit⟩), t.minerFee⟩
    | none => none

/-! ## Price and time heap -/

/-- The type `TxByPriceAndTime`, a slice of wrappers. -/
abbrev TxByPriceAndTime := List TxWithMinerFee

/-- The body of `TxByPriceAndTime.Less` on the two entries `a = s[i]` and
`b = s[j]`. -/
def TxWithMinerFee.less (a b : TxWithMinerFee) : Bool :=
  if a.minerFee = b.minerFee then
    match a.Tx, b.Tx with
    | some ta, some tb => decide (ta.time < tb.time)
    | _, _ =>
      match a.Bundle, b.Bundle with
      | some ba, some bb => decide (ba.TotalGasUsed ≤ bb.TotalGasUsed)
      | some _, none => false
      | none, _ => true
  else
    decide (a.minerFee > b.minerFee)

/-- The method `TxByPriceAndTime.Len`. -/
def TxByPriceAndTime.Len (s : TxByPriceAndTime) : Nat := s.length

/-- The method `TxByPriceAndTime.Less`. Both indices are in range at every call
that `container/heap` makes; out of range, where the Go method aborts, the
embedding answers `false`. -/
def TxByPriceAndTime.Less (s : TxByPriceAndTime) (i j : Nat) : Bool :=
  match s[i]?, s[j]? with
  | some a, some b => a.less b
  | _, _ => false

/-- The method `TxByPriceAndTime.Swap`. Both indices are in range at every call
that `container/heap` makes; out of range the embedding leaves the slice as it
is. -/
def TxByPriceAndTime.Swap (s : TxByPriceAndTime) (i j : Nat) : TxByPriceAndTime :=
  match s[i]?, s[j]? with
  | some a, some b => (s.set i b).set j a
  | _, _ => s

/-- The method `TxByPriceAndTime.Push`: append at the end. -/
def TxByPriceAndTime.Push (s : TxByPriceAndTime) (x : TxWithMinerFee) : TxByPriceAndTime :=
  s ++ [x]

/-- The method `TxByPriceAndTime.Pop`: remove and return the last entry; it
aborts on the empty slice. -/
def TxByPriceAndTime.Pop (s : TxByPriceAndTime) : Option (TxWithMinerFee × TxByPriceAndTime) :=
  match s.getLast? with
  | none => none
  | some x => some (x, s.dropLast)

/-! ## The binary heap of `container/heap`

The Go standard library package `container/heap` is not part of the
repository; its five functions are embedded here as the library defines them.
A loop is a recursion on a fuel argument that bounds the number of rounds. -/

namespace heap

/-- Modelled from the spec: the loop of `down` in `container/heap`, the
sift-down primitive, started at `i` on the first `n` entries; it returns the
slice and the final position. In a round the larger child `j` of `i` is
chosen, and the loop stops when `j` is not before `i`. -/
def downLoop : Nat → TxByPriceAndTime → Nat → Nat → TxByPriceAndTime × Nat
  | 0, h, i, _ => (h, i)
  | fuel + 1, h, i, n =>
    let j1 := 2 * i + 1
    if j1 ≥ n then (h, i)
    else
      let j := if j1 + 1 < n && TxByPriceAndTime.Less h (j1 + 1) j1 then j1 + 1 else j1
      if !TxByPriceAndTime.Less h j i then (h, i)
      else downLoop fuel (TxByPriceAndTime.Swap h i j) j n

/-- Modelled from the spec: `down(h, i0, n)` of `container/heap`; the Boolean is
`i > i0`, whether the entry moved. At most `n` rounds run, since the position
grows in every round and stays below `n`. -/
def down (h : TxByPriceAndTime) (i0 n : Nat) : TxByPriceAndTime × Bool :=
  let r := downLoop n h i0 n
  (r.1, decide (r.2 > i0))

/-- Modelled from the spec: the loop of `up` in `container/heap`, the sift-up
primitive; the parent of `j` is `(j - 1) / 2`, which is `0` for `j = 0`. -/
def upLoop : Nat → TxByPriceAndTime → Nat → TxByPriceAndTime
  | 0, h, _ => h
  | fuel + 1, h, j =>
    let i := (j - 1) / 2
    if i = j || !TxByPriceAndTime.Less h j i then h
    else upLoop fuel (TxByPriceAndTime.Swap h i j) i

/-- Modelled from the spec: `up(h, j)` of `container/heap`. At most `j` rounds
swap, since the position shrinks in every round. -/
def up (h : TxByPriceAndTime) (j : Nat) : TxByPriceAndTime :=
  upLoop (j + 1) h j

/-- Modelled from the spec: the loop of `heap.Init`, `down(h, i, n)` for
`i = k - 1, ..., 0`. -/
def initLoop : Nat → TxByPriceAndTime → Nat → TxByPriceAndTime
  | 0, h, _ => h
  | k + 1, h, n => initLoop k (down h k n).1 n

/-- Modelled from the spec: `heap.Init` of `container/heap` (heapify). -/
def Init (h : TxByPriceAndTime) : TxByPriceAndTime :=
  initLoop (TxByPriceAndTime.Len h / 2) h (TxByPriceAndTime.Len h)

/-- Modelled from the spec: `heap.Push` of `container/heap`. -/
def Push (h : TxByPriceAndTime) (x : TxWithMinerFee) : TxByPriceAndTime :=
  let h1 := TxByPriceAndTime.Push h x
  up h1 (TxByPriceAndTime.Len h1 - 1)

/-- Modelled from the spec: `heap.Pop` of `container/heap`: swap the root with
the last entry, sift the new root down in the first `n` entries and remove the
last entry. On the empty heap `Swap(0, -1)` aborts. -/
def Pop (h : TxByPriceAndTime) : Option (TxWithMinerFee × TxByPriceAndTime) :=
  if TxByPriceAndTime.Len h = 0 then none
  else
    let n := TxByPriceAndTime.Len h - 1
    let h1 := TxByPriceAndTime.Swap h 0 n
    let h2 := (down h1 0 n).1
    TxByPriceAndTime.Pop h2

/-- Modelled from the spec: `heap.Fix` of `container/heap`. -/
def Fix (h : TxByPriceAndTime) (i : Nat) : TxByPriceAndTime :=
  let r := down h i (TxByPriceAndTime.Len h)
  if !r.2 then up r.1 i else r.1

end heap

/-! ## Order book -/

/-- The map `map[common.Address]Transactions`. -/
abbrev TxMap := List (Address × Transactions)

/-- The lookup `txs[a]` with its presence flag. -/
def mapGet : TxMap → Address → Option Transactions
  | [], _ => none
  | (k, v) :: m, a => if k = a then some v else mapGet m a

/-- The assignment `txs[a] = v`. -/
def mapSet : TxMap → Address → Transactions → TxMap
  | [], a, v => [(a, v)]
  | (k, w) :: m, a, v => if k = a then (k, v) :: m else (k, w) :: mapSet m a v

/-- The statement `delete(txs, a)`. -/
def mapDelete (m : TxMap) (a : Address) : TxMap :=
  m.filter (fun e => decide (e.1 ≠ a))

/-- Modelled from the spec: the signer capability, declared outside this file,
resolves the paying account of a transaction or fails. -/
structure Signer where
  Sender : Transaction → Except Error Address

/-- Modelled from the spec: the package function `Sender(signer, tx)`, declared
outside this file, returns the account the signer recovers, or the zero address
together with the error. -/
def Sender (signer : Signer) (tx : Transaction) : Address × Option Error :=
  match signer.Sender tx with
  | Except.ok a => (a, none)
  | Except.error e => (0, some e)

/-- The struct `TransactionsByPriceAndNonce`. -/
structure TransactionsByPriceAndNonce where
  txs : TxMap
  heads : TxByPriceAndTime
  signer : Signer
  baseFee : Option Int

/-- The first loop of the constructor: wrap every sbundle. -/
def wrapSBundles (baseFee : Option Int) : List SimSBundle → TxByPriceAndTime → TxByPriceAndTime
  | [], heads => heads
  | sb :: rest, heads =>
    match NewSBundleWithMinerFee sb baseFee with
    | Except.error _ => wrapSBundles baseFee rest heads
    | Except.ok wrapped => wrapSBundles baseFee rest (heads ++ [wrapped])

/-- The second loop of the constructor: wrap every bundle. -/
def wrapBundles (baseFee : Option Int) : List SimulatedBundle → TxByPriceAndTime → TxByPriceAndTime
  | [], heads => heads
  | b :: rest, heads =>
    match NewBundleWithMinerFee b baseFee with
    | Except.error _ => wrapBundles baseFee rest heads
    | Except.ok wrapped => wrapBundles baseFee rest (heads ++ [wrapped])

/-- The third loop of the constructor, over the entries `(frm, accTxs)` of the
map in the order `range` visits them, on the state `(txs, heads)`. Reading
`accTxs[0]` of an empty queue aborts. -/
def seedLoop (signer : Signer) (baseFee : Option Int) :
    List (Address × Transactions) → TxMap × TxByPriceAndTime → Option (TxMap × TxByPriceAndTime)
  | [], st => some st
  | (_, []) :: _, _ => none
  | (frm, tx0 :: tail) :: rest, (txs, heads) =>
    let acc := (Sender signer tx0).1
    match NewTxWithMinerFee tx0 baseFee with
    | Except.error _ => seedLoop signer baseFee rest (mapDelete txs frm, heads)
    | Except.ok wrapped =>
      if acc ≠ frm then seedLoop signer baseFee rest (mapDelete txs frm, heads)
      else seedLoop signer baseFee rest (mapSet txs frm tail, heads ++ [wrapped])

/-- The function `NewTransactionsByPriceAndNonce`. The logging loop after
`heap.Init` changes nothing and is left out. -/
def NewTransactionsByPriceAndNonce (signer : Signer) (txs : TxMap)
    (bundles : List SimulatedBundle) (sbundles : List SimSBundle) (baseFee : Option Int) :
    Option TransactionsByPriceAndNonce :=
  let heads0 := wrapSBundles baseFee sbundles []
  let heads1 := wrapBundles baseFee bundles heads0
  match seedLoop signer baseFee txs (txs, heads1) with
  | none => none
  | some (txs2, heads2) => some ⟨txs2, heap.Init heads2, signer, baseFee⟩

/-- The method `TransactionsByPriceAndNonce.DeepCopy`. The heads are appended
to an empty slice, every entry of the map is assigned into a new map, and the
base fee is copied by `new(big.Int).Set(t.baseFee)`, which dereferences the
base fee and aborts when it is nil. -/
def TransactionsByPriceAndNonce.DeepCopy (t : TransactionsByPriceAndNonce) :
    Option TransactionsByPriceAndNonce :=
  match t.baseFee with
  | none => none
  | some b =>
    some ⟨t.txs.foldl (fun m e => mapSet m e.1 e.2) [], [] ++ t.heads, t.signer, some b⟩

/-- The method `TransactionsByPriceAndNonce.Peek`; `none` is the nil result. -/
def TransactionsByPriceAndNonce.Peek (t : TransactionsByPriceAndNonce) : Option TxWithMinerFee :=
  match t.heads with
  | [] => none
  | w :: _ => some w

/-- The method `TransactionsByPriceAndNonce.Pop`; it aborts on a book without
heads. -/
def TransactionsByPriceAndNonce.Pop (t : TransactionsByPriceAndNonce) :
    Option TransactionsByPriceAndNonce :=
  match heap.Pop t.heads with
  | none => none
  | some (_, heads) => some ⟨t.txs, heads, t.signer, t.baseFee⟩

/-- The nested conditions of `Shift`: the replacement of the top entry `top`,
as the sender, the wrapper of the next transaction and the rest of the queue,
when the top holds a transaction, its sender has a non-empty queue and the
wrap succeeds. -/
def TransactionsByPriceAndNonce.shiftNext (t : TransactionsByPriceAndNonce)
    (top : TxWithMinerFee) : Option (Address × TxWithMinerFee × Transactions) :=
  match top.Tx with
  | none => none
  | some tx =>
    let acc := (Sender t.signer tx).1
    match mapGet t.txs acc with
    | some (tx0 :: tail) =>
      match NewTxWithMinerFee tx0 t.baseFee with
      | Except.ok wrapped => some (acc, wrapped, tail)
      | Except.error _ => none
    | _ => none

/-- The method `TransactionsByPriceAndNonce.Shift`; reading `heads[0]` of a
book without heads aborts. -/
def TransactionsByPriceAndNonce.Shift (t : TransactionsByPriceAndNonce) :
    Option TransactionsByPriceAndNonce :=
  match t.heads with
  | [] => none
  | top :: _ =>
    match t.shiftNext top with
    | some (acc, wrapped, tail) =>
      some ⟨mapSet t.txs acc tail, heap.Fix (t.heads.set 0 wrapped) 0, t.signer, t.baseFee⟩
    | none => t.Pop

/-- The method `TransactionsByPriceAndNonce.ShiftAndPushByAccountForTx`. -/
def TransactionsByPriceAndNonce.ShiftAndPushByAccountForTx (t : TransactionsByPriceAndNonce)
    (tx : Option Transaction) : TransactionsByPriceAndNonce :=
  match tx with
  | none => t
  | some tx =>
    let acc := (Sender t.signer tx).1
    match mapGet t.txs acc with
    | some (tx0 :: tail) =>
      match NewTxWithMinerFee tx0 t.baseFee with
      | Except.ok wrapped => ⟨mapSet t.txs acc tail, heap.Push t.heads wrapped, t.signer, t.baseFee⟩
      | Except.error _ => t
    | _ => t

/-- The method `TransactionsByPriceAndNonce.Push`. -/
def TransactionsByPriceAndNonce.Push (t : TransactionsByPriceAndNonce)
    (tx : Option TxWithMinerFee) : TransactionsByPriceAndNonce :=
  match tx with
  | none => t
  | some w => ⟨t.txs, heap.Push t.heads w, t.signer, t.baseFee⟩

/-! ## Runs of the order book -/

/-- A call of one of the four mutating methods of the book. -/
inductive BookOp where
  | Shift
  | Pop
  | Push (tx : Option TxWithMinerFee)
  | ShiftAndPushByAccountForTx (tx : Option Transaction)

/-- The effect of one call; `none` when the call aborts. -/
def applyOp (t : TransactionsByPriceAndNonce) : BookOp → Option TransactionsByPriceAndNonce
  | BookOp.Shift => t.Shift
  | BookOp.Pop => t.Pop
  | BookOp.Push tx => some (t.Push tx)
  | BookOp.ShiftAndPushByAccountForTx tx => some (t.ShiftAndPushByAccountForTx tx)

/-- The effect of a finite sequence of calls, each applied where it is
defined. -/
def applyOps (t : TransactionsByPriceAndNonce) : List BookOp → Option TransactionsByPriceAndNonce
  | [] => some t
  | op :: ops =>
    match applyOp t op with
    | none => none
    | some t1 => applyOps t1 ops

/-- The caller loop that drains a book: take `Peek`, stop when it is nil,
otherwise record the entry and call `Pop`. The first argument bounds the number
of rounds. -/
def drainByPop : Nat → TransactionsByPriceAndNonce → List TxWithMinerFee
  | 0, _ => []
  | fuel + 1, t =>
    match t.Peek with
    | none => []
    | some w =>
      match t.Pop with
      | none => []
      | some t1 => w :: drainByPop fuel t1

/-- The caller loop that drives a book to exhaustion: take `Peek`, stop when it
is nil, otherwise record the entry and call `Shift`. The first argument bounds
the number of rounds. -/
def driveByShift : Nat → TransactionsByPriceAndNonce → List TxWithMinerFee
  | 0, _ => []
  | fuel + 1, t =>
    match t.Peek with
    | none => []
    | some w =>
      match t.Shift with
      | none => []
      | some t1 => w :: driveByShift fuel t1

/-- A caller run that only calls `Shift` or `Pop` while `Peek` is not nil: in
each round the run stops when `Peek` is nil, and otherwise calls `Shift` when
the next choice is `true` and `Pop` when it is `false`. The result is the final
book and the number of calls made; `none` when a call aborts. -/
def runShiftPop : List Bool → TransactionsByPriceAndNonce →
    Option (TransactionsByPriceAndNonce × Nat)
  | [], t => some (t, 0)
  | c :: cs, t =>
    match t.Peek with
    | none => some (t, 0)
    | some _ =>
      match (if c then t.Shift else t.Pop) with
      | none => none
      | some t1 =>
        match runShiftPop cs t1 with
        | none => none
        | some (r, k) => some (r, k + 1)

/-! ## The objects behind a book

A book is a struct of references. To speak about two books that may share what
they point to, the objects that the methods write are kept in an explicit
memory, by address: the map objects, the storage of the heads slices and the
`big.Int` objects. The wrappers and the queue slices are never written by the
methods of the book and stay values. -/

/-- The mutable objects that the fields of books point to, by address. -/
structure Memory where
  maps : List TxMap
  slices : List TxByPriceAndTime
  ints : List Int

/-- The fields of the struct `TransactionsByPriceAndNonce` as references: the
address of the map `txs`, the address of the storage of the slice `heads`, the
signer and the pointer `baseFee`, which may be nil. -/
structure BookRef where
  txs : Nat
  heads : Nat
  signer : Signer
  baseFee : Option Nat

/-- The book that a reference denotes in a memory; `none` when an address is
not allocated. -/
def Memory.load (mem : Memory) (r : BookRef) : Option TransactionsByPriceAndNonce :=
  match mem.maps[r.txs]?, mem.slices[r.heads]? with
  | some m, some h =>
    match r.baseFee with
    | none => some ⟨m, h, r.signer, none⟩
    | some p =>
      match mem.ints[p]? with
      | some v => some ⟨m, h, r.signer, some v⟩
      | none => none
  | _, _ => none

/-- The writes of a method call on the book behind `r`: the methods assign to
`t.txs[acc]` and to `t.heads` only. -/
def Memory.store (mem : Memory) (r : BookRef) (t : TransactionsByPriceAndNonce) : Memory :=
  ⟨mem.maps.set r.txs t.txs, mem.slices.set r.heads t.heads, mem.ints⟩

/-- The method `DeepCopy` on references: `make` allocates a new map that
receives every entry, `append` to the empty slice allocates new storage for the
heads, and `new(big.Int).Set` allocates a new integer; it aborts when the base
fee is nil. -/
def Memory.DeepCopy (mem : Memory) (r : BookRef) : Option (Memory × BookRef) :=
  match mem.load r with
  | none => none
  | some t =>
    match t.DeepCopy with
    | none => none
    | some c =>
      match c.baseFee with
      | none => none
      | some v =>
        some (⟨mem.maps ++ [c.txs], mem.slices ++ [c.heads], mem.ints ++ [v]⟩,
          ⟨mem.maps.length, mem.slices.length, c.signer, some mem.ints.length⟩)

/-- A step that a caller can take on a book: a call of one of the four mutating
methods, the replacement of the value of the base fee in place
(`t.baseFee.Set(v)`), the replacement of the base fee by a new integer
(`t.baseFee = v`), the assignment `t.txs[a] = q` and `delete(t.txs, a)`. -/
inductive MemOp where
  | call (op : BookOp)
  | setBaseFee (v : Int)
  | newBaseFee (v : Int)
  | setQueue (a : Address) (q : Transactions)
  | deleteQueue (a : Address)

/-- The effect of one step on the book behind `r`; `none` when it aborts. -/
def Memory.step (mem : Memory) (r : BookRef) : MemOp → Option (Memory × BookRef)
  | MemOp.call op =>
    match mem.load r with
    | none => none
    | some t =>
      match applyOp t op with
      | none => none
      | some t1 => some (mem.store r t1, r)
  | MemOp.setBaseFee v =>
    match r.baseFee with
    | none => none
    | some p =>
      if p < mem.ints.length then some (⟨mem.maps, mem.slices, mem.ints.set p v⟩, r)
      else none
  | MemOp.newBaseFee v =>
    some (⟨mem.maps, mem.slices, mem.ints ++ [v]⟩,
      ⟨r.txs, r.heads, r.signer, some mem.ints.length⟩)
  | MemOp.setQueue a q =>
    match mem.maps[r.txs]? with
    | none => none
    | some m => some (⟨mem.maps.set r.txs (mapSet m a q), mem.slices, mem.ints⟩, r)
  | MemOp.deleteQueue a =>
    match mem.maps[r.txs]? with
    | none => none
    | some m => some (⟨mem.maps.set r.txs (mapDelete m a), mem.slices, mem.ints⟩, r)

/-- The effect of a finite sequence of steps on the book behind `r`. -/
def Memory.steps (mem : Memory) (r : BookRef) : List MemOp → Option (Memory × BookRef)
  | [] => some (mem, r)
  | op :: ops =>
    match mem.step r op with
    | none => none
    | some (mem1, r1) => Memory.steps mem1 r1 ops

/-- Two references share no object: their maps, the storage of their heads and
their base fee integers are at different addresses. -/
def BookRef.Apart (r o : BookRef) : Prop :=
  r.txs ≠ o.txs ∧ r.heads ≠ o.heads ∧
    ∀ p q, r.baseFee = some p → o.baseFee = some q → p ≠ q

/-! ## Typed transaction envelope

The structs `LegacyTx`, `AccessListTx` and `DynamicFeeTx` and the package `rlp`
are declared outside this file. The contents of the three structs are the types
`L`, `A` and `D`, and the codec of `rlp` for them is a parameter. -/

/-- A byte string. -/
abbrev Bytes := List Nat

/-- The constant `LegacyTxType`. -/
def LegacyTxType : Nat := 0

/-- The constant `AccessListTxType`. -/
def AccessListTxType : Nat := 1

/-- The constant `DynamicFeeTxType`. -/
def DynamicFeeTxType : Nat := 2

/-- The three implementations of the interface `TxData`. -/
inductive TxData (L A D : Type) where
  | LegacyTx (tx : L)
  | AccessListTx (tx : A)
  | DynamicFeeTx (tx : D)

/-- Modelled from the spec: the method `txType` of the three implementations,
declared outside this file, returns the type tag of the variant. -/
def TxData.txType {L A D : Type} : TxData L A D → Nat
  | TxData.LegacyTx _ => LegacyTxType
  | TxData.AccessListTx _ => AccessListTxType
  | TxData.DynamicFeeTx _ => DynamicFeeTxType

/-- Modelled from the spec: the method `copy` of the three implementations,
declared outside this file, returns a deep copy: the same field values. -/
def TxData.copy {L A D : Type} (inner : TxData L A D) : TxData L A D := inner

/-- An error of decoding: an error value of this package, or an error value of
the package `rlp`, which is a different value from each of them. -/
inductive CodecError (E : Type) where
  | types (err : Error)
  | rlp (err : E)

/-- Modelled from the spec: the structured field codec of the package `rlp`,
declared outside this file, for the three structs: `rlp.EncodeToBytes` and
`rlp.DecodeBytes` at each of the three static types. -/
structure RlpCodec (L A D E : Type) where
  encodeLegacy : L → Except E Bytes
  decodeLegacy : Bytes → Except E L
  encodeAccessList : A → Except E Bytes
  decodeAccessList : Bytes → Except E A
  encodeDynamicFee : D → Except E Bytes
  decodeDynamicFee : Bytes → Except E D

/-- The calls `rlp.EncodeToBytes(tx.inner)` and `rlp.Encode(w, tx.inner)`, which
encode by the dynamic type of `inner`. -/
def RlpCodec.Encode {L A D E : Type} (c : RlpCodec L A D E) : TxData L A D → Except E Bytes
  | TxData.LegacyTx tx => c.encodeLegacy tx
  | TxData.AccessListTx tx => c.encodeAccessList tx
  | TxData.DynamicFeeTx tx => c.encodeDynamicFee tx

/-- The struct `Transaction` as the encoding sees it: the field `inner`, an
interface value that is nil in `new(Transaction)`, and the caches `hash` and
`size`, which are empty when `none`. The fields `time` and `from` are not read
by the functions below. -/
structure Envelope (L A D : Type) where
  inner : Option (TxData L A D)
  hash : Option Hash
  size : Option Nat

/-- The value `new(Transaction)`. -/
def Envelope.new {L A D : Type} : Envelope L A D := ⟨none, none, none⟩

/-- The method `Transaction.setDecoded`. -/
def Envelope.setDecoded {L A D : Type} (tx : Envelope L A D) (inner : TxData L A D)
    (size : Nat) : Envelope L A D :=
  ⟨some inner, tx.hash, if size > 0 then some size else tx.size⟩

/-- The function `NewTx`. -/
def NewTx {L A D : Type} (inner : TxData L A D) : Envelope L A D :=
  Envelope.new.setDecoded inner.copy 0

/-- The method `Transaction.Type`; `none` is the abort of the call on a nil
`inner`. -/
def Envelope.Type {L A D : Type} (tx : Envelope L A D) : Option Nat :=
  match tx.inner with
  | some inner => some inner.txType
  | none => none

/-- The method `Transaction.encodeTyped` on an empty buffer: the type byte
followed by the encoding of `inner`. -/
def Envelope.encodeTyped {L A D E : Type} (c : RlpCodec L A D E) (tx : Envelope L A D) :
    Option (Except E Bytes) :=
  match tx.inner with
  | some inner =>
    match c.Encode inner with
    | Except.ok bs => some (Except.ok (inner.txType :: bs))
    | Except.error err => some (Except.error err)
  | none => none

/-- The method `Transaction.MarshalBinary`; `none` is the abort on a nil
`inner`. An error stands for the pair of the error and the bytes returned with
it. -/
def Envelope.MarshalBinary {L A D E : Type} (c : RlpCodec L A D E) (tx : Envelope L A D) :
    Option (Except E Bytes) :=
  match tx.inner with
  | some inner =>
    if inner.txType = LegacyTxType then some (c.Encode inner)
    else tx.encodeTyped c
  | none => none

/-- The method `Transaction.decodeTyped`, which does not read its receiver. -/
def decodeTyped {L A D E : Type} (c : RlpCodec L A D E) (b : Bytes) :
    Except (CodecError E) (TxData L A D) :=
  if b.length ≤ 1 then Except.error (CodecError.types Error.errShortTypedTx)
  else if b.headD 0 = AccessListTxType then
    match c.decodeAccessList b.tail with
    | Except.ok inner => Except.ok (TxData.AccessListTx inner)
    | Except.error err => Except.error (CodecError.rlp err)
  else if b.headD 0 = DynamicFeeTxType then
    match c.decodeDynamicFee b.tail with
    | Except.ok inner => Except.ok (TxData.DynamicFeeTx inner)
    | Except.error err => Except.error (CodecError.rlp err)
  else Except.error (CodecError.types Error.ErrTxTypeNotSupported)

/-- The method `Transaction.UnmarshalBinary`: the receiver after the call, or
the error, with which the receiver is left as it was. -/
def Envelope.UnmarshalBinary {L A D E : Type} (c : RlpCodec L A D E) (tx : Envelope L A D)
    (b : Bytes) : Except (CodecError E) (Envelope L A D) :=
  if b.length > 0 ∧ b.headD 0 > 0x7f then
    match c.decodeLegacy b with
    | Except.ok data => Except.ok (tx.setDecoded (TxData.LegacyTx data) b.length)
    | Except.error err => Except.error (CodecError.rlp err)
  else
    match decodeTyped c b with
    | Except.ok inner => Except.ok (tx.setDecoded inner b.length)
    | Except.error err => Except.error err

/-- The method `Transaction.Hash`: the hash and the receiver after the call,
which caches it; `none` is the abort on a nil `inner`. The functions `rlpHash`
and `prefixedRlpHash` are declared outside this file. -/
def Envelope.Hash {L A D : Type} (rlpHash : TxData L A D → Hash)
    (prefixedRlpHash : Nat → TxData L A D → Hash) (tx : Envelope L A D) :
    Option (Hash × Envelope L A D) :=
  match tx.hash with
  | some hash => some (hash, tx)
  | none =>
    match tx.inner with
    | some inner =>
      let h := if inner.txType = LegacyTxType then rlpHash inner
        else prefixedRlpHash inner.txType inner
      some (h, ⟨tx.inner, some h, tx.size⟩)
    | none => none

/-! ## Signature checks -/

/-- The loop behind `big.Int.BitLen`: the number of binary digits of `n`. -/
def bitLenLoop : Nat → Nat → Nat
  | 0, _ => 0
  | fuel + 1, n => if n = 0 then 0 else bitLenLoop fuel (n / 2) + 1

/-- Modelled from the spec: `big.Int.BitLen` of the Go standard library, the
length of the absolute value in bits, `0` for `0`. -/
def BitLen (x : Int) : Nat := bitLenLoop x.natAbs x.natAbs

/-- Modelled from the spec: `big.Int.Uint64` of the Go standard library, the low
64 bits of the absolute value. -/
def Uint64 (x : Int) : Nat := x.natAbs % 2 ^ 64

/-- The subtraction of `uint64`, which wraps. -/
def sub64 (x y : Nat) : Nat := (x % 2 ^ 64 + 2 ^ 64 - y % 2 ^ 64) % 2 ^ 64

/-- The multiplication of `uint64`, which wraps. -/
def mul64 (x y : Nat) : Nat := (x * y) % 2 ^ 64

/-- The function `isProtectedV`. -/
def isProtectedV (V : Int) : Bool :=
  if BitLen V ≤ 8 then
    let v := Uint64 V
    v != 27 && v != 28 && v != 1 && v != 0
  else true

/-- The function `sanityCheckSignature`; `none` is the nil error. The functions
`deriveChainId` and `crypto.ValidateSignatureValues` are declared outside this
file. -/
def sanityCheckSignature (deriveChainId : Int → Int)
    (ValidateSignatureValues : Nat → Int → Int → Bool → Bool)
    (v r s : Int) (maybeProtected : Bool) : Option Error :=
  if isProtectedV v && !maybeProtected then some Error.ErrUnexpectedProtection
  else
    let plainV : Nat :=
      if isProtectedV v then
        let chainID := Uint64 (deriveChainId v)
        sub64 (sub64 (Uint64 v) 35) (mul64 2 chainID) % 256
      else if maybeProtected then sub64 (Uint64 v) 27 % 256
      else Uint64 v % 256
    if !ValidateSignatureValues plainV r s false then some Error.ErrInvalidSig
    else none

/-- The method `Transaction.Protected`; `V` reads the field `V` of a `LegacyTx`,
which may be nil. The type switch takes the default case on a nil `inner`. -/
def Envelope.Protected {L A D : Type} (V : L → Option Int) (tx : Envelope L A D) : Bool :=
  match tx.inner with
  | some (TxData.LegacyTx inner) =>
    match V inner with
    | some v => isProtectedV v
    | none => false
  | _ => true

/-! ## Set differences -/

/-- The function `HashDifference`: the map `remove` is the list of its keys. -/
def HashDifference (a b : List Hash) : List Hash :=
  let remove : List Hash := b.foldl (fun m hash => if hash ∈ m then m else m ++ [hash]) []
  a.foldl (fun keep hash => if hash ∈ remove then keep else keep ++ [hash]) []

/-- The function `TxDifference`; `hashOf` is the method `Hash` of a
transaction. -/
def TxDifference (hashOf : Transaction → Hash) (a b : Transactions) : Transactions :=
  let remove : List Hash :=
    b.foldl (fun m tx => if hashOf tx ∈ m then m else m ++ [hashOf tx]) []
  a.foldl (fun keep tx => if hashOf tx ∈ remove then keep else keep ++ [tx]) []

/-! ## Bundle identity -/

/-- Modelled from the spec: `bytes.Compare` of the Go standard library, the
lexicographic comparison of two byte strings, as `-1`, `0` or `1`. -/
def bytesCompare : Bytes → Bytes → Int
  | [], [] => 0
  | [], _ :: _ => -1
  | _ :: _, [] => 1
  | x :: xs, y :: ys =>
    if x < y then -1 else if y < x then 1 else bytesCompare xs ys

/-- The conversion of a `uint64` to `int64`, which reads the same 64 bits as a
signed number. -/
def toInt64 (u : Nat) : Int :=
  if u % 2 ^ 64 < 2 ^ 63 then ((u % 2 ^ 64 : Nat) : Int)
  else ((u % 2 ^ 64 : Nat) : Int) - 2 ^ 64

/-- Modelled from the spec: `big.Int.Int64` of the Go standard library: the low
64 bits of the absolute value as an `int64`, negated when the number is
negative. -/
def Int64 (x : Int) : Int :=
  let v := toInt64 (x.natAbs % 2 ^ 64)
  if x < 0 then toInt64 ((-v % 2 ^ 64).toNat) else v

/-- The loop of `binary.AppendUvarint`: groups of seven bits, low group first,
each but the last with the high bit set. A `uint64` has at most ten groups. -/
def appendUvarintLoop : Nat → Bytes → Nat → Bytes
  | 0, buf, x => buf ++ [x % 256]
  | fuel + 1, buf, x =>
    if x ≥ 0x80 then appendUvarintLoop fuel (buf ++ [x % 128 + 128]) (x / 128)
    else buf ++ [x % 256]

/-- Modelled from the spec: `binary.AppendVarint` of the Go standard library on
an `int64`: the zig-zag value `uint64(x) << 1`, complemented when `x` is
negative, in the unsigned varint format. -/
def AppendVarint (buf : Bytes) (x : Int) : Bytes :=
  let ux : Nat := (2 * (x % 2 ^ 64).toNat) % 2 ^ 64
  let ux : Nat := if x < 0 then 2 ^ 64 - 1 - ux else ux
  appendUvarintLoop 10 buf ux

/-- Modelled from the spec: `sort.Slice` of the Go standard library with the
comparison `bytes.Compare(x, y) <= 0`: the hashes in ascending byte order. -/
def sortHashes (l : List Hash) : List Hash :=
  l.insertionSort (fun x y => bytesCompare x y ≤ 0)

/-- The method `MevBundle.UniquePayload`: the payload, and the bundle with its
`RevertingTxHashes` sorted in place. -/
def MevBundle.UniquePayload (b : MevBundle) : Bytes × MevBundle :=
  let buf := AppendVarint [] (Int64 b.BlockNumber)
  let buf := buf ++ b.Hash
  let sorted := sortHashes b.RevertingTxHashes
  (sorted.foldl (fun buf txHash => buf ++ txHash) buf,
    ⟨b.Txs, b.BlockNumber, b.Uuid, b.SigningAddress, b.MinTimestamp, b.MaxTimestamp, sorted,
      b.Hash⟩)

/-- The method `MevBundle.ComputeUUID`; `NewHash` is the call
`uuid.NewHash(sha256.New(), uuid.Nil, data, 5)` as a function of the data,
declared outside this file. -/
def MevBundle.ComputeUUID (NewHash : Bytes → List Nat) (b : MevBundle) :
    List Nat × MevBundle :=
  let r := b.UniquePayload
  (NewHash r.1, r.2)

/-! ## The constructor in the words of the specification -/

/-- The wrapper of an sbundle. -/
def wrapSBundle (sb : SimSBundle) : TxWithMinerFee :=
  ⟨_Order._SBundleOrder (some sb), sb.MevGasPrice⟩

/-- The wrapper of a bundle. -/
def wrapBundle (b : SimulatedBundle) : TxWithMinerFee :=
  ⟨_Order._BundleOrder (some b), b.MevGasPrice⟩

/-- The head that the sender entry `(key, queue)` contributes, in the words of
the specification: the wrapper of the first transaction of the queue when the
account recovered from it equals the key and the fee wrap succeeds, and no head
otherwise. -/
def seedHead (signer : Signer) (baseFee : Option Int) (e : Address × Transactions) :
    Option TxWithMinerFee :=
  match e.2 with
  | [] => none
  | tx0 :: _ =>
    if (Sender signer tx0).1 = e.1 then
      match NewTxWithMinerFee tx0 baseFee with
      | Except.ok wrapped => some wrapped
      | Except.error _ => none
    else none

/-- The transactions held by the entries `l`, in the order of `l`, whose
account recovered by the signer is `a`. -/
def txsOf (signer : Signer) (a : Address) (l : List TxWithMinerFee) : List Transaction :=
  (l.filterMap TxWithMinerFee.Tx).filter (fun tx => decide ((Sender signer tx).1 = a))

/-- The total length of the sender queues of a map. -/
def queueLengths (m : TxMap) : Nat :=
  (m.map (fun e => e.2.length)).sum

/-- The number of head entries plus the total length of the sender queues. -/
def bookSize (t : TransactionsByPriceAndNonce) : Nat :=
  t.heads.length + queueLengths t.txs

/-! ## Example data -/

/-- A bundle with MEV gas price `5` and total gas used `1000`. -/
def exampleBundle : SimulatedBundle :=
  ⟨5, 0, 0, 1000, ⟨[], 0, [], 0, 0, 0, [], []⟩⟩

/-- A bundle with MEV gas price `5` and total gas used `2000`. -/
def exampleBundleHeavy : SimulatedBundle :=
  ⟨5, 0, 0, 2000, ⟨[], 0, [], 0, 0, 0, [], []⟩⟩

/-- A transaction with tip cap `5` and fee cap `5`, first seen at instant `0`. -/
def exampleTx : Transaction :=
  ⟨0, 5, 5, 5, 21000, 0⟩

/-- A transaction with tip cap `5` and fee cap `5`, first seen at instant `1`. -/
def exampleTxLate : Transaction :=
  ⟨1, 5, 5, 5, 21000, 1⟩

/-- A transaction with tip cap `9` and fee cap `9`, first seen at instant `2`. -/
def exampleTxRich : Transaction :=
  ⟨0, 9, 9, 9, 21000, 2⟩

/-- A signer that recovers the account `1` for a transaction of gas limit
`21000`, the account `2` for gas limit `21001`, and fails otherwise. -/
def exampleSigner : Signer :=
  ⟨fun tx =>
    if tx.gas = 21000 then Except.ok 1
    else if tx.gas = 21001 then Except.ok 2
    else Except.error Error.ErrInvalidSig⟩

/-- The queue of account `1`: tips `10`, `20` and `3` in nonce order. -/
def exampleQueue1 : Transactions :=
  [⟨0, 10, 10, 10, 21000, 0⟩, ⟨1, 20, 20, 20, 21000, 1⟩, ⟨2, 3, 3, 3, 21000, 2⟩]

/-- The queue of account `2`: tips `7` and `8` in nonce order. -/
def exampleQueue2 : Transactions :=
  [⟨0, 7, 7, 7, 21001, 3⟩, ⟨1, 8, 8, 8, 21001, 4⟩]

/-- The book built from the queue of account `1` and the bundle of price `5`
at base fee `0`. -/
def exampleBook : TransactionsByPriceAndNonce :=
  ⟨[(1, [⟨1, 20, 20, 20, 21000, 1⟩, ⟨2, 3, 3, 3, 21000, 2⟩])],
    [⟨_Order._TxOrder (some ⟨0, 10, 10, 10, 21000, 0⟩), 10⟩,
      ⟨_Order._BundleOrder (some exampleBundle), 5⟩],
    exampleSigner, some 0⟩

/-- The book `exampleBook` after two calls of `Shift`. -/
def exampleBookShifted : TransactionsByPriceAndNonce :=
  ⟨[(1, [])],
    [⟨_Order._BundleOrder (some exampleBundle), 5⟩,
      ⟨_Order._TxOrder (some ⟨2, 3, 3, 3, 21000, 2⟩), 3⟩],
    exampleSigner, some 0⟩

/-- The book built from the queues of the accounts `1` and `2` and the bundle
of price `5` at base fee `0`. -/
def exampleBookTwo : TransactionsByPriceAndNonce :=
  ⟨[(1, [⟨1, 20, 20, 20, 21000, 1⟩, ⟨2, 3, 3, 3, 21000, 2⟩]),
      (2, [⟨1, 8, 8, 8, 21001, 4⟩])],
    [⟨_Order._TxOrder (some ⟨0, 10, 10, 10, 21000, 0⟩), 10⟩,
      ⟨_Order._BundleOrder (some exampleBundle), 5⟩,
      ⟨_Order._TxOrder (some ⟨0, 7, 7, 7, 21001, 3⟩), 7⟩],
    exampleSigner, some 0⟩

/-- The transaction of the scenario: tip cap `10` and fee cap `150`. -/
def scenarioTx : Transaction :=
  ⟨0, 150, 10, 150, 21000, 0⟩

/-- The bundle of the scenario: coinbase value `500` and gas used `1000`, so an
MEV gas price of `0` in whole units. -/
def scenarioBundle : SimulatedBundle :=
  ⟨0, 500, 500, 1000, ⟨[], 0, [], 0, 0, 0, [], []⟩⟩

/-- A bundle with total value `1` and coinbase value `1`. -/
def profitBundle : SimulatedBundle :=
  ⟨5, 1, 1, 1000, ⟨[], 0, [], 0, 0, 0, [], []⟩⟩

/-- A memory that holds the objects of `exampleBook` at address `0`. -/
def exampleMemory : Memory :=
  ⟨[exampleBook.txs], [exampleBook.heads], [0]⟩

/-- The memory `exampleMemory` after `DeepCopy` of the book at address `0`. -/
def exampleMemoryCopied : Memory :=
  ⟨[exampleBook.txs, exampleBook.txs], [exampleBook.heads, exampleBook.heads], [0, 0]⟩

/-- A codec for the examples of the envelope: the contents of each struct are one
number `n`, encoded as the list header `0xc1` followed by `n`. -/
def exampleCodec : RlpCodec Nat Nat Nat Unit :=
  ⟨fun n => Except.ok [0xc1, n],
    fun b => match b with
      | [0xc1, n] => Except.ok n
      | _ => Except.error (),
    fun n => Except.ok [0xc1, n],
    fun b => match b with
      | [0xc1, n] => Except.ok n
      | _ => Except.error (),
    fun n => Except.ok [0xc1, n],
    fun b => match b with
      | [0xc1, n] => Except.ok n
      | _ => Except.error ()⟩

/-- A bundle for block `17` with the reverting hashes `[2, 1]` and `[1, 9]`. -/
def exampleMevBundle : MevBundle :=
  ⟨[], 17, [], 0, 0, 0, [[2, 1], [1, 9]], [7, 7]⟩

/-- The bundle `exampleMevBundle` with its reverting hashes in the other
order. -/
def exampleMevBundlePermuted : MevBundle :=
  ⟨[], 17, [], 0, 0, 0, [[1, 9], [2, 1]], [7, 7]⟩

/-- A stand-in for `rlpHash` in the examples: the encoding under
`exampleCodec` itself, so that different contents have different hashes. -/
def exampleRlpHash : TxData Nat Nat Nat → Hash
  | TxData.LegacyTx n => [0xc1, n]
  | TxData.AccessListTx n => [0xc1, n]
  | TxData.DynamicFeeTx n => [0xc1, n]

/-- A stand-in for `prefixedRlpHash` in the examples: the type byte followed by
the encoding under `exampleCodec`. -/
def examplePrefixedRlpHash (t : Nat) (inner : TxData Nat Nat Nat) : Hash :=
  t :: exampleRlpHash inner

/-- The transaction `NewTx(&LegacyTx{...})` with the contents `3` after a call
of `Hash`, which has filled the cache. -/
def exampleHashedLegacy : Envelope Nat Nat Nat :=
  ⟨some (TxData.LegacyTx 3), some [0xc1, 3], none⟩

/-- The transaction `exampleHashedLegacy` after decoding the three bytes
`[2, 0xc1, 5]` into it: the contents are the dynamic-fee transaction `5`, the
cached hash is still that of the legacy contents. -/
def exampleDecodedOverHashed : Envelope Nat Nat Nat :=
  ⟨some (TxData.DynamicFeeTx 5), some [0xc1, 3], some 3⟩

/-! ## Predicates of the statements -/

/-- The price of the entry at position `k`, and `0` past the end. -/
def priceAt (h : TxByPriceAndTime) (k : Nat) : Int :=
  match h[k]? with
  | some a => a.minerFee
  | none => 0

/-- Among the first `n` entries, every entry whose parent is at position `m` or
later has a price no greater than the price of its parent. -/
def HeapFrom (h : TxByPriceAndTime) (n m : Nat) : Prop :=
  ∀ c, 0 < c → c < n → m ≤ (c - 1) / 2 → priceAt h c ≤ priceAt h ((c - 1) / 2)

/-- The heap order by price on the whole slice. -/
def IsHeap (h : TxByPriceAndTime) : Prop :=
  HeapFrom h h.length 0

/-- The loop invariant of `down` started at `i0` and standing at `i`: the heap
order holds below `i0` except between `i` and its children, and the children
of `i` are dominated by the parent of `i` once `i` has left `i0`. -/
def DownInv (h : TxByPriceAndTime) (n i0 i : Nat) : Prop :=
  (∀ c, 0 < c → c < n → i0 ≤ (c - 1) / 2 → (c - 1) / 2 ≠ i →
      priceAt h c ≤ priceAt h ((c - 1) / 2)) ∧
  (i ≠ i0 → ∀ c, 0 < c → c < n → (c - 1) / 2 = i → priceAt h c ≤ priceAt h ((i - 1) / 2))

/-- The loop invariant of `up` standing at `j`: the heap order holds except
between `j` and its parent, and the children of `j` are dominated by the parent
of `j`. -/
def UpInv (h : TxByPriceAndTime) (j : Nat) : Prop :=
  (∀ c, 0 < c → c < h.length → c ≠ j → priceAt h c ≤ priceAt h ((c - 1) / 2)) ∧
  (0 < j → ∀ c, 0 < c → c < h.length → (c - 1) / 2 = j → priceAt h c ≤ priceAt h ((j - 1) / 2))

/-- The invariant of a book that is driven by `Shift` alone: the heads are a
heap, every account has at most one transaction among the heads, an account
without a transaction among the heads has no queued transaction, and every
queued transaction is recovered as the key of its queue and wraps at the base
fee of the book. -/
def DriveInv (t : TransactionsByPriceAndNonce) : Prop :=
  IsHeap t.heads ∧
  (∀ a, (txsOf t.signer a t.heads).length ≤ 1) ∧
  (∀ a, txsOf t.signer a t.heads = [] → (mapGet t.txs a).getD [] = []) ∧
  (∀ a q, mapGet t.txs a = some q → ∀ tx ∈ q,
    (Sender t.signer tx).1 = a ∧ ∃ w, NewTxWithMinerFee tx t.baseFee = Except.ok w)

/-- The wrapper `w` is the result of one of the three constructors
`NewTxWithMinerFee`, `NewBundleWithMinerFee` and `NewSBundleWithMinerFee`. -/
def FromConstructor (w : TxWithMinerFee) : Prop :=
  (∃ tx baseFee, NewTxWithMinerFee tx baseFee = Except.ok w) ∨
  (∃ bundle baseFee, NewBundleWithMinerFee bundle baseFee = Except.ok w) ∨
  (∃ sbundle baseFee, NewSBundleWithMinerFee sbundle baseFee = Except.ok w)

/-- When the wrapper `w` holds a transaction, its fee cap is at least the base
fee `b` and the cached price of `w` is the effective tip at `b`. -/
def PaysBaseFee (b : Int) (w : TxWithMinerFee) : Prop :=
  ∀ tx, w.Tx = some tx →
    b ≤ tx.gasFeeCap ∧ w.Price = min tx.gasTipCap (tx.gasFeeCap - b)

/-! ## Fee model: properties -/

/-- C7: for every transaction and every supplied base fee, `EffectiveGasTip`
reports `ErrGasFeeCapTooLow` exactly when the fee cap is below the base fee,
it reports no other error, and in every case the value returned alongside is
the minimum of the tip cap and the fee cap minus the base fee. -/
theorem EffectiveGasTip_error_iff (tx : Transaction) (b : Int) :
    ((tx.EffectiveGasTip (some b)).2 = some Error.ErrGasFeeCapTooLow ↔ tx.gasFeeCap < b) ∧
    ((tx.EffectiveGasTip (some b)).2 = none ↔ ¬ tx.gasFeeCap < b) ∧
    (tx.EffectiveGasTip (some b)).1 = min tx.gasTipCap (tx.gasFeeCap - b) := by
  have hmin : BigMin tx.gasTipCap (tx.gasFeeCap - b) = min tx.gasTipCap (tx.gasFeeCap - b) := by
    unfold BigMin
    split <;> omega
  simp only [Transaction.EffectiveGasTip, Transaction.GasFeeCap, Transaction.GasTipCap, hmin]
  by_cases h : tx.gasFeeCap < b <;> simp [h]

/-- C8: without a base fee `EffectiveGasTip` returns the tip cap and no error;
with a base fee `b` it returns the minimum of the tip cap and the fee cap minus
`b` as an unbounded integer; `EffectiveGasTipValue` returns the same number as
`EffectiveGasTip` for every base fee, supplied or not. -/
theorem EffectiveGasTip_value (tx : Transaction) :
    tx.EffectiveGasTip none = (tx.gasTipCap, none) ∧
    (∀ b : Int, (tx.EffectiveGasTip (some b)).1 = min tx.gasTipCap (tx.gasFeeCap - b)) ∧
    (∀ baseFee : Option Int, tx.EffectiveGasTipValue baseFee = (tx.EffectiveGasTip baseFee).1) := by
  refine ⟨rfl, ?_, fun _ => rfl⟩
  intro b
  simp only [Transaction.EffectiveGasTip, Transaction.GasFeeCap, Transaction.GasTipCap, BigMin]
  split <;> omega

/-- C9, evaluated on the transaction with tip cap `-1` and fee cap `10` at base
fee `0`: the effective tip `min(-1, 10 - 0)` is negative, `EffectiveGasTip`
returns `-1` without an error and `NewTxWithMinerFee` returns a wrapper of
price `-1`. -/
theorem EffectiveGasTip_negative_tip_no_error :
    min (-1 : Int) (10 - 0) < 0 ∧
    Transaction.EffectiveGasTip ⟨0, 0, -1, 10, 21000, 0⟩ (some 0) = (-1, none) ∧
    NewTxWithMinerFee ⟨0, 0, -1, 10, 21000, 0⟩ (some 0) =
      Except.ok ⟨_Order._TxOrder (some ⟨0, 0, -1, 10, 21000, 0⟩), -1⟩ :=
  ⟨by decide, rfl, rfl⟩

/-! ## Order of the heap: properties of `Less` -/

theorem Tx_eq_none_of_Bundle (a : TxWithMinerFee) (bundle : SimulatedBundle)
    (h : a.Bundle = some bundle) : a.Tx = none := by
  cases a with
  | mk order fee =>
    cases order <;> simp_all [TxWithMinerFee.Bundle, TxWithMinerFee.Tx, _Order.AsBundle, _Order.AsTx]

theorem Bundle_eq_none_of_Tx (a : TxWithMinerFee) (tx : Transaction)
    (h : a.Tx = some tx) : a.Bundle = none := by
  cases a with
  | mk order fee =>
    cases order <;> simp_all [TxWithMinerFee.Bundle, TxWithMinerFee.Tx, _Order.AsBundle, _Order.AsTx]

theorem Less_eq_less (s : TxByPriceAndTime) (i j : Nat) (a b : TxWithMinerFee)
    (hi : s[i]? = some a) (hj : s[j]? = some b) :
    TxByPriceAndTime.Less s i j = a.less b := by
  simp [TxByPriceAndTime.Less, hi, hj]

/-- C3, at a concrete slice: a bundle at position `0` and a transaction at
position `1` have the same price `5`, and it is not the case that the bundle is
before the transaction and the transaction is not before the bundle. -/
theorem Less_bundle_first_fails :
    priceAt [⟨_Order._BundleOrder (some exampleBundle), 5⟩, ⟨_Order._TxOrder (some exampleTx), 5⟩] 0 =
      priceAt [⟨_Order._BundleOrder (some exampleBundle), 5⟩, ⟨_Order._TxOrder (some exampleTx), 5⟩] 1 ∧
    ¬ (TxByPriceAndTime.Less
          [⟨_Order._BundleOrder (some exampleBundle), 5⟩, ⟨_Order._TxOrder (some exampleTx), 5⟩] 0 1 = true ∧
        TxByPriceAndTime.Less
          [⟨_Order._BundleOrder (some exampleBundle), 5⟩, ⟨_Order._TxOrder (some exampleTx), 5⟩] 1 0 = false) := by
  decide

/-- C3, amended: for two entries of equal price, one holding a bundle and the
other a transaction, the transaction wins in either argument order:
`Less(bundle, transaction)` is false and `Less(transaction, bundle)` is true. -/
theorem Less_bundle_vs_tx (s : TxByPriceAndTime) (i j : Nat) (a b : TxWithMinerFee)
    (bundle : SimulatedBundle) (tx : Transaction)
    (hi : s[i]? = some a) (hj : s[j]? = some b) (hp : a.minerFee = b.minerFee)
    (ha : a.Bundle = some bundle) (hb : b.Tx = some tx) :
    TxByPriceAndTime.Less s i j = false ∧ TxByPriceAndTime.Less s j i = true := by
  have hat := Tx_eq_none_of_Bundle a bundle ha
  have hbb := Bundle_eq_none_of_Tx b tx hb
  rw [Less_eq_less s i j a b hi hj, Less_eq_less s j i b a hj hi]
  simp [TxWithMinerFee.less, hp, ha, hb, hat, hbb]

theorem Less_bundle_vs_tx_witness :
    TxByPriceAndTime.Less
        [⟨_Order._BundleOrder (some exampleBundle), 5⟩, ⟨_Order._TxOrder (some exampleTx), 5⟩] 0 1 = false ∧
      TxByPriceAndTime.Less
        [⟨_Order._BundleOrder (some exampleBundle), 5⟩, ⟨_Order._TxOrder (some exampleTx), 5⟩] 1 0 = true :=
  Less_bundle_vs_tx _ 0 1 ⟨_Order._BundleOrder (some exampleBundle), 5⟩
    ⟨_Order._TxOrder (some exampleTx), 5⟩ exampleBundle exampleTx rfl rfl rfl rfl rfl

/-- C4: for two entries of any kinds, if the price of the first is greater than
the price of the second then `Less(first, second)` is true and
`Less(second, first)` is false. -/
theorem Less_of_price_gt (s : TxByPriceAndTime) (i j : Nat) (a b : TxWithMinerFee)
    (hi : s[i]? = some a) (hj : s[j]? = some b) (hp : a.minerFee > b.minerFee) :
    TxByPriceAndTime.Less s i j = true ∧ TxByPriceAndTime.Less s j i = false := by
  rw [Less_eq_less s i j a b hi hj, Less_eq_less s j i b a hj hi]
  have h1 : a.minerFee ≠ b.minerFee := by omega
  have h2 : b.minerFee ≠ a.minerFee := by omega
  have h3 : ¬ b.minerFee > a.minerFee := by omega
  simp [TxWithMinerFee.less, h1, h2, h3, hp]

theorem Less_of_price_gt_witness :
    TxByPriceAndTime.Less
        [⟨_Order._TxOrder (some exampleTxRich), 9⟩, ⟨_Order._BundleOrder (some exampleBundle), 5⟩] 0 1 = true ∧
      TxByPriceAndTime.Less
        [⟨_Order._TxOrder (some exampleTxRich), 9⟩, ⟨_Order._BundleOrder (some exampleBundle), 5⟩] 1 0 = false :=
  Less_of_price_gt _ 0 1 ⟨_Order._TxOrder (some exampleTxRich), 9⟩
    ⟨_Order._BundleOrder (some exampleBundle), 5⟩ rfl rfl (by decide)

/-- C5: for two entries of equal price that both hold transactions, `Less` is
true exactly when the first was first seen strictly earlier than the second;
when the two times are equal it is false in both directions. -/
theorem Less_tx_vs_tx (s : TxByPriceAndTime) (i j : Nat) (a b : TxWithMinerFee)
    (ta tb : Transaction)
    (hi : s[i]? = some a) (hj : s[j]? = some b) (hp : a.minerFee = b.minerFee)
    (ha : a.Tx = some ta) (hb : b.Tx = some tb) :
    (TxByPriceAndTime.Less s i j = true ↔ ta.time < tb.time) ∧
    (ta.time = tb.time →
      TxByPriceAndTime.Less s i j = false ∧ TxByPriceAndTime.Less s j i = false) := by
  rw [Less_eq_less s i j a b hi hj, Less_eq_less s j i b a hj hi]
  simp only [TxWithMinerFee.less, hp, ha, hb, if_true, decide_eq_true_eq, true_and]
  intro ht
  simp [ht]

theorem Less_tx_vs_tx_witness :
    (TxByPriceAndTime.Less
        [⟨_Order._TxOrder (some exampleTx), 5⟩, ⟨_Order._TxOrder (some exampleTxLate), 5⟩] 0 1 = true ↔
      exampleTx.time < exampleTxLate.time) ∧
    (exampleTx.time = exampleTxLate.time →
      TxByPriceAndTime.Less
          [⟨_Order._TxOrder (some exampleTx), 5⟩, ⟨_Order._TxOrder (some exampleTxLate), 5⟩] 0 1 = false ∧
        TxByPriceAndTime.Less
          [⟨_Order._TxOrder (some exampleTx), 5⟩, ⟨_Order._TxOrder (some exampleTxLate), 5⟩] 1 0 = false) :=
  Less_tx_vs_tx _ 0 1 ⟨_Order._TxOrder (some exampleTx), 5⟩
    ⟨_Order._TxOrder (some exampleTxLate), 5⟩ exampleTx exampleTxLate rfl rfl rfl rfl rfl

/-- C6: for two entries of equal price that both hold bundles, if the total gas
used of the first is strictly smaller than that of the second then
`Less(first, second)` is true and `Less(second, first)` is false. -/
theorem Less_bundle_vs_bundle (s : TxByPriceAndTime) (i j : Nat) (a b : TxWithMinerFee)
    (ba bb : SimulatedBundle)
    (hi : s[i]? = some a) (hj : s[j]? = some b) (hp : a.minerFee = b.minerFee)
    (ha : a.Bundle = some ba) (hb : b.Bundle = some bb)
    (hg : ba.TotalGasUsed < bb.TotalGasUsed) :
    TxByPriceAndTime.Less s i j = true ∧ TxByPriceAndTime.Less s j i = false := by
  have hat := Tx_eq_none_of_Bundle a ba ha
  have hbt := Tx_eq_none_of_Bundle b bb hb
  rw [Less_eq_less s i j a b hi hj, Less_eq_less s j i b a hj hi]
  simp only [TxWithMinerFee.less, hp, ha, hb, hat, hbt, if_true, decide_eq_true_eq,
    decide_eq_false_iff_not]
  omega

theorem Less_bundle_vs_bundle_witness :
    TxByPriceAndTime.Less
        [⟨_Order._BundleOrder (some exampleBundle), 5⟩,
          ⟨_Order._BundleOrder (some exampleBundleHeavy), 5⟩] 0 1 = true ∧
      TxByPriceAndTime.Less
        [⟨_Order._BundleOrder (some exampleBundle), 5⟩,
          ⟨_Order._BundleOrder (some exampleBundleHeavy), 5⟩] 1 0 = false :=
  Less_bundle_vs_bundle _ 0 1 ⟨_Order._BundleOrder (some exampleBundle), 5⟩
    ⟨_Order._BundleOrder (some exampleBundleHeavy), 5⟩ exampleBundle exampleBundleHeavy
    rfl rfl rfl rfl rfl (by decide)

/-! ## The binary heap: swaps -/

theorem set_cons_perm (xs : TxByPriceAndTime) (j : Nat) (x b : TxWithMinerFee)
    (h : xs[j]? = some b) : (b :: xs.set j x).Perm (x :: xs) := by
  induction xs generalizing j with
  | nil => simp at h
  | cons y ys ih =>
    cases j with
    | zero =>
      simp only [List.getElem?_cons_zero, Option.some.injEq] at h
      subst h
      exact List.Perm.swap x y ys
    | succ j =>
      simp only [List.getElem?_cons_succ] at h
      simp only [List.set_cons_succ]
      exact ((List.Perm.swap y b _).trans ((ih j h).cons y)).trans (List.Perm.swap x y ys)

theorem set_set_perm (l : TxByPriceAndTime) (i j : Nat) (a b : TxWithMinerFee)
    (hi : l[i]? = some a) (hj : l[j]? = some b) : ((l.set i b).set j a).Perm l := by
  induction l generalizing i j with
  | nil => simp at hi
  | cons x xs ih =>
    cases i with
    | zero =>
      simp only [List.getElem?_cons_zero, Option.some.injEq] at hi
      subst hi
      cases j with
      | zero =>
        simp only [List.getElem?_cons_zero, Option.some.injEq] at hj
        subst hj
        simp
      | succ j =>
        simp only [List.getElem?_cons_succ] at hj
        simp only [List.set_cons_zero, List.set_cons_succ]
        exact set_cons_perm xs j x b hj
    | succ i =>
      simp only [List.getElem?_cons_succ] at hi
      cases j with
      | zero =>
        simp only [List.getElem?_cons_zero, Option.some.injEq] at hj
        subst hj
        simp only [List.set_cons_zero, List.set_cons_succ]
        exact set_cons_perm xs i x a hi
      | succ j =>
        simp only [List.getElem?_cons_succ] at hj
        simp only [List.set_cons_succ]
        exact (ih i j hi hj).cons x

theorem Swap_perm (s : TxByPriceAndTime) (i j : Nat) :
    (TxByPriceAndTime.Swap s i j).Perm s := by
  unfold TxByPriceAndTime.Swap
  split
  · next a b hi hj => exact set_set_perm s i j a b hi hj
  · exact List.Perm.refl s

theorem Swap_length (s : TxByPriceAndTime) (i j : Nat) :
    (TxByPriceAndTime.Swap s i j).length = s.length :=
  (Swap_perm s i j).length_eq

theorem getElem?_Swap (s : TxByPriceAndTime) (i j k : Nat)
    (hi : i < s.length) (hj : j < s.length) :
    (TxByPriceAndTime.Swap s i j)[k]? =
      if k = j then s[i]? else if k = i then s[j]? else s[k]? := by
  have h1 : s[i]? = some s[i] := List.getElem?_eq_getElem hi
  have h2 : s[j]? = some s[j] := List.getElem?_eq_getElem hj
  simp only [TxByPriceAndTime.Swap, h1, h2, List.getElem?_set, List.length_set]
  by_cases hkj : k = j
  · subst hkj
    simp [hj]
  · by_cases hki : k = i
    · subst hki
      have : ¬ j = k := fun e => hkj e.symm
      simp [this, hi, hkj]
    · have h3 : ¬ j = k := fun e => hkj e.symm
      have h4 : ¬ i = k := fun e => hki e.symm
      simp [h3, h4, hkj, hki]

theorem priceAt_Swap (s : TxByPriceAndTime) (i j k : Nat)
    (hi : i < s.length) (hj : j < s.length) :
    priceAt (TxByPriceAndTime.Swap s i j) k =
      if k = j then priceAt s i else if k = i then priceAt s j else priceAt s k := by
  unfold priceAt
  rw [getElem?_Swap s i j k hi hj]
  split_ifs <;> rfl

theorem less_true_price (a b : TxWithMinerFee) (h : a.less b = true) :
    b.minerFee ≤ a.minerFee := by
  unfold TxWithMinerFee.less at h
  split_ifs at h with he
  · omega
  · simp only [decide_eq_true_eq] at h
    omega

theorem less_false_price (a b : TxWithMinerFee) (h : a.less b = false) :
    a.minerFee ≤ b.minerFee := by
  unfold TxWithMinerFee.less at h
  split_ifs at h with he
  · omega
  · simp only [decide_eq_false_iff_not] at h
    omega

theorem Less_true_price (s : TxByPriceAndTime) (i j : Nat)
    (hi : i < s.length) (hj : j < s.length) (h : TxByPriceAndTime.Less s i j = true) :
    priceAt s j ≤ priceAt s i := by
  have h1 : s[i]? = some s[i] := List.getElem?_eq_getElem hi
  have h2 : s[j]? = some s[j] := List.getElem?_eq_getElem hj
  rw [Less_eq_less s i j _ _ h1 h2] at h
  simp only [priceAt, h1, h2]
  exact less_true_price _ _ h

theorem Less_false_price (s : TxByPriceAndTime) (i j : Nat)
    (hi : i < s.length) (hj : j < s.length) (h : TxByPriceAndTime.Less s i j = false) :
    priceAt s i ≤ priceAt s j := by
  have h1 : s[i]? = some s[i] := List.getElem?_eq_getElem hi
  have h2 : s[j]? = some s[j] := List.getElem?_eq_getElem hj
  rw [Less_eq_less s i j _ _ h1 h2] at h
  simp only [priceAt, h1, h2]
  exact less_false_price _ _ h

/-! ## The binary heap: `down` -/

theorem HeapFrom_of_DownInv (h : TxByPriceAndTime) (n i0 i : Nat) (hinv : DownInv h n i0 i)
    (hleaf : ∀ c, 0 < c → c < n → (c - 1) / 2 = i → priceAt h c ≤ priceAt h i) :
    HeapFrom h n i0 := by
  intro c hc hcn hm
  by_cases hp : (c - 1) / 2 = i
  · rw [hp]
    exact hleaf c hc hcn hp
  · exact hinv.1 c hc hcn hm hp

theorem larger_child (h : TxByPriceAndTime) (n i : Nat) (hn : n ≤ h.length)
    (hj1 : ¬ 2 * i + 1 ≥ n) :
    ∃ j, j = (if (decide (2 * i + 1 + 1 < n) && TxByPriceAndTime.Less h (2 * i + 1 + 1) (2 * i + 1)) = true
        then 2 * i + 1 + 1 else 2 * i + 1) ∧
      j < n ∧ (j - 1) / 2 = i ∧ i < j ∧
      ∀ c, 0 < c → c < n → (c - 1) / 2 = i → priceAt h c ≤ priceAt h j := by
  refine ⟨_, rfl, ?_⟩
  by_cases h2 : 2 * i + 1 + 1 < n
  · cases hl : TxByPriceAndTime.Less h (2 * i + 1 + 1) (2 * i + 1)
    · have hp := Less_false_price h _ _ (by omega) (by omega) hl
      rw [if_neg (by simp)]
      refine ⟨by omega, by omega, by omega, ?_⟩
      intro c hc hcn hpar
      have : c = 2 * i + 1 ∨ c = 2 * i + 1 + 1 := by omega
      rcases this with rfl | rfl
      · exact le_refl _
      · exact hp
    · have hp := Less_true_price h _ _ (by omega) (by omega) hl
      rw [if_pos (by simp [h2])]
      refine ⟨by omega, by omega, by omega, ?_⟩
      intro c hc hcn hpar
      have : c = 2 * i + 1 ∨ c = 2 * i + 1 + 1 := by omega
      rcases this with rfl | rfl
      · exact hp
      · exact le_refl _
  · rw [if_neg (by simp [h2])]
    refine ⟨by omega, by omega, by omega, ?_⟩
    intro c hc hcn hpar
    have : c = 2 * i + 1 := by omega
    subst this
    exact le_refl _

theorem DownInv_Swap (h : TxByPriceAndTime) (n i0 i j : Nat) (hn : n ≤ h.length)
    (hi : i0 ≤ i) (hinv : DownInv h n i0 i) (hjn : j < n) (hjp : (j - 1) / 2 = i) (hij : i < j)
    (hjmax : ∀ c, 0 < c → c < n → (c - 1) / 2 = i → priceAt h c ≤ priceAt h j)
    (hlt : priceAt h i ≤ priceAt h j) :
    DownInv (TxByPriceAndTime.Swap h i j) n i0 j := by
  have hil : i < h.length := by omega
  have hjl : j < h.length := by omega
  constructor
  · intro c hc hcn hm hne
    rw [priceAt_Swap h i j c hil hjl, priceAt_Swap h i j _ hil hjl]
    by_cases hcj : c = j
    · subst hcj
      simp only [if_true, hjp]
      have : ¬ i = c := by omega
      simp only [this, if_false, if_true]
      exact hlt
    · simp only [hcj, if_false, hne]
      by_cases hci : c = i
      · subst hci
        simp only [if_true]
        have hne2 : ¬ (c - 1) / 2 = c := by omega
        simp only [hne2, if_false]
        have hc0 : c ≠ i0 := by omega
        exact hinv.2 hc0 j (by omega) hjn hjp
      · simp only [hci, if_false]
        by_cases hpi : (c - 1) / 2 = i
        · simp only [hpi, if_true]
          exact hjmax c hc hcn hpi
        · simp only [hpi, if_false]
          exact hinv.1 c hc hcn hm hpi
  · intro _ c hc hcn hpar
    rw [priceAt_Swap h i j c hil hjl, priceAt_Swap h i j _ hil hjl]
    have h1 : ¬ c = j := by omega
    have h2 : ¬ c = i := by omega
    have h3 : ¬ i = j := by omega
    rw [if_neg h1, if_neg h2, hjp, if_neg h3, if_pos rfl]
    have h4 := hinv.1 c hc hcn (by omega) (by omega)
    rw [hpar] at h4
    exact h4

theorem downLoop_spec (n i0 : Nat) :
    ∀ (fuel : Nat) (h : TxByPriceAndTime) (i : Nat), n ≤ h.length → n - i ≤ fuel → i0 ≤ i →
      DownInv h n i0 i →
      HeapFrom (heap.downLoop fuel h i n).1 n i0 ∧
      (heap.downLoop fuel h i n).1.Perm h ∧
      (∀ k, n ≤ k → (heap.downLoop fuel h i n).1[k]? = h[k]?) := by
  intro fuel
  induction fuel with
  | zero =>
    intro h i hn hf hi hinv
    simp only [heap.downLoop]
    refine ⟨?_, List.Perm.refl _, by simp⟩
    apply HeapFrom_of_DownInv h n i0 i hinv
    intro c hc hcn hp
    omega
  | succ fuel ih =>
    intro h i hn hf hi hinv
    simp only [heap.downLoop]
    by_cases hj1 : 2 * i + 1 ≥ n
    · rw [if_pos hj1]
      refine ⟨?_, List.Perm.refl _, by simp⟩
      apply HeapFrom_of_DownInv h n i0 i hinv
      intro c hc hcn hp
      omega
    · rw [if_neg hj1]
      obtain ⟨j, hjdef, hjn, hjp, hij, hjmax⟩ := larger_child h n i hn hj1
      rw [← hjdef]
      cases hless : TxByPriceAndTime.Less h j i
      · have hp := Less_false_price h j i (by omega) (by omega) hless
        simp only [Bool.not_false, if_true]
        refine ⟨?_, List.Perm.refl _, by simp⟩
        apply HeapFrom_of_DownInv h n i0 i hinv
        intro c hc hcn hpar
        exact le_trans (hjmax c hc hcn hpar) hp
      · have hp := Less_true_price h j i (by omega) (by omega) hless
        simp only [Bool.not_true, Bool.false_eq_true, if_false]
        have hinv2 := DownInv_Swap h n i0 i j hn hi hinv hjn hjp hij hjmax hp
        have hlen := Swap_length h i j
        obtain ⟨r1, r2, r3⟩ := ih (TxByPriceAndTime.Swap h i j) j (by omega) (by omega) (by omega) hinv2
        refine ⟨r1, r2.trans (Swap_perm h i j), ?_⟩
        intro k hk
        rw [r3 k hk, getElem?_Swap h i j k (by omega) (by omega)]
        have h1 : ¬ k = j := by omega
        have h2 : ¬ k = i := by omega
        simp only [h1, h2, if_false]

theorem down_spec (h : TxByPriceAndTime) (n i0 : Nat) (hn : n ≤ h.length)
    (hinv : DownInv h n i0 i0) :
    HeapFrom (heap.down h i0 n).1 n i0 ∧ (heap.down h i0 n).1.Perm h ∧
      (∀ k, n ≤ k → (heap.down h i0 n).1[k]? = h[k]?) := by
  simp only [heap.down]
  exact downLoop_spec n i0 n h i0 hn (by omega) (le_refl _) hinv

/-! ## The binary heap: `up` -/

theorem UpInv_Swap (h : TxByPriceAndTime) (i j : Nat) (hj : j < h.length)
    (hi : i = (j - 1) / 2) (hij : i ≠ j) (hinv : UpInv h j)
    (hlt : priceAt h i ≤ priceAt h j) :
    UpInv (TxByPriceAndTime.Swap h i j) i := by
  have hil : i < h.length := by omega
  have hlen := Swap_length h i j
  constructor
  · intro c hc hcn hci
    rw [hlen] at hcn
    rw [priceAt_Swap h i j c hil hj, priceAt_Swap h i j _ hil hj]
    by_cases hcj : c = j
    · subst hcj
      have h1 : ¬ (c - 1) / 2 = c := by omega
      rw [if_pos rfl, if_neg h1, if_pos hi.symm]
      exact hlt
    · rw [if_neg hcj, if_neg hci]
      by_cases hpj : (c - 1) / 2 = j
      · rw [if_pos hpj]
        have := hinv.2 (by omega) c hc hcn hpj
        rw [← hi] at this
        exact this
      · rw [if_neg hpj]
        by_cases hpi : (c - 1) / 2 = i
        · rw [if_pos hpi]
          have := hinv.1 c hc hcn hcj
          rw [hpi] at this
          exact le_trans this hlt
        · rw [if_neg hpi]
          exact hinv.1 c hc hcn hcj
  · intro hi0 c hc hcn hpar
    rw [hlen] at hcn
    rw [priceAt_Swap h i j c hil hj, priceAt_Swap h i j _ hil hj]
    have h1 : ¬ (i - 1) / 2 = j := by omega
    have h2 : ¬ (i - 1) / 2 = i := by omega
    have h3 : ¬ c = i := by omega
    have hip := hinv.1 i hi0 hil hij
    rw [if_neg h1, if_neg h2, if_neg h3]
    by_cases hcj : c = j
    · rw [if_pos hcj]
      exact hip
    · rw [if_neg hcj]
      have := hinv.1 c hc hcn hcj
      rw [hpar] at this
      exact le_trans this hip

theorem upLoop_spec :
    ∀ (fuel : Nat) (h : TxByPriceAndTime) (j : Nat), j < h.length → j < fuel → UpInv h j →
      IsHeap (heap.upLoop fuel h j) ∧ (heap.upLoop fuel h j).Perm h := by
  intro fuel
  induction fuel with
  | zero =>
    intro h j _ hf
    omega
  | succ fuel ih =>
    intro h j hj hf hinv
    simp only [heap.upLoop]
    by_cases hij : (j - 1) / 2 = j
    · rw [if_pos (by simp [hij])]
      refine ⟨?_, List.Perm.refl _⟩
      intro c hc hcn _
      exact hinv.1 c hc hcn (by omega)
    · cases hless : TxByPriceAndTime.Less h j ((j - 1) / 2)
      · have hp := Less_false_price h j _ hj (by omega) hless
        rw [if_pos (by simp)]
        refine ⟨?_, List.Perm.refl _⟩
        intro c hc hcn _
        by_cases hcj : c = j
        · subst hcj
          exact hp
        · exact hinv.1 c hc hcn hcj
      · have hp := Less_true_price h j _ hj (by omega) hless
        rw [if_neg (by simp [hij])]
        have hinv2 := UpInv_Swap h ((j - 1) / 2) j hj rfl hij hinv hp
        have hlen := Swap_length h ((j - 1) / 2) j
        obtain ⟨r1, r2⟩ := ih (TxByPriceAndTime.Swap h ((j - 1) / 2) j) ((j - 1) / 2)
          (by omega) (by omega) hinv2
        exact ⟨r1, r2.trans (Swap_perm h _ j)⟩

theorem up_spec (h : TxByPriceAndTime) (j : Nat) (hj : j < h.length) (hinv : UpInv h j) :
    IsHeap (heap.up h j) ∧ (heap.up h j).Perm h :=
  upLoop_spec (j + 1) h j hj (by omega) hinv

theorem up_zero (h : TxByPriceAndTime) : heap.up h 0 = h := by
  simp [heap.up, heap.upLoop]

/-! ## The binary heap: the loops end within their bound -/

theorem downLoop_succ (fuel : Nat) (h : TxByPriceAndTime) (i n : Nat) :
    heap.downLoop (fuel + 1) h i n =
      if 2 * i + 1 ≥ n then (h, i)
      else if (!TxByPriceAndTime.Less h
          (if (decide (2 * i + 1 + 1 < n) && TxByPriceAndTime.Less h (2 * i + 1 + 1) (2 * i + 1)) = true
            then 2 * i + 1 + 1 else 2 * i + 1) i) = true then (h, i)
      else heap.downLoop fuel (TxByPriceAndTime.Swap h i
          (if (decide (2 * i + 1 + 1 < n) && TxByPriceAndTime.Less h (2 * i + 1 + 1) (2 * i + 1)) = true
            then 2 * i + 1 + 1 else 2 * i + 1))
          (if (decide (2 * i + 1 + 1 < n) && TxByPriceAndTime.Less h (2 * i + 1 + 1) (2 * i + 1)) = true
            then 2 * i + 1 + 1 else 2 * i + 1) n :=
  rfl

theorem downLoop_fuel (n : Nat) :
    ∀ (fuel : Nat) (h : TxByPriceAndTime) (i : Nat), n - i ≤ fuel →
      heap.downLoop (fuel + 1) h i n = heap.downLoop fuel h i n := by
  intro fuel
  induction fuel with
  | zero =>
    intro h i hf
    rw [downLoop_succ, if_pos (by omega)]
    rfl
  | succ fuel ih =>
    intro h i hf
    rw [downLoop_succ (fuel + 1) h i n, downLoop_succ fuel h i n]
    by_cases h1 : 2 * i + 1 ≥ n
    · rw [if_pos h1, if_pos h1]
    · rw [if_neg h1, if_neg h1]
      split
      · rw [ih _ _ (by omega)]
      · rw [ih _ _ (by omega)]

theorem upLoop_succ (fuel : Nat) (h : TxByPriceAndTime) (j : Nat) :
    heap.upLoop (fuel + 1) h j =
      if ((j - 1) / 2 = j || !TxByPriceAndTime.Less h j ((j - 1) / 2)) = true then h
      else heap.upLoop fuel (TxByPriceAndTime.Swap h ((j - 1) / 2) j) ((j - 1) / 2) :=
  rfl

theorem upLoop_fuel :
    ∀ (fuel : Nat) (h : TxByPriceAndTime) (j : Nat), j < fuel →
      heap.upLoop (fuel + 1) h j = heap.upLoop fuel h j := by
  intro fuel
  induction fuel with
  | zero =>
    intro h j hf
    omega
  | succ fuel ih =>
    intro h j hf
    rw [upLoop_succ (fuel + 1) h j, upLoop_succ fuel h j]
    split
    · rfl
    · next hc =>
      apply ih
      have : (j - 1) / 2 ≠ j := by
        intro e
        apply hc
        simp [e]
      omega

/-! ## The binary heap: the five functions keep the heap order -/

theorem root_max (h : TxByPriceAndTime) (n : Nat) (hh : HeapFrom h n 0) :
    ∀ k, k < n → priceAt h k ≤ priceAt h 0 := by
  intro k
  induction k using Nat.strong_induction_on with
  | _ k ih =>
    intro hk
    by_cases h0 : k = 0
    · subst h0
      exact le_refl _
    · have h1 := hh k (by omega) hk (Nat.zero_le _)
      have h2 := ih ((k - 1) / 2) (by omega) (by omega)
      exact le_trans h1 h2

theorem initLoop_spec (n : Nat) :
    ∀ (k : Nat) (h : TxByPriceAndTime), n ≤ h.length → HeapFrom h n k →
      HeapFrom (heap.initLoop k h n) n 0 ∧ (heap.initLoop k h n).Perm h := by
  intro k
  induction k with
  | zero =>
    intro h _ hh
    exact ⟨hh, List.Perm.refl _⟩
  | succ k ih =>
    intro h hn hh
    simp only [heap.initLoop]
    have hinv : DownInv h n k k := by
      constructor
      · intro c hc hcn hm hne
        exact hh c hc hcn (by omega)
      · intro hne
        exact absurd rfl hne
    obtain ⟨d1, d2, _⟩ := down_spec h n k hn hinv
    obtain ⟨r1, r2⟩ := ih (heap.down h k n).1 (by rw [d2.length_eq]; exact hn) d1
    exact ⟨r1, r2.trans d2⟩

theorem Init_spec (h : TxByPriceAndTime) : IsHeap (heap.Init h) ∧ (heap.Init h).Perm h := by
  have hh : HeapFrom h h.length (h.length / 2) := by
    intro c hc hcn hm
    omega
  obtain ⟨r1, r2⟩ := initLoop_spec h.length (h.length / 2) h (le_refl _) hh
  simp only [heap.Init, TxByPriceAndTime.Len]
  refine ⟨?_, r2⟩
  unfold IsHeap
  rw [r2.length_eq]
  exact r1

theorem priceAt_append_left (h : TxByPriceAndTime) (x : TxWithMinerFee) (k : Nat)
    (hk : k < h.length) : priceAt (h ++ [x]) k = priceAt h k := by
  simp [priceAt, List.getElem?_append, hk]

theorem Push_spec (h : TxByPriceAndTime) (x : TxWithMinerFee) (hh : IsHeap h) :
    IsHeap (heap.Push h x) ∧ (heap.Push h x).Perm (x :: h) := by
  simp only [heap.Push, TxByPriceAndTime.Push, TxByPriceAndTime.Len]
  have hlen : (h ++ [x]).length = h.length + 1 := by simp
  have hinv : UpInv (h ++ [x]) ((h ++ [x]).length - 1) := by
    constructor
    · intro c hc hcn hne
      rw [priceAt_append_left h x c (by omega), priceAt_append_left h x _ (by omega)]
      exact hh c hc (by omega) (Nat.zero_le _)
    · intro _ c hc hcn hpar
      omega
  obtain ⟨r1, r2⟩ := up_spec (h ++ [x]) ((h ++ [x]).length - 1) (by omega) hinv
  refine ⟨r1, r2.trans ?_⟩
  exact List.perm_append_singleton x h

theorem Fix_zero_spec (h : TxByPriceAndTime)
    (hh : ∀ c, 0 < c → c < h.length → (c - 1) / 2 ≠ 0 → priceAt h c ≤ priceAt h ((c - 1) / 2)) :
    IsHeap (heap.Fix h 0) ∧ (heap.Fix h 0).Perm h := by
  have hinv : DownInv h h.length 0 0 := by
    constructor
    · intro c hc hcn _ hne
      exact hh c hc hcn hne
    · intro hne
      exact absurd rfl hne
  obtain ⟨d1, d2, _⟩ := down_spec h h.length 0 (le_refl _) hinv
  have hfix : heap.Fix h 0 = (heap.down h 0 h.length).1 := by
    simp only [heap.Fix, TxByPriceAndTime.Len, up_zero]
    split <;> rfl
  rw [hfix]
  refine ⟨?_, d2⟩
  unfold IsHeap
  rw [d2.length_eq]
  exact d1

theorem Pop_spec (h : TxByPriceAndTime) (top : TxWithMinerFee) (rest0 : TxByPriceAndTime)
    (hne : h = top :: rest0) (hh : IsHeap h) :
    ∃ rest, heap.Pop h = some (top, rest) ∧ IsHeap rest ∧ (top :: rest).Perm h := by
  have hlen : h.length = rest0.length + 1 := by simp [hne]
  have h0 : h[0]? = some top := by simp [hne]
  have hinv : DownInv (TxByPriceAndTime.Swap h 0 (h.length - 1)) (h.length - 1) 0 0 := by
    constructor
    · intro c hc hcn _ hpar
      rw [priceAt_Swap h 0 _ c (by omega) (by omega), priceAt_Swap h 0 _ _ (by omega) (by omega)]
      rw [if_neg (by omega), if_neg (by omega), if_neg (by omega), if_neg (by omega)]
      exact hh c hc (by omega) (Nat.zero_le _)
    · intro hne
      exact absurd rfl hne
  have hsl := Swap_length h 0 (h.length - 1)
  obtain ⟨d1, d2, d3⟩ := down_spec (TxByPriceAndTime.Swap h 0 (h.length - 1)) (h.length - 1) 0
    (by omega) hinv
  have hd2len := d2.length_eq
  have hlast : (heap.down (TxByPriceAndTime.Swap h 0 (h.length - 1)) 0 (h.length - 1)).1.getLast?
      = some top := by
    rw [List.getLast?_eq_getElem?, hd2len, hsl, d3 _ (le_refl _),
      getElem?_Swap h 0 _ _ (by omega) (by omega), if_pos rfl, h0]
  refine ⟨(heap.down (TxByPriceAndTime.Swap h 0 (h.length - 1)) 0 (h.length - 1)).1.dropLast,
    ?_, ?_, ?_⟩
  · simp only [heap.Pop, TxByPriceAndTime.Len, TxByPriceAndTime.Pop]
    rw [if_neg (by omega)]
    simp only [hlast]
  · intro c hc hcn _
    rw [List.length_dropLast, hd2len, hsl] at hcn
    have e : ∀ k, k < h.length - 1 →
        priceAt (heap.down (TxByPriceAndTime.Swap h 0 (h.length - 1)) 0 (h.length - 1)).1.dropLast k
          = priceAt (heap.down (TxByPriceAndTime.Swap h 0 (h.length - 1)) 0 (h.length - 1)).1 k := by
      intro k hk
      simp only [priceAt, List.getElem?_dropLast, hd2len, hsl, hk, if_true]
    rw [e c hcn, e _ (by omega)]
    exact d1 c hc hcn (Nat.zero_le _)
  · have hpl := List.dropLast_append_getLast? top (by rw [hlast]; exact rfl)
    have hp1 : (top :: (heap.down (TxByPriceAndTime.Swap h 0 (h.length - 1)) 0
        (h.length - 1)).1.dropLast).Perm
        (heap.down (TxByPriceAndTime.Swap h 0 (h.length - 1)) 0 (h.length - 1)).1 := by
      have := (List.perm_append_singleton top
        (heap.down (TxByPriceAndTime.Swap h 0 (h.length - 1)) 0 (h.length - 1)).1.dropLast)
      rw [hpl] at this
      exact this.symm
    exact hp1.trans (d2.trans (Swap_perm h 0 _))

/-! ## Order book: the heads stay a heap -/

theorem New_heads (signer : Signer) (txs : TxMap) (bundles : List SimulatedBundle)
    (sbundles : List SimSBundle) (baseFee : Option Int) (t : TransactionsByPriceAndNonce)
    (h : NewTransactionsByPriceAndNonce signer txs bundles sbundles baseFee = some t) :
    ∃ m heads, seedLoop signer baseFee txs
        (txs, wrapBundles baseFee bundles (wrapSBundles baseFee sbundles [])) = some (m, heads) ∧
      t = ⟨m, heap.Init heads, signer, baseFee⟩ := by
  simp only [NewTransactionsByPriceAndNonce] at h
  split at h
  · exact absurd h (by simp)
  · next m heads hs =>
    simp only [Option.some.injEq] at h
    exact ⟨m, heads, hs, h.symm⟩

theorem New_IsHeap (signer : Signer) (txs : TxMap) (bundles : List SimulatedBundle)
    (sbundles : List SimSBundle) (baseFee : Option Int) (t : TransactionsByPriceAndNonce)
    (h : NewTransactionsByPriceAndNonce signer txs bundles sbundles baseFee = some t) :
    IsHeap t.heads := by
  obtain ⟨m, heads, _, rfl⟩ := New_heads signer txs bundles sbundles baseFee t h
  exact (Init_spec heads).1

theorem book_Pop_spec (t : TransactionsByPriceAndNonce) (top : TxWithMinerFee)
    (rest0 : TxByPriceAndTime) (hne : t.heads = top :: rest0) (hh : IsHeap t.heads) :
    ∃ rest, t.Pop = some ⟨t.txs, rest, t.signer, t.baseFee⟩ ∧ IsHeap rest ∧ rest.Perm rest0 := by
  obtain ⟨rest, h1, h2, h3⟩ := Pop_spec t.heads top rest0 hne hh
  refine ⟨rest, ?_, h2, ?_⟩
  · simp only [TransactionsByPriceAndNonce.Pop, h1]
  · rw [hne] at h3
    exact List.Perm.cons_inv h3

theorem book_Shift_replace_spec (heads : TxByPriceAndTime) (top wrapped : TxWithMinerFee)
    (rest0 : TxByPriceAndTime) (hne : heads = top :: rest0) (hh : IsHeap heads) :
    IsHeap (heap.Fix (heads.set 0 wrapped) 0) ∧
      (heap.Fix (heads.set 0 wrapped) 0).Perm (wrapped :: rest0) := by
  subst hne
  have hset : (top :: rest0).set 0 wrapped = wrapped :: rest0 := rfl
  rw [hset]
  apply Fix_zero_spec
  intro c hc hcn hpar
  have h1 := hh c hc (by simpa using hcn) (Nat.zero_le _)
  have e : ∀ k, k ≠ 0 → priceAt (wrapped :: rest0) k = priceAt (top :: rest0) k := by
    intro k hk
    cases k with
    | zero => exact absurd rfl hk
    | succ k => simp [priceAt]
  rw [e c (by omega), e _ hpar]
  exact h1

theorem Pop_IsHeap (t t1 : TransactionsByPriceAndNonce) (hh : IsHeap t.heads)
    (h : t.Pop = some t1) : IsHeap t1.heads := by
  cases hne : t.heads with
  | nil =>
    simp [TransactionsByPriceAndNonce.Pop, heap.Pop, TxByPriceAndTime.Len, hne] at h
  | cons top rest0 =>
    obtain ⟨rest, h1, h2, _⟩ := book_Pop_spec t top rest0 hne hh
    rw [h1] at h
    simp only [Option.some.injEq] at h
    subst h
    exact h2

theorem Shift_IsHeap (t t1 : TransactionsByPriceAndNonce) (hh : IsHeap t.heads)
    (h : t.Shift = some t1) : IsHeap t1.heads := by
  cases hne : t.heads with
  | nil => simp [TransactionsByPriceAndNonce.Shift, hne] at h
  | cons top rest0 =>
    simp only [TransactionsByPriceAndNonce.Shift, hne] at h
    split at h
    · next acc wrapped tail _ =>
      simp only [Option.some.injEq] at h
      subst h
      have := (book_Shift_replace_spec t.heads top wrapped rest0 hne hh).1
      rw [hne] at this
      exact this
    · exact Pop_IsHeap t t1 hh h

theorem book_Push_IsHeap (t : TransactionsByPriceAndNonce) (tx : Option TxWithMinerFee)
    (hh : IsHeap t.heads) : IsHeap (t.Push tx).heads := by
  cases tx with
  | none => exact hh
  | some w => exact (Push_spec t.heads w hh).1

theorem ShiftAndPush_IsHeap (t : TransactionsByPriceAndNonce) (tx : Option Transaction)
    (hh : IsHeap t.heads) : IsHeap (t.ShiftAndPushByAccountForTx tx).heads := by
  cases tx with
  | none => exact hh
  | some tx =>
    simp only [TransactionsByPriceAndNonce.ShiftAndPushByAccountForTx]
    split
    · split
      · exact (Push_spec t.heads _ hh).1
      · exact hh
    · exact hh

theorem applyOps_IsHeap (ops : List BookOp) :
    ∀ (t t1 : TransactionsByPriceAndNonce), IsHeap t.heads → applyOps t ops = some t1 →
      IsHeap t1.heads := by
  induction ops with
  | nil =>
    intro t t1 hh h
    simp only [applyOps, Option.some.injEq] at h
    subst h
    exact hh
  | cons op ops ih =>
    intro t t1 hh h
    simp only [applyOps] at h
    split at h
    · exact absurd h (by simp)
    · next t2 h2 =>
      apply ih t2 t1 _ h
      cases op with
      | Shift => exact Shift_IsHeap t t2 hh h2
      | Pop => exact Pop_IsHeap t t2 hh h2
      | Push tx =>
        simp only [applyOp, Option.some.injEq] at h2
        subst h2
        exact book_Push_IsHeap t tx hh
      | ShiftAndPushByAccountForTx tx =>
        simp only [applyOp, Option.some.injEq] at h2
        subst h2
        exact ShiftAndPush_IsHeap t tx hh

theorem Peek_max_of_IsHeap (t : TransactionsByPriceAndNonce) (hh : IsHeap t.heads)
    (w : TxWithMinerFee) (hw : t.Peek = some w) :
    ∀ e ∈ t.heads, e.Price ≤ w.Price := by
  intro e he
  obtain ⟨k, hk⟩ := List.mem_iff_getElem?.mp he
  have hkl : k < t.heads.length := by
    rcases List.getElem?_eq_some.mp hk with ⟨hlt, _⟩
    exact hlt
  have h0 : t.heads[0]? = some w := by
    simp only [TransactionsByPriceAndNonce.Peek] at hw
    split at hw
    · exact absurd hw (by simp)
    · next w1 rest hne =>
      simp only [Option.some.injEq] at hw
      subst hw
      simp [hne]
  have := root_max t.heads t.heads.length hh k hkl
  simpa [priceAt, hk, h0, TxWithMinerFee.Price] using this

theorem drainByPop_spec :
    ∀ (fuel : Nat) (t : TransactionsByPriceAndNonce), IsHeap t.heads → t.heads.length ≤ fuel →
      (drainByPop fuel t).Perm t.heads ∧
      (drainByPop fuel t).Pairwise (fun a b => b.Price ≤ a.Price) := by
  intro fuel
  induction fuel with
  | zero =>
    intro t _ hl
    have : t.heads = [] := List.length_eq_zero.mp (by omega)
    simp [drainByPop, this]
  | succ fuel ih =>
    intro t hh hl
    cases hne : t.heads with
    | nil => simp [drainByPop, TransactionsByPriceAndNonce.Peek, hne]
    | cons top rest0 =>
      obtain ⟨rest, h1, h2, h3⟩ := book_Pop_spec t top rest0 hne hh
      have hpeek : t.Peek = some top := by simp [TransactionsByPriceAndNonce.Peek, hne]
      have hmax := Peek_max_of_IsHeap t hh top hpeek
      have hlen : rest.length ≤ fuel := by
        have := h3.length_eq
        rw [hne] at hl
        simp only [List.length_cons] at hl
        omega
      obtain ⟨r1, r2⟩ := ih ⟨t.txs, rest, t.signer, t.baseFee⟩ h2 hlen
      simp only [drainByPop, hpeek, h1]
      refine ⟨List.Perm.cons top (r1.trans h3), ?_⟩
      rw [List.pairwise_cons]
      refine ⟨?_, r2⟩
      intro b hb
      apply hmax b
      rw [hne]
      exact List.mem_cons_of_mem _ ((r1.trans h3).subset hb)

/-- C1: in every book reached from `NewTransactionsByPriceAndNonce` by a finite
sequence of `Shift`, `Pop`, `Push` and `ShiftAndPushByAccountForTx`, each
applied where it is defined, the entry returned by `Peek` has a price greater
than or equal to the price of every entry in heads; the same holds in the book
right after one more `Shift`; and draining the book by repeated `Pop` yields
all the heads, in non-increasing price order. -/
theorem Peek_is_max_price (signer : Signer) (txs : TxMap) (bundles : List SimulatedBundle)
    (sbundles : List SimSBundle) (baseFee : Option Int) (ops : List BookOp)
    (t0 t : TransactionsByPriceAndNonce)
    (h0 : NewTransactionsByPriceAndNonce signer txs bundles sbundles baseFee = some t0)
    (hops : applyOps t0 ops = some t) :
    (∀ w, t.Peek = some w → ∀ e ∈ t.heads, e.Price ≤ w.Price) ∧
    (∀ t1 w, t.Shift = some t1 → t1.Peek = some w → ∀ e ∈ t1.heads, e.Price ≤ w.Price) ∧
    (drainByPop t.heads.length t).Perm t.heads ∧
    (drainByPop t.heads.length t).Pairwise (fun a b => b.Price ≤ a.Price) := by
  have hh : IsHeap t.heads :=
    applyOps_IsHeap ops t0 t (New_IsHeap signer txs bundles sbundles baseFee t0 h0) hops
  refine ⟨Peek_max_of_IsHeap t hh, ?_, drainByPop_spec t.heads.length t hh (le_refl _)⟩
  intro t1 w hs
  exact Peek_max_of_IsHeap t1 (Shift_IsHeap t t1 hh hs) w

theorem Peek_is_max_price_witness :
    (∀ w, exampleBookShifted.Peek = some w → ∀ e ∈ exampleBookShifted.heads, e.Price ≤ w.Price) ∧
    (∀ t1 w, exampleBookShifted.Shift = some t1 → t1.Peek = some w →
      ∀ e ∈ t1.heads, e.Price ≤ w.Price) ∧
    (drainByPop exampleBookShifted.heads.length exampleBookShifted).Perm exampleBookShifted.heads ∧
    (drainByPop exampleBookShifted.heads.length exampleBookShifted).Pairwise
      (fun a b => b.Price ≤ a.Price) :=
  Peek_is_max_price exampleSigner [(1, exampleQueue1)] [exampleBundle] [] (some 0)
    [BookOp.Shift, BookOp.Shift] exampleBook exampleBookShifted rfl rfl

/-! ## Order book: the constructor -/

theorem mapGet_mapSet (m : TxMap) (a k : Address) (v : Transactions) :
    mapGet (mapSet m a v) k = if k = a then some v else mapGet m k := by
  induction m with
  | nil =>
    by_cases h : k = a
    · simp [mapSet, mapGet, h]
    · have : ¬ a = k := fun e => h e.symm
      simp [mapSet, mapGet, h, this]
  | cons e m ih =>
    obtain ⟨k1, w⟩ := e
    simp only [mapSet]
    by_cases h1 : k1 = a
    · rw [if_pos h1]
      simp only [mapGet]
      by_cases h : k = a
      · have : k1 = k := h1.trans h.symm
        simp [h, this]
      · have : ¬ k1 = k := fun e => h (e.symm.trans h1)
        simp [h, this]
    · rw [if_neg h1]
      simp only [mapGet, ih]
      by_cases h : k = a
      · have : ¬ k1 = k := fun e => h1 (e.trans h)
        simp [h, this, h1]
      · simp [h, h1]

theorem mapGet_mapDelete (m : TxMap) (a k : Address) :
    mapGet (mapDelete m a) k = if k = a then none else mapGet m k := by
  induction m with
  | nil => simp [mapDelete, mapGet]
  | cons e m ih =>
    obtain ⟨k1, w⟩ := e
    simp only [mapDelete] at ih
    simp only [mapDelete, List.filter_cons]
    by_cases h1 : k1 = a
    · have hd : decide (k1 ≠ a) = false := by simp [h1]
      simp only [hd, Bool.false_eq_true, if_false, ih, mapGet]
      by_cases h : k = a
      · simp [h, h1]
      · have : ¬ k1 = k := fun e => h (e.symm.trans h1)
        simp only [if_neg h, if_neg this]
    · have hd : decide (k1 ≠ a) = true := by simp [h1]
      simp only [hd, if_true, mapGet, ih]
      by_cases h : k = a
      · have : ¬ k1 = k := fun e => h1 (e.trans h)
        simp [h, this, h1]
      · simp [h, h1]

theorem mapGet_eq_none_of_not_mem (m : TxMap) (k : Address) (h : k ∉ m.map Prod.fst) :
    mapGet m k = none := by
  induction m with
  | nil => rfl
  | cons e m ih =>
    obtain ⟨k1, w⟩ := e
    simp only [List.map_cons, List.mem_cons, not_or] at h
    have : ¬ k1 = k := fun e => h.1 e.symm
    simp only [mapGet, this, if_false]
    exact ih h.2

theorem mapGet_of_mem (m : TxMap) (k : Address) (q : Transactions)
    (hnd : (m.map Prod.fst).Nodup) (h : (k, q) ∈ m) : mapGet m k = some q := by
  induction m with
  | nil => simp at h
  | cons e m ih =>
    obtain ⟨k1, w⟩ := e
    simp only [List.map_cons, List.nodup_cons] at hnd
    simp only [List.mem_cons, Prod.mk.injEq] at h
    rcases h with ⟨rfl, rfl⟩ | h
    · simp [mapGet]
    · have : ¬ k1 = k := by
        intro e
        subst e
        exact hnd.1 (List.mem_map_of_mem Prod.fst h)
      simp only [mapGet, this, if_false]
      exact ih hnd.2 h

theorem wrapSBundles_eq (baseFee : Option Int) (sbundles : List SimSBundle) :
    ∀ heads, wrapSBundles baseFee sbundles heads = heads ++ sbundles.map wrapSBundle := by
  induction sbundles with
  | nil => simp [wrapSBundles]
  | cons sb rest ih =>
    intro heads
    simp [wrapSBundles, NewSBundleWithMinerFee, ih, wrapSBundle]

theorem wrapBundles_eq (baseFee : Option Int) (bundles : List SimulatedBundle) :
    ∀ heads, wrapBundles baseFee bundles heads = heads ++ bundles.map wrapBundle := by
  induction bundles with
  | nil => simp [wrapBundles]
  | cons b rest ih =>
    intro heads
    simp [wrapBundles, NewBundleWithMinerFee, ih, wrapBundle]

theorem seedLoop_step (signer : Signer) (baseFee : Option Int) (frm : Address)
    (tx0 : Transaction) (tail : Transactions) (rest : List (Address × Transactions))
    (m : TxMap) (heads : TxByPriceAndTime) :
    seedLoop signer baseFee ((frm, tx0 :: tail) :: rest) (m, heads) =
      match seedHead signer baseFee (frm, tx0 :: tail) with
      | some w => seedLoop signer baseFee rest (mapSet m frm tail, heads ++ [w])
      | none => seedLoop signer baseFee rest (mapDelete m frm, heads) := by
  simp only [seedLoop, seedHead]
  cases hN : NewTxWithMinerFee tx0 baseFee with
  | error err =>
    by_cases ha : (Sender signer tx0).1 = frm
    · simp [ha]
    · simp [ha]
  | ok w =>
    by_cases ha : (Sender signer tx0).1 = frm
    · simp [ha]
    · simp [ha]

theorem seedLoop_spec (signer : Signer) (baseFee : Option Int) :
    ∀ (rest : List (Address × Transactions)) (m : TxMap) (heads : TxByPriceAndTime)
      (m1 : TxMap) (heads1 : TxByPriceAndTime),
      (rest.map Prod.fst).Nodup → seedLoop signer baseFee rest (m, heads) = some (m1, heads1) →
      heads1 = heads ++ rest.filterMap (seedHead signer baseFee) ∧
      (∀ frm q, (frm, q) ∈ rest →
        mapGet m1 frm = if (seedHead signer baseFee (frm, q)).isSome then some q.tail else none) ∧
      (∀ a, a ∉ rest.map Prod.fst → mapGet m1 a = mapGet m a) := by
  intro rest
  induction rest with
  | nil =>
    intro m heads m1 heads1 _ h
    simp only [seedLoop, Option.some.injEq, Prod.mk.injEq] at h
    obtain ⟨rfl, rfl⟩ := h
    simp
  | cons e rest ih =>
    intro m heads m1 heads1 hnd h
    obtain ⟨frm, q⟩ := e
    simp only [List.map_cons, List.nodup_cons] at hnd
    cases q with
    | nil => simp [seedLoop] at h
    | cons tx0 tail =>
      rw [seedLoop_step] at h
      cases hs : seedHead signer baseFee (frm, tx0 :: tail) with
      | none =>
        rw [hs] at h
        obtain ⟨r1, r2, r3⟩ := ih _ _ _ _ hnd.2 h
        refine ⟨?_, ?_, ?_⟩
        · rw [r1, List.filterMap_cons, hs]
        · intro k q hk
          simp only [List.mem_cons, Prod.mk.injEq] at hk
          rcases hk with ⟨rfl, rfl⟩ | hk
          · rw [r3 k hnd.1, mapGet_mapDelete, hs]
            simp
          · exact r2 k q hk
        · intro a ha
          simp only [List.map_cons, List.mem_cons, not_or] at ha
          rw [r3 a ha.2, mapGet_mapDelete, if_neg ha.1]
      | some w =>
        rw [hs] at h
        obtain ⟨r1, r2, r3⟩ := ih _ _ _ _ hnd.2 h
        refine ⟨?_, ?_, ?_⟩
        · rw [r1, List.filterMap_cons, hs]
          simp
        · intro k q hk
          simp only [List.mem_cons, Prod.mk.injEq] at hk
          rcases hk with ⟨rfl, rfl⟩ | hk
          · rw [r3 k hnd.1, mapGet_mapSet, hs]
            simp
          · exact r2 k q hk
        · intro a ha
          simp only [List.map_cons, List.mem_cons, not_or] at ha
          rw [r3 a ha.2, mapGet_mapSet, if_neg ha.1]

theorem seedLoop_total (signer : Signer) (baseFee : Option Int) :
    ∀ (rest : List (Address × Transactions)) (m : TxMap) (heads : TxByPriceAndTime),
      (∀ e ∈ rest, e.2 ≠ []) → ∃ r, seedLoop signer baseFee rest (m, heads) = some r := by
  intro rest
  induction rest with
  | nil =>
    intro m heads _
    exact ⟨(m, heads), rfl⟩
  | cons e rest ih =>
    intro m heads hne
    obtain ⟨frm, q⟩ := e
    cases q with
    | nil => exact absurd rfl (hne (frm, []) (List.mem_cons_self _ _))
    | cons tx0 tail =>
      rw [seedLoop_step]
      have hrest : ∀ e ∈ rest, e.2 ≠ [] := fun e he => hne e (List.mem_cons_of_mem _ he)
      split
      · exact ih _ _ hrest
      · exact ih _ _ hrest

/-- C10: for every input whose sender keys are pairwise distinct and whose
sender queues are non-empty, `NewTransactionsByPriceAndNonce` returns a book
whose heads hold, as a multiset, one wrapper per input sbundle, one per input
bundle and, per sender, the wrapper of the first transaction when the account
recovered from it equals the key and the fee wrap succeeds; such a sender keeps
its input queue without the first element, every other sender of the input is
absent from the resulting mapping and contributes no head, and no other key is
in the mapping. -/
theorem New_seeds_heads (signer : Signer) (txs : TxMap) (bundles : List SimulatedBundle)
    (sbundles : List SimSBundle) (baseFee : Option Int)
    (hnd : (txs.map Prod.fst).Nodup) (hne : ∀ e ∈ txs, e.2 ≠ []) :
    ∃ t, NewTransactionsByPriceAndNonce signer txs bundles sbundles baseFee = some t ∧
      t.heads.Perm (sbundles.map wrapSBundle ++ bundles.map wrapBundle ++
        txs.filterMap (seedHead signer baseFee)) ∧
      (∀ frm q, (frm, q) ∈ txs →
        mapGet t.txs frm =
          if (seedHead signer baseFee (frm, q)).isSome then some q.tail else none) ∧
      (∀ a, a ∉ txs.map Prod.fst → mapGet t.txs a = none) := by
  obtain ⟨⟨m, heads⟩, hr⟩ := seedLoop_total signer baseFee txs txs
    (wrapBundles baseFee bundles (wrapSBundles baseFee sbundles [])) hne
  obtain ⟨r1, r2, r3⟩ := seedLoop_spec signer baseFee txs txs _ m heads hnd hr
  refine ⟨⟨m, heap.Init heads, signer, baseFee⟩, ?_, ?_, r2, ?_⟩
  · simp only [NewTransactionsByPriceAndNonce, hr]
  · refine (Init_spec heads).2.trans ?_
    rw [r1, wrapBundles_eq, wrapSBundles_eq]
    simp
  · intro a ha
    rw [r3 a ha]
    exact mapGet_eq_none_of_not_mem txs a ha

theorem New_seeds_heads_witness :
    ∃ t, NewTransactionsByPriceAndNonce exampleSigner
        [(1, exampleQueue1), (2, exampleQueue2), (3, [exampleTx])] [exampleBundle] [⟨4, 0⟩]
        (some 0) = some t ∧
      t.heads.Perm ([⟨4, 0⟩].map wrapSBundle ++ [exampleBundle].map wrapBundle ++
        [(1, exampleQueue1), (2, exampleQueue2), (3, [exampleTx])].filterMap
          (seedHead exampleSigner (some 0))) ∧
      (∀ frm q, (frm, q) ∈ [(1, exampleQueue1), (2, exampleQueue2), (3, [exampleTx])] →
        mapGet t.txs frm =
          if (seedHead exampleSigner (some 0) (frm, q)).isSome then some q.tail else none) ∧
      (∀ a, a ∉ [(1, exampleQueue1), (2, exampleQueue2), (3, [exampleTx])].map Prod.fst →
        mapGet t.txs a = none) :=
  New_seeds_heads exampleSigner [(1, exampleQueue1), (2, exampleQueue2), (3, [exampleTx])]
    [exampleBundle] [⟨4, 0⟩] (some 0) (by decide) (by decide)

/-! ## Order book: driving by `Shift` -/

theorem perm_eq_of_length_le_one (l1 l2 : List Transaction) (hp : l1.Perm l2)
    (hl : l2.length ≤ 1) : l1 = l2 := by
  cases l2 with
  | nil => exact hp.eq_nil
  | cons x xs =>
    cases xs with
    | nil => exact List.perm_singleton.mp hp
    | cons y ys =>
      simp only [List.length_cons] at hl
      omega

theorem txsOf_cons (signer : Signer) (a : Address) (w : TxWithMinerFee)
    (l : List TxWithMinerFee) :
    txsOf signer a (w :: l) = txsOf signer a [w] ++ txsOf signer a l := by
  have : w :: l = [w] ++ l := rfl
  rw [this]
  simp only [txsOf, List.filterMap_append, List.filter_append]

theorem txsOf_perm (signer : Signer) (a : Address) (l1 l2 : List TxWithMinerFee)
    (hp : l1.Perm l2) : (txsOf signer a l1).Perm (txsOf signer a l2) :=
  (hp.filterMap _).filter _

theorem txsOf_singleton_none (signer : Signer) (a : Address) (w : TxWithMinerFee)
    (h : w.Tx = none) : txsOf signer a [w] = [] := by
  simp [txsOf, List.filterMap_cons, h]

theorem txsOf_singleton_some (signer : Signer) (a : Address) (w : TxWithMinerFee)
    (tx : Transaction) (h : w.Tx = some tx) :
    txsOf signer a [w] = if (Sender signer tx).1 = a then [tx] else [] := by
  by_cases ha : (Sender signer tx).1 = a
  · simp [txsOf, List.filterMap_cons, h, ha]
  · simp [txsOf, List.filterMap_cons, h, ha]

theorem NewTxWithMinerFee_Tx (tx : Transaction) (baseFee : Option Int) (w : TxWithMinerFee)
    (h : NewTxWithMinerFee tx baseFee = Except.ok w) : w.Tx = some tx := by
  unfold NewTxWithMinerFee at h
  split at h
  · exact absurd h (by simp)
  · simp only [Except.ok.injEq] at h
    subst h
    rfl

theorem queueLengths_mapSet (m : TxMap) (a : Address) (tx0 : Transaction) (tail : Transactions)
    (h : mapGet m a = some (tx0 :: tail)) :
    queueLengths (mapSet m a tail) + 1 = queueLengths m := by
  induction m with
  | nil => simp [mapGet] at h
  | cons e m ih =>
    obtain ⟨k1, w⟩ := e
    simp only [mapGet] at h
    by_cases h1 : k1 = a
    · rw [if_pos h1] at h
      simp only [Option.some.injEq] at h
      subst h
      simp only [mapSet, if_pos h1, queueLengths, List.map_cons, List.sum_cons, List.length_cons]
      omega
    · rw [if_neg h1] at h
      have := ih h
      simp only [queueLengths] at this
      simp only [mapSet, if_neg h1, queueLengths, List.map_cons, List.sum_cons]
      omega

theorem shiftNext_some (t : TransactionsByPriceAndNonce) (top wrapped : TxWithMinerFee)
    (acc : Address) (tail : Transactions)
    (h : t.shiftNext top = some (acc, wrapped, tail)) :
    ∃ tx tx0, top.Tx = some tx ∧ acc = (Sender t.signer tx).1 ∧
      mapGet t.txs acc = some (tx0 :: tail) ∧
      NewTxWithMinerFee tx0 t.baseFee = Except.ok wrapped := by
  unfold TransactionsByPriceAndNonce.shiftNext at h
  split at h
  · exact absurd h (by simp)
  · next tx htx =>
    dsimp only at h
    split at h
    · next tx0 tail0 hq =>
      split at h
      · next w hw =>
        simp only [Option.some.injEq, Prod.mk.injEq] at h
        obtain ⟨rfl, rfl, rfl⟩ := h
        exact ⟨tx, tx0, htx, rfl, hq, hw⟩
      · exact absurd h (by simp)
    · exact absurd h (by simp)

theorem shiftNext_none (t : TransactionsByPriceAndNonce) (top : TxWithMinerFee)
    (tx : Transaction) (htx : top.Tx = some tx) (h : t.shiftNext top = none)
    (hq : ∀ q, mapGet t.txs (Sender t.signer tx).1 = some q → ∀ x ∈ q,
      ∃ w, NewTxWithMinerFee x t.baseFee = Except.ok w) :
    (mapGet t.txs (Sender t.signer tx).1).getD [] = [] := by
  unfold TransactionsByPriceAndNonce.shiftNext at h
  rw [htx] at h
  simp only at h
  cases hm : mapGet t.txs (Sender t.signer tx).1 with
  | none => rfl
  | some q =>
    cases q with
    | nil => rfl
    | cons tx0 tail =>
      rw [hm] at h
      obtain ⟨w, hw⟩ := hq _ hm tx0 (List.mem_cons_self _ _)
      simp [hw] at h

theorem Shift_step_replace (t : TransactionsByPriceAndNonce) (top : TxWithMinerFee)
    (rest0 : TxByPriceAndTime) (hne : t.heads = top :: rest0) (hinv : DriveInv t)
    (acc : Address) (wrapped : TxWithMinerFee) (tail : Transactions)
    (hs : t.shiftNext top = some (acc, wrapped, tail)) :
    ∃ t1, t.Shift = some t1 ∧ DriveInv t1 ∧ bookSize t1 + 1 = bookSize t ∧
      t1.signer = t.signer ∧
      ∀ a, txsOf t.signer a [top] ++ (txsOf t.signer a t1.heads ++ (mapGet t1.txs a).getD []) =
        txsOf t.signer a t.heads ++ (mapGet t.txs a).getD [] := by
  obtain ⟨hheap, hone, hempty, hq⟩ := hinv
  have hsplit : ∀ a, txsOf t.signer a t.heads =
      txsOf t.signer a [top] ++ txsOf t.signer a rest0 := by
    intro a
    rw [hne]
    exact txsOf_cons _ _ _ _
  obtain ⟨tx, tx0, htx, hacc, hmq, hw⟩ := shiftNext_some t top wrapped acc tail hs
  have hShift : t.Shift =
      some ⟨mapSet t.txs acc tail, heap.Fix (t.heads.set 0 wrapped) 0, t.signer, t.baseFee⟩ := by
    unfold TransactionsByPriceAndNonce.Shift
    split
    · next hnil => rw [hne] at hnil; exact absurd hnil (by simp)
    · next top1 rest1 hcons =>
      rw [hne] at hcons
      simp only [List.cons.injEq] at hcons
      obtain ⟨rfl, _⟩ := hcons
      rw [hs]
  obtain ⟨fh, fp⟩ := book_Shift_replace_spec t.heads top wrapped rest0 hne hheap
  have hwtx := NewTxWithMinerFee_Tx tx0 _ wrapped hw
  have hs0 : (Sender t.signer tx0).1 = acc := (hq acc _ hmq tx0 (List.mem_cons_self _ _)).1
  have htop : ∀ a, txsOf t.signer a [top] = if acc = a then [tx] else [] := by
    intro a
    rw [txsOf_singleton_some _ _ _ _ htx, ← hacc]
  have hwr : ∀ a, txsOf t.signer a [wrapped] = if acc = a then [tx0] else [] := by
    intro a
    rw [txsOf_singleton_some _ _ _ _ hwtx, hs0]
  have hrest_acc : txsOf t.signer acc rest0 = [] := by
    have := hone acc
    rw [hsplit acc, htop acc, if_pos rfl, List.length_append] at this
    simp only [List.length_singleton] at this
    exact List.length_eq_zero.mp (by omega)
  have hX : ∀ a, (txsOf t.signer a (wrapped :: rest0)).length ≤ 1 := by
    intro a
    rw [txsOf_cons, hwr a]
    by_cases hca : acc = a
    · subst hca
      rw [if_pos rfl, hrest_acc]
      simp
    · rw [if_neg hca, List.nil_append]
      have := hone a
      rw [hsplit a, htop a, if_neg hca, List.nil_append] at this
      exact this
  have hnew : ∀ a, txsOf t.signer a (heap.Fix (t.heads.set 0 wrapped) 0) =
      txsOf t.signer a (wrapped :: rest0) :=
    fun a => perm_eq_of_length_le_one _ _ (txsOf_perm _ _ _ _ fp) (hX a)
  refine ⟨_, hShift, ⟨fh, ?_, ?_, ?_⟩, ?_, rfl, ?_⟩
  · intro a
    dsimp only
    rw [hnew a]
    exact hX a
  · intro a h
    dsimp only at h ⊢
    rw [hnew a, txsOf_cons, hwr a] at h
    by_cases hca : acc = a
    · rw [if_pos hca] at h
      simp at h
    · rw [if_neg hca, List.nil_append] at h
      have hac : ¬ a = acc := fun e => hca e.symm
      rw [mapGet_mapSet, if_neg hac]
      apply hempty a
      rw [hsplit a, htop a, if_neg hca, h]
      rfl
  · intro a q hmq1 x hx
    dsimp only at hmq1 ⊢
    rw [mapGet_mapSet] at hmq1
    by_cases hac : a = acc
    · rw [if_pos hac] at hmq1
      simp only [Option.some.injEq] at hmq1
      subst hmq1
      subst hac
      exact hq a _ hmq x (List.mem_cons_of_mem _ hx)
    · rw [if_neg hac] at hmq1
      exact hq a q hmq1 x hx
  · have h1 := fp.length_eq
    have h2 := queueLengths_mapSet t.txs acc tx0 tail hmq
    have h3 : t.heads.length = rest0.length + 1 := by rw [hne]; rfl
    simp only [bookSize, List.length_cons] at h1 ⊢
    omega
  · intro a
    dsimp only
    rw [hnew a, txsOf_cons _ _ wrapped, hwr a, hsplit a, htop a, mapGet_mapSet]
    by_cases hca : acc = a
    · subst hca
      simp [hrest_acc, hmq]
    · have hac : ¬ a = acc := fun e => hca e.symm
      simp [hca, hac]

theorem Shift_step_pop (t : TransactionsByPriceAndNonce) (top : TxWithMinerFee)
    (rest0 : TxByPriceAndTime) (hne : t.heads = top :: rest0) (hinv : DriveInv t)
    (hs : t.shiftNext top = none) :
    ∃ t1, t.Shift = some t1 ∧ DriveInv t1 ∧ bookSize t1 + 1 = bookSize t ∧
      t1.signer = t.signer ∧
      ∀ a, txsOf t.signer a [top] ++ (txsOf t.signer a t1.heads ++ (mapGet t1.txs a).getD []) =
        txsOf t.signer a t.heads ++ (mapGet t.txs a).getD [] := by
  obtain ⟨hheap, hone, hempty, hq⟩ := hinv
  have hsplit : ∀ a, txsOf t.signer a t.heads =
      txsOf t.signer a [top] ++ txsOf t.signer a rest0 := by
    intro a
    rw [hne]
    exact txsOf_cons _ _ _ _
  have hShift : t.Shift = t.Pop := by
    unfold TransactionsByPriceAndNonce.Shift
    split
    · next hnil => rw [hne] at hnil; exact absurd hnil (by simp)
    · next top1 rest1 hcons =>
      rw [hne] at hcons
      simp only [List.cons.injEq] at hcons
      obtain ⟨rfl, _⟩ := hcons
      rw [hs]
  obtain ⟨rest, hpop, hrh, hrp⟩ := book_Pop_spec t top rest0 hne hheap
  have hlen0 : ∀ a, (txsOf t.signer a rest0).length ≤ 1 := by
    intro a
    have := hone a
    rw [hsplit a, List.length_append] at this
    omega
  have hnew : ∀ a, txsOf t.signer a rest = txsOf t.signer a rest0 :=
    fun a => perm_eq_of_length_le_one _ _ (txsOf_perm _ _ _ _ hrp) (hlen0 a)
  have hqueue : ∀ a, txsOf t.signer a rest0 = [] → (mapGet t.txs a).getD [] = [] := by
    intro a h
    cases htx : top.Tx with
    | none =>
      apply hempty a
      rw [hsplit a, txsOf_singleton_none _ _ _ htx, h]
      rfl
    | some tx =>
      by_cases hca : (Sender t.signer tx).1 = a
      · rw [← hca]
        exact shiftNext_none t top tx htx hs (fun q hq1 x hx => (hq _ q hq1 x hx).2)
      · apply hempty a
        rw [hsplit a, txsOf_singleton_some _ _ _ _ htx, if_neg hca, h]
        rfl
  refine ⟨⟨t.txs, rest, t.signer, t.baseFee⟩, hShift.trans hpop, ⟨hrh, ?_, ?_, hq⟩, ?_, rfl, ?_⟩
  · intro a
    dsimp only
    rw [hnew a]
    exact hlen0 a
  · intro a h
    dsimp only at h ⊢
    rw [hnew a] at h
    exact hqueue a h
  · have h1 := hrp.length_eq
    have h3 : t.heads.length = rest0.length + 1 := by rw [hne]; rfl
    simp only [bookSize]
    omega
  · intro a
    dsimp only
    rw [hnew a, hsplit a, List.append_assoc]

theorem Shift_step (t : TransactionsByPriceAndNonce) (top : TxWithMinerFee)
    (rest0 : TxByPriceAndTime) (hne : t.heads = top :: rest0) (hinv : DriveInv t) :
    ∃ t1, t.Shift = some t1 ∧ DriveInv t1 ∧ bookSize t1 + 1 = bookSize t ∧
      t1.signer = t.signer ∧
      ∀ a, txsOf t.signer a [top] ++ (txsOf t.signer a t1.heads ++ (mapGet t1.txs a).getD []) =
        txsOf t.signer a t.heads ++ (mapGet t.txs a).getD [] := by
  cases hs : t.shiftNext top with
  | none => exact Shift_step_pop t top rest0 hne hinv hs
  | some r =>
    obtain ⟨acc, wrapped, tail⟩ := r
    exact Shift_step_replace t top rest0 hne hinv acc wrapped tail hs

theorem driveByShift_spec :
    ∀ (fuel : Nat) (t : TransactionsByPriceAndNonce), DriveInv t → bookSize t ≤ fuel →
      ∀ a, txsOf t.signer a (driveByShift fuel t) =
        txsOf t.signer a t.heads ++ (mapGet t.txs a).getD [] := by
  intro fuel
  induction fuel with
  | zero =>
    intro t hinv hl a
    have hnil : t.heads = [] := by
      apply List.length_eq_zero.mp
      simp only [bookSize] at hl
      omega
    have := hinv.2.2.1 a (by rw [hnil]; rfl)
    simp only [driveByShift, hnil, this]
    rfl
  | succ fuel ih =>
    intro t hinv hl a
    cases hne : t.heads with
    | nil =>
      have := hinv.2.2.1 a (by rw [hne]; rfl)
      simp only [driveByShift, TransactionsByPriceAndNonce.Peek, hne, this]
      rfl
    | cons top rest0 =>
      obtain ⟨t1, h1, h2, h3, h4, h5⟩ := Shift_step t top rest0 hne hinv
      have hpeek : t.Peek = some top := by simp [TransactionsByPriceAndNonce.Peek, hne]
      have := ih t1 h2 (by omega) a
      rw [h4] at this
      simp only [driveByShift, hpeek, h1]
      rw [txsOf_cons, this, h5 a, hne]

theorem driveByShift_succ (fuel : Nat) (t t1 : TransactionsByPriceAndNonce)
    (top : TxWithMinerFee) (hp : t.Peek = some top) (hs : t.Shift = some t1) :
    driveByShift (fuel + 1) t = top :: driveByShift fuel t1 := by
  simp only [driveByShift, hp, hs]

theorem driveByShift_fuel :
    ∀ (fuel : Nat) (t : TransactionsByPriceAndNonce), DriveInv t → bookSize t ≤ fuel →
      driveByShift (fuel + 1) t = driveByShift fuel t := by
  intro fuel
  induction fuel with
  | zero =>
    intro t _ hl
    have hnil : t.heads = [] := by
      apply List.length_eq_zero.mp
      simp only [bookSize] at hl
      omega
    simp only [driveByShift, TransactionsByPriceAndNonce.Peek, hnil]
  | succ fuel ih =>
    intro t hinv hl
    cases hne : t.heads with
    | nil => simp only [driveByShift, TransactionsByPriceAndNonce.Peek, hne]
    | cons top rest0 =>
      obtain ⟨t1, h1, h2, h3, _, _⟩ := Shift_step t top rest0 hne hinv
      have hpeek : t.Peek = some top := by simp [TransactionsByPriceAndNonce.Peek, hne]
      rw [driveByShift_succ (fuel + 1) t t1 top hpeek h1, driveByShift_succ fuel t t1 top hpeek h1,
        ih t1 h2 (by omega)]

theorem seedLoop_nonempty (signer : Signer) (baseFee : Option Int) :
    ∀ (rest : List (Address × Transactions)) (st r : TxMap × TxByPriceAndTime),
      seedLoop signer baseFee rest st = some r → ∀ e ∈ rest, e.2 ≠ [] := by
  intro rest
  induction rest with
  | nil =>
    intro _ _ _ e he
    simp at he
  | cons e0 rest ih =>
    intro st r h e he
    obtain ⟨frm, q⟩ := e0
    obtain ⟨m, heads⟩ := st
    cases q with
    | nil => simp [seedLoop] at h
    | cons tx0 tail =>
      rw [seedLoop_step] at h
      simp only [List.mem_cons] at he
      rcases he with rfl | he
      · simp
      · split at h
        · exact ih _ _ h e he
        · exact ih _ _ h e he

theorem mapGet_some_mem (m : TxMap) (k : Address) (q : Transactions)
    (h : mapGet m k = some q) : (k, q) ∈ m := by
  induction m with
  | nil => simp [mapGet] at h
  | cons e m ih =>
    obtain ⟨k1, w⟩ := e
    simp only [mapGet] at h
    by_cases h1 : k1 = k
    · rw [if_pos h1] at h
      simp only [Option.some.injEq] at h
      subst h
      subst h1
      exact List.mem_cons_self _ _
    · rw [if_neg h1] at h
      exact List.mem_cons_of_mem _ (ih h)

theorem mapGet_none_not_mem (m : TxMap) (k : Address) (h : mapGet m k = none) :
    k ∉ m.map Prod.fst := by
  induction m with
  | nil => simp
  | cons e m ih =>
    obtain ⟨k1, w⟩ := e
    simp only [mapGet] at h
    by_cases h1 : k1 = k
    · rw [if_pos h1] at h
      exact absurd h (by simp)
    · rw [if_neg h1] at h
      simp only [List.map_cons, List.mem_cons, not_or]
      exact ⟨fun e => h1 e.symm, ih h⟩

theorem txsOf_nil_of_no_tx (signer : Signer) (a : Address) (l : List TxWithMinerFee)
    (h : ∀ w ∈ l, w.Tx = none) : txsOf signer a l = [] := by
  induction l with
  | nil => rfl
  | cons w l ih =>
    rw [txsOf_cons, txsOf_singleton_none _ _ _ (h w (List.mem_cons_self _ _)),
      ih (fun x hx => h x (List.mem_cons_of_mem _ hx))]
    rfl

theorem txsOf_append (signer : Signer) (a : Address) (l1 l2 : List TxWithMinerFee) :
    txsOf signer a (l1 ++ l2) = txsOf signer a l1 ++ txsOf signer a l2 := by
  simp only [txsOf, List.filterMap_append, List.filter_append]

theorem seedHead_good (signer : Signer) (baseFee : Option Int) (k : Address)
    (tx0 : Transaction) (tail : Transactions)
    (hsig : (Sender signer tx0).1 = k)
    (hwrap : ∃ w, NewTxWithMinerFee tx0 baseFee = Except.ok w) :
    ∃ w, seedHead signer baseFee (k, tx0 :: tail) = some w ∧ w.Tx = some tx0 := by
  obtain ⟨w, hw⟩ := hwrap
  refine ⟨w, ?_, NewTxWithMinerFee_Tx tx0 baseFee w hw⟩
  simp [seedHead, hsig, hw]

theorem txsOf_seedHeads (signer : Signer) (baseFee : Option Int) (a : Address) :
    ∀ (txs : TxMap), (txs.map Prod.fst).Nodup →
      (∀ k q, (k, q) ∈ txs → q ≠ [] ∧ ∀ tx ∈ q, (Sender signer tx).1 = k ∧
        ∃ w, NewTxWithMinerFee tx baseFee = Except.ok w) →
      txsOf signer a (txs.filterMap (seedHead signer baseFee)) =
        ((mapGet txs a).getD []).take 1 := by
  intro txs
  induction txs with
  | nil =>
    intro _ _
    rfl
  | cons e txs ih =>
    intro hnd hgood
    obtain ⟨k, q⟩ := e
    simp only [List.map_cons, List.nodup_cons] at hnd
    obtain ⟨hq1, hq2⟩ := hgood k q (List.mem_cons_self _ _)
    have ih1 := ih hnd.2 (fun k1 q1 h1 => hgood k1 q1 (List.mem_cons_of_mem _ h1))
    cases q with
    | nil => exact absurd rfl hq1
    | cons tx0 tail =>
      obtain ⟨hs, hw⟩ := hq2 tx0 (List.mem_cons_self _ _)
      obtain ⟨w, hw1, hw2⟩ := seedHead_good signer baseFee k tx0 tail hs hw
      rw [List.filterMap_cons, hw1, txsOf_cons, ih1, txsOf_singleton_some _ _ _ _ hw2, hs]
      simp only [mapGet]
      by_cases hka : k = a
      · subst hka
        rw [if_pos rfl, if_pos rfl, mapGet_eq_none_of_not_mem txs k hnd.1]
        rfl
      · rw [if_neg hka, if_neg hka]
        rfl

theorem New_DriveInv (signer : Signer) (txs : TxMap) (bundles : List SimulatedBundle)
    (sbundles : List SimSBundle) (baseFee : Option Int) (t : TransactionsByPriceAndNonce)
    (hnd : (txs.map Prod.fst).Nodup)
    (hsig : ∀ a q, (a, q) ∈ txs → ∀ tx ∈ q, (Sender signer tx).1 = a)
    (hwrap : ∀ a q, (a, q) ∈ txs → ∀ tx ∈ q, ∃ w, NewTxWithMinerFee tx baseFee = Except.ok w)
    (h0 : NewTransactionsByPriceAndNonce signer txs bundles sbundles baseFee = some t) :
    DriveInv t ∧ t.signer = signer ∧
      ∀ a, txsOf signer a t.heads ++ (mapGet t.txs a).getD [] = (mapGet txs a).getD [] := by
  obtain ⟨m, heads, hseed, rfl⟩ := New_heads signer txs bundles sbundles baseFee t h0
  have hne := seedLoop_nonempty signer baseFee txs _ _ hseed
  obtain ⟨r1, r2, r3⟩ := seedLoop_spec signer baseFee txs txs _ m heads hnd hseed
  have hgood : ∀ k q, (k, q) ∈ txs → q ≠ [] ∧ ∀ tx ∈ q, (Sender signer tx).1 = k ∧
      ∃ w, NewTxWithMinerFee tx baseFee = Except.ok w :=
    fun k q hkq => ⟨hne (k, q) hkq, fun tx htx => ⟨hsig k q hkq tx htx, hwrap k q hkq tx htx⟩⟩
  have hheads : ∀ a, txsOf signer a (heap.Init heads) = ((mapGet txs a).getD []).take 1 := by
    intro a
    have hp := txsOf_perm signer a _ _ (Init_spec heads).2
    have he : txsOf signer a heads = ((mapGet txs a).getD []).take 1 := by
      rw [r1, wrapBundles_eq, wrapSBundles_eq, List.nil_append, txsOf_append, txsOf_append,
        txsOf_seedHeads signer baseFee a txs hnd hgood]
      rw [txsOf_nil_of_no_tx signer a (sbundles.map wrapSBundle), txsOf_nil_of_no_tx signer a
        (bundles.map wrapBundle)]
      · rfl
      · intro w hw
        obtain ⟨b, _, rfl⟩ := List.mem_map.mp hw
        rfl
      · intro w hw
        obtain ⟨b, _, rfl⟩ := List.mem_map.mp hw
        rfl
    rw [he] at hp
    exact perm_eq_of_length_le_one _ _ hp (by
      rw [List.length_take]
      omega)
  have hqueue : ∀ a q, mapGet txs a = some q → mapGet m a = some q.tail := by
    intro a q hq
    have hmem := mapGet_some_mem txs a q hq
    rw [r2 a q hmem]
    obtain ⟨hq1, hq2⟩ := hgood a q hmem
    cases q with
    | nil => exact absurd rfl hq1
    | cons tx0 tail =>
      obtain ⟨hs, hw⟩ := hq2 tx0 (List.mem_cons_self _ _)
      obtain ⟨w, hw1, _⟩ := seedHead_good signer baseFee a tx0 tail hs hw
      rw [hw1]
      rfl
  have hqnone : ∀ a, mapGet txs a = none → mapGet m a = none := by
    intro a ha
    rw [r3 a (mapGet_none_not_mem txs a ha)]
    exact ha
  refine ⟨⟨(Init_spec heads).1, ?_, ?_, ?_⟩, rfl, ?_⟩
  · intro a
    dsimp only
    rw [hheads a, List.length_take]
    omega
  · intro a h
    dsimp only at h ⊢
    rw [hheads a] at h
    cases hm : mapGet txs a with
    | none => rw [hqnone a hm]; rfl
    | some q =>
      rw [hm] at h
      have hq1 := (hgood a q (mapGet_some_mem txs a q hm)).1
      cases q with
      | nil => exact absurd rfl hq1
      | cons tx0 tail => simp at h
  · intro a q1 hq1 x hx
    dsimp only at hq1 ⊢
    cases hm : mapGet txs a with
    | none =>
      rw [hqnone a hm] at hq1
      exact absurd hq1 (by simp)
    | some q =>
      rw [hqueue a q hm] at hq1
      simp only [Option.some.injEq] at hq1
      subst hq1
      exact (hgood a q (mapGet_some_mem txs a q hm)).2 x (List.mem_of_mem_tail hx)
  · intro a
    dsimp only
    rw [hheads a]
    cases hm : mapGet txs a with
    | none => rw [hqnone a hm]; rfl
    | some q =>
      rw [hqueue a q hm]
      cases q with
      | nil => rfl
      | cons tx0 tail => rfl

/-- C2: let a book be constructed from sender queues with pairwise distinct
keys in which the signer recovers every transaction of the queue stored under
key `a` as `a` and every transaction wraps at the base fee. When the book is
driven by taking `Peek` and then calling `Shift` for a number of rounds that is
at least `bookSize`, the book is exhausted (one more round yields nothing
more), and for every account `a` the transactions of `a` among the entries that
`Peek` returned, in the order they were returned, are exactly the input queue
of `a` in its input order, and none when `a` has no input queue. -/
theorem Shift_yields_sender_queues (signer : Signer) (txs : TxMap)
    (bundles : List SimulatedBundle) (sbundles : List SimSBundle) (baseFee : Option Int)
    (t : TransactionsByPriceAndNonce)
    (hnd : (txs.map Prod.fst).Nodup)
    (hsig : ∀ a q, (a, q) ∈ txs → ∀ tx ∈ q, (Sender signer tx).1 = a)
    (hwrap : ∀ a q, (a, q) ∈ txs → ∀ tx ∈ q, ∃ w, NewTxWithMinerFee tx baseFee = Except.ok w)
    (h0 : NewTransactionsByPriceAndNonce signer txs bundles sbundles baseFee = some t)
    (fuel : Nat) (hf : bookSize t ≤ fuel) (a : Address) :
    txsOf signer a (driveByShift fuel t) = (mapGet txs a).getD [] ∧
      driveByShift (fuel + 1) t = driveByShift fuel t := by
  obtain ⟨hinv, hsg, hq⟩ := New_DriveInv signer txs bundles sbundles baseFee t hnd hsig hwrap h0
  have := driveByShift_spec fuel t hinv hf a
  rw [hsg] at this
  rw [this, hq a]
  exact ⟨rfl, driveByShift_fuel fuel t hinv hf⟩

theorem Shift_yields_sender_queues_witness :
    txsOf exampleSigner 1 (driveByShift 6 exampleBookTwo) = exampleQueue1 ∧
      driveByShift (6 + 1) exampleBookTwo = driveByShift 6 exampleBookTwo :=
  Shift_yields_sender_queues exampleSigner [(1, exampleQueue1), (2, exampleQueue2)]
    [exampleBundle] [] (some 0) exampleBookTwo (by decide)
    (by
      intro a q h tx htx
      simp only [List.mem_cons, Prod.mk.injEq, List.mem_singleton, List.not_mem_nil, or_false] at h
      rcases h with ⟨rfl, rfl⟩ | ⟨rfl, rfl⟩
      · simp only [exampleQueue1, List.mem_cons, List.mem_singleton, List.not_mem_nil,
          or_false] at htx
        rcases htx with rfl | rfl | rfl <;> rfl
      · simp only [exampleQueue2, List.mem_cons, List.mem_singleton, List.not_mem_nil,
          or_false] at htx
        rcases htx with rfl | rfl <;> rfl)
    (by
      intro a q h tx htx
      simp only [List.mem_cons, Prod.mk.injEq, List.mem_singleton, List.not_mem_nil, or_false] at h
      rcases h with ⟨rfl, rfl⟩ | ⟨rfl, rfl⟩
      · simp only [exampleQueue1, List.mem_cons, List.mem_singleton, List.not_mem_nil,
          or_false] at htx
        rcases htx with rfl | rfl | rfl <;> exact ⟨_, rfl⟩
      · simp only [exampleQueue2, List.mem_cons, List.mem_singleton, List.not_mem_nil,
          or_false] at htx
        rcases htx with rfl | rfl <;> exact ⟨_, rfl⟩)
    rfl 6 (by decide) 1

/-! ## The binary heap: the entries are kept, whatever their order -/

theorem downLoop_perm (n : Nat) :
    ∀ (fuel : Nat) (h : TxByPriceAndTime) (i : Nat), (heap.downLoop fuel h i n).1.Perm h := by
  intro fuel
  induction fuel with
  | zero =>
    intro h i
    exact List.Perm.refl _
  | succ fuel ih =>
    intro h i
    rw [downLoop_succ fuel h i n]
    by_cases hj1 : 2 * i + 1 ≥ n
    · rw [if_pos hj1]
    · rw [if_neg hj1]
      generalize (if (decide (2 * i + 1 + 1 < n) &&
        TxByPriceAndTime.Less h (2 * i + 1 + 1) (2 * i + 1)) = true
        then 2 * i + 1 + 1 else 2 * i + 1) = j
      split
      · exact List.Perm.refl _
      · exact (ih _ _).trans (Swap_perm h i j)

theorem downLoop_tail (n : Nat) :
    ∀ (fuel : Nat) (h : TxByPriceAndTime) (i : Nat), n ≤ h.length →
      ∀ k, n ≤ k → (heap.downLoop fuel h i n).1[k]? = h[k]? := by
  intro fuel
  induction fuel with
  | zero =>
    intro h i _ k _
    rfl
  | succ fuel ih =>
    intro h i hn k hk
    rw [downLoop_succ fuel h i n]
    by_cases hj1 : 2 * i + 1 ≥ n
    · rw [if_pos hj1]
    · rw [if_neg hj1]
      obtain ⟨j, hjdef, hjn, _, hij, _⟩ := larger_child h n i hn hj1
      rw [← hjdef]
      split
      · rfl
      · rw [ih _ j (by rw [Swap_length]; exact hn) k hk,
          getElem?_Swap h i j k (by omega) (by omega)]
        have h1 : ¬ k = j := by omega
        have h2 : ¬ k = i := by omega
        rw [if_neg h1, if_neg h2]

theorem upLoop_perm :
    ∀ (fuel : Nat) (h : TxByPriceAndTime) (j : Nat), (heap.upLoop fuel h j).Perm h := by
  intro fuel
  induction fuel with
  | zero =>
    intro h j
    exact List.Perm.refl _
  | succ fuel ih =>
    intro h j
    rw [upLoop_succ fuel h j]
    split
    · exact List.Perm.refl _
    · exact (ih _ _).trans (Swap_perm h _ j)

theorem down_perm (h : TxByPriceAndTime) (i n : Nat) : (heap.down h i n).1.Perm h :=
  downLoop_perm n n h i

theorem Push_perm (h : TxByPriceAndTime) (x : TxWithMinerFee) :
    (heap.Push h x).Perm (x :: h) := by
  simp only [heap.Push, TxByPriceAndTime.Push, heap.up]
  exact (upLoop_perm _ _ _).trans (List.perm_append_singleton x h)

theorem Fix_perm (h : TxByPriceAndTime) (i : Nat) : (heap.Fix h i).Perm h := by
  simp only [heap.Fix, heap.up]
  split
  · exact (upLoop_perm _ _ _).trans (down_perm h i _)
  · exact down_perm h i _

theorem Pop_perm (h : TxByPriceAndTime) (top : TxWithMinerFee) (rest0 : TxByPriceAndTime)
    (hne : h = top :: rest0) :
    ∃ rest, heap.Pop h = some (top, rest) ∧ rest.Perm rest0 := by
  have hlen : h.length = rest0.length + 1 := by simp [hne]
  have h0 : h[0]? = some top := by simp [hne]
  have hsl := Swap_length h 0 (h.length - 1)
  have d2 := down_perm (TxByPriceAndTime.Swap h 0 (h.length - 1)) 0 (h.length - 1)
  have d3 := downLoop_tail (h.length - 1) (h.length - 1)
    (TxByPriceAndTime.Swap h 0 (h.length - 1)) 0 (by omega)
  have hd2len := d2.length_eq
  have hlast : (heap.down (TxByPriceAndTime.Swap h 0 (h.length - 1)) 0 (h.length - 1)).1.getLast?
      = some top := by
    rw [List.getLast?_eq_getElem?, hd2len, hsl]
    simp only [heap.down]
    rw [d3 _ (le_refl _), getElem?_Swap h 0 _ _ (by omega) (by omega), if_pos rfl, h0]
  refine ⟨(heap.down (TxByPriceAndTime.Swap h 0 (h.length - 1)) 0 (h.length - 1)).1.dropLast,
    ?_, ?_⟩
  · simp only [heap.Pop, TxByPriceAndTime.Len, TxByPriceAndTime.Pop]
    rw [if_neg (by omega)]
    simp only [hlast]
  · have hpl := List.dropLast_append_getLast? top (by rw [hlast]; exact rfl)
    have hp1 : (top :: (heap.down (TxByPriceAndTime.Swap h 0 (h.length - 1)) 0
        (h.length - 1)).1.dropLast).Perm
        (heap.down (TxByPriceAndTime.Swap h 0 (h.length - 1)) 0 (h.length - 1)).1 := by
      have := (List.perm_append_singleton top
        (heap.down (TxByPriceAndTime.Swap h 0 (h.length - 1)) 0 (h.length - 1)).1.dropLast)
      rw [hpl] at this
      exact this.symm
    have hp2 := hp1.trans (d2.trans (Swap_perm h 0 _))
    have hp3 : h.Perm (top :: rest0) := by rw [hne]
    exact List.Perm.cons_inv (hp2.trans hp3)

/-! ## Order book: the effect of `Pop`, `Shift` and `ShiftAndPushByAccountForTx` -/

theorem Peek_cons (t : TransactionsByPriceAndNonce) (top : TxWithMinerFee)
    (hp : t.Peek = some top) : ∃ rest0, t.heads = top :: rest0 := by
  unfold TransactionsByPriceAndNonce.Peek at hp
  split at hp
  · exact absurd hp (by simp)
  · next w rest hw =>
    simp only [Option.some.injEq] at hp
    subst hp
    exact ⟨rest, hw⟩

theorem book_Pop_perm (t : TransactionsByPriceAndNonce) (top : TxWithMinerFee)
    (rest0 : TxByPriceAndTime) (hne : t.heads = top :: rest0) :
    ∃ rest, t.Pop = some ⟨t.txs, rest, t.signer, t.baseFee⟩ ∧ rest.Perm rest0 := by
  obtain ⟨rest, h1, h2⟩ := Pop_perm t.heads top rest0 hne
  exact ⟨rest, by simp only [TransactionsByPriceAndNonce.Pop, h1], h2⟩

/-- C13: `Pop` on a book whose `Peek` is the entry `top` returns a book whose
heads, together with `top`, are the previous heads as a multiset, and whose
sender queues, signer and base fee are the previous ones. -/
theorem Pop_removes_top (t : TransactionsByPriceAndNonce) (top : TxWithMinerFee)
    (hp : t.Peek = some top) :
    ∃ t1, t.Pop = some t1 ∧ (top :: t1.heads).Perm t.heads ∧
      t1.txs = t.txs ∧ t1.signer = t.signer ∧ t1.baseFee = t.baseFee := by
  obtain ⟨rest0, hne⟩ := Peek_cons t top hp
  obtain ⟨rest, h1, h2⟩ := book_Pop_perm t top rest0 hne
  refine ⟨_, h1, ?_, rfl, rfl, rfl⟩
  rw [hne]
  exact List.Perm.cons top h2

theorem Pop_removes_top_witness :
    ∃ t1, exampleBook.Pop = some t1 ∧
      ((⟨_Order._TxOrder (some ⟨0, 10, 10, 10, 21000, 0⟩), 10⟩ : TxWithMinerFee) ::
        t1.heads).Perm exampleBook.heads ∧
      t1.txs = exampleBook.txs ∧ t1.signer = exampleBook.signer ∧
      t1.baseFee = exampleBook.baseFee :=
  Pop_removes_top exampleBook ⟨_Order._TxOrder (some ⟨0, 10, 10, 10, 21000, 0⟩), 10⟩ rfl

theorem shiftNext_of (t : TransactionsByPriceAndNonce) (top wrapped : TxWithMinerFee)
    (tx tx0 : Transaction) (tail : Transactions) (h1 : top.Tx = some tx)
    (h2 : mapGet t.txs (Sender t.signer tx).1 = some (tx0 :: tail))
    (h3 : NewTxWithMinerFee tx0 t.baseFee = Except.ok wrapped) :
    t.shiftNext top = some ((Sender t.signer tx).1, wrapped, tail) := by
  simp only [TransactionsByPriceAndNonce.shiftNext, h1, h2, h3]

theorem Shift_eq_replace (t : TransactionsByPriceAndNonce) (top : TxWithMinerFee)
    (rest0 : TxByPriceAndTime) (hne : t.heads = top :: rest0)
    (acc : Address) (wrapped : TxWithMinerFee) (tail : Transactions)
    (hs : t.shiftNext top = some (acc, wrapped, tail)) :
    t.Shift =
      some ⟨mapSet t.txs acc tail, heap.Fix (wrapped :: rest0) 0, t.signer, t.baseFee⟩ := by
  unfold TransactionsByPriceAndNonce.Shift
  split
  · next hnil => rw [hne] at hnil; exact absurd hnil (by simp)
  · next top1 rest1 hcons =>
    rw [hne] at hcons
    simp only [List.cons.injEq] at hcons
    obtain ⟨rfl, _⟩ := hcons
    rw [hs, hne]
    rfl

theorem Shift_eq_pop (t : TransactionsByPriceAndNonce) (top : TxWithMinerFee)
    (rest0 : TxByPriceAndTime) (hne : t.heads = top :: rest0)
    (hs : t.shiftNext top = none) : t.Shift = t.Pop := by
  unfold TransactionsByPriceAndNonce.Shift
  split
  · next hnil => rw [hne] at hnil; exact absurd hnil (by simp)
  · next top1 rest1 hcons =>
    rw [hne] at hcons
    simp only [List.cons.injEq] at hcons
    obtain ⟨rfl, _⟩ := hcons
    rw [hs]

/-- C12: `Shift` on a book whose heads are `top :: rest0`. If `top` holds a
transaction, the queue of its sender is `tx0 :: tail` and `tx0` wraps at the
base fee of the book into `wrapped`, then the heads become `wrapped` together
with `rest0` as a multiset, their number is unchanged, the queue of that sender
becomes `tail` and every other queue is unchanged. In every other case the
heads become `rest0` as a multiset, their number decreases by one and the
sender queues are unchanged. -/
theorem Shift_effect (t : TransactionsByPriceAndNonce) (top : TxWithMinerFee)
    (rest0 : TxByPriceAndTime) (hne : t.heads = top :: rest0) :
    (∀ tx tx0 tail wrapped, top.Tx = some tx →
        mapGet t.txs (Sender t.signer tx).1 = some (tx0 :: tail) →
        NewTxWithMinerFee tx0 t.baseFee = Except.ok wrapped →
        ∃ t1, t.Shift = some t1 ∧ t1.heads.Perm (wrapped :: rest0) ∧
          t1.heads.length = t.heads.length ∧
          mapGet t1.txs (Sender t.signer tx).1 = some tail ∧
          (∀ a, a ≠ (Sender t.signer tx).1 → mapGet t1.txs a = mapGet t.txs a)) ∧
    ((¬ ∃ tx tx0 tail wrapped, top.Tx = some tx ∧
        mapGet t.txs (Sender t.signer tx).1 = some (tx0 :: tail) ∧
        NewTxWithMinerFee tx0 t.baseFee = Except.ok wrapped) →
        ∃ t1, t.Shift = some t1 ∧ t1.heads.Perm rest0 ∧
          t1.heads.length + 1 = t.heads.length ∧ t1.txs = t.txs) := by
  constructor
  · intro tx tx0 tail wrapped h1 h2 h3
    have hs := shiftNext_of t top wrapped tx tx0 tail h1 h2 h3
    have hp := Fix_perm (wrapped :: rest0) 0
    refine ⟨_, Shift_eq_replace t top rest0 hne _ wrapped tail hs, hp, ?_, ?_, ?_⟩
    · have := hp.length_eq
      simp only [List.length_cons] at this
      rw [hne]
      simpa using this
    · simp only [mapGet_mapSet, if_pos]
    · intro a ha
      simp only [mapGet_mapSet, if_neg ha]
  · intro hno
    have hs : t.shiftNext top = none := by
      cases h : t.shiftNext top with
      | none => rfl
      | some r =>
        obtain ⟨acc, wrapped, tail⟩ := r
        obtain ⟨tx, tx0, e1, e2, e3, e4⟩ := shiftNext_some t top wrapped acc tail h
        subst e2
        exact absurd ⟨tx, tx0, tail, wrapped, e1, e3, e4⟩ hno
    obtain ⟨rest, h1, h2⟩ := book_Pop_perm t top rest0 hne
    refine ⟨_, (Shift_eq_pop t top rest0 hne hs).trans h1, h2, ?_, rfl⟩
    have := h2.length_eq
    rw [hne]
    simpa using this

theorem Shift_effect_witness :
    (∀ tx tx0 tail wrapped,
        (⟨_Order._TxOrder (some ⟨0, 10, 10, 10, 21000, 0⟩), 10⟩ : TxWithMinerFee).Tx = some tx →
        mapGet exampleBook.txs (Sender exampleBook.signer tx).1 = some (tx0 :: tail) →
        NewTxWithMinerFee tx0 exampleBook.baseFee = Except.ok wrapped →
        ∃ t1, exampleBook.Shift = some t1 ∧
          t1.heads.Perm (wrapped :: [⟨_Order._BundleOrder (some exampleBundle), 5⟩]) ∧
          t1.heads.length = exampleBook.heads.length ∧
          mapGet t1.txs (Sender exampleBook.signer tx).1 = some tail ∧
          (∀ a, a ≠ (Sender exampleBook.signer tx).1 →
            mapGet t1.txs a = mapGet exampleBook.txs a)) ∧
    ((¬ ∃ tx tx0 tail wrapped,
        (⟨_Order._TxOrder (some ⟨0, 10, 10, 10, 21000, 0⟩), 10⟩ : TxWithMinerFee).Tx = some tx ∧
        mapGet exampleBook.txs (Sender exampleBook.signer tx).1 = some (tx0 :: tail) ∧
        NewTxWithMinerFee tx0 exampleBook.baseFee = Except.ok wrapped) →
        ∃ t1, exampleBook.Shift = some t1 ∧
          t1.heads.Perm [⟨_Order._BundleOrder (some exampleBundle), 5⟩] ∧
          t1.heads.length + 1 = exampleBook.heads.length ∧ t1.txs = exampleBook.txs) :=
  Shift_effect exampleBook ⟨_Order._TxOrder (some ⟨0, 10, 10, 10, 21000, 0⟩), 10⟩
    [⟨_Order._BundleOrder (some exampleBundle), 5⟩] rfl

/-- C16: `ShiftAndPushByAccountForTx(tx)`. If `tx` is not nil, the queue of the
sender recovered from it is `tx0 :: tail` and `tx0` wraps at the base fee of the
book into `wrapped`, then the heads become `wrapped` together with the previous
heads as a multiset, the queue of that sender becomes `tail` and every other
queue is unchanged. In every other case the book is unchanged. -/
theorem ShiftAndPush_effect (t : TransactionsByPriceAndNonce) (tx : Option Transaction) :
    (∀ x tx0 tail wrapped, tx = some x →
        mapGet t.txs (Sender t.signer x).1 = some (tx0 :: tail) →
        NewTxWithMinerFee tx0 t.baseFee = Except.ok wrapped →
        (t.ShiftAndPushByAccountForTx tx).heads.Perm (wrapped :: t.heads) ∧
          mapGet (t.ShiftAndPushByAccountForTx tx).txs (Sender t.signer x).1 = some tail ∧
          (∀ a, a ≠ (Sender t.signer x).1 →
            mapGet (t.ShiftAndPushByAccountForTx tx).txs a = mapGet t.txs a)) ∧
    ((¬ ∃ x tx0 tail wrapped, tx = some x ∧
        mapGet t.txs (Sender t.signer x).1 = some (tx0 :: tail) ∧
        NewTxWithMinerFee tx0 t.baseFee = Except.ok wrapped) →
        t.ShiftAndPushByAccountForTx tx = t) := by
  constructor
  · intro x tx0 tail wrapped h1 h2 h3
    subst h1
    simp only [TransactionsByPriceAndNonce.ShiftAndPushByAccountForTx, h2, h3]
    refine ⟨Push_perm t.heads wrapped, ?_, ?_⟩
    · simp only [mapGet_mapSet, if_pos]
    · intro a ha
      simp only [mapGet_mapSet, if_neg ha]
  · intro hno
    cases tx with
    | none => rfl
    | some x =>
      simp only [TransactionsByPriceAndNonce.ShiftAndPushByAccountForTx]
      split
      · next tx0 tail hq =>
        split
        · next wrapped hw => exact absurd ⟨x, tx0, tail, wrapped, rfl, hq, hw⟩ hno
        · rfl
      · rfl

theorem ShiftAndPush_effect_witness :
    (exampleBook.ShiftAndPushByAccountForTx (some exampleTx)).heads.Perm
        (⟨_Order._TxOrder (some ⟨1, 20, 20, 20, 21000, 1⟩), 20⟩ :: exampleBook.heads) ∧
      mapGet (exampleBook.ShiftAndPushByAccountForTx (some exampleTx)).txs
        (Sender exampleBook.signer exampleTx).1 = some [⟨2, 3, 3, 3, 21000, 2⟩] ∧
      (∀ a, a ≠ (Sender exampleBook.signer exampleTx).1 →
        mapGet (exampleBook.ShiftAndPushByAccountForTx (some exampleTx)).txs a =
          mapGet exampleBook.txs a) :=
  (ShiftAndPush_effect exampleBook (some exampleTx)).1 exampleTx ⟨1, 20, 20, 20, 21000, 1⟩
    [⟨2, 3, 3, 3, 21000, 2⟩] ⟨_Order._TxOrder (some ⟨1, 20, 20, 20, 21000, 1⟩), 20⟩ rfl rfl rfl

/-! ## Order book: every run of `Shift` and `Pop` ends -/

theorem Pop_size (t : TransactionsByPriceAndNonce) (top : TxWithMinerFee)
    (rest0 : TxByPriceAndTime) (hne : t.heads = top :: rest0) :
    ∃ t1, t.Pop = some t1 ∧ bookSize t1 + 1 = bookSize t := by
  obtain ⟨rest, h1, h2⟩ := book_Pop_perm t top rest0 hne
  refine ⟨_, h1, ?_⟩
  have := h2.length_eq
  simp only [bookSize, hne, List.length_cons]
  omega

theorem Shift_size (t : TransactionsByPriceAndNonce) (top : TxWithMinerFee)
    (rest0 : TxByPriceAndTime) (hne : t.heads = top :: rest0) :
    ∃ t1, t.Shift = some t1 ∧ bookSize t1 + 1 = bookSize t := by
  cases hs : t.shiftNext top with
  | none =>
    rw [Shift_eq_pop t top rest0 hne hs]
    exact Pop_size t top rest0 hne
  | some r =>
    obtain ⟨acc, wrapped, tail⟩ := r
    obtain ⟨tx, tx0, _, _, hmq, _⟩ := shiftNext_some t top wrapped acc tail hs
    refine ⟨_, Shift_eq_replace t top rest0 hne acc wrapped tail hs, ?_⟩
    have h1 := (Fix_perm (wrapped :: rest0) 0).length_eq
    have h2 := queueLengths_mapSet t.txs acc tx0 tail hmq
    simp only [bookSize, hne, List.length_cons] at h1 ⊢
    omega

theorem runShiftPop_ends :
    ∀ (cs : List Bool) (t : TransactionsByPriceAndNonce), bookSize t ≤ cs.length →
      ∃ r k, runShiftPop cs t = some (r, k) ∧ r.Peek = none ∧ k ≤ bookSize t := by
  intro cs
  induction cs with
  | nil =>
    intro t hl
    have hnil : t.heads = [] := by
      apply List.length_eq_zero.mp
      simp only [bookSize, List.length_nil] at hl
      omega
    exact ⟨t, 0, rfl, by simp [TransactionsByPriceAndNonce.Peek, hnil], Nat.zero_le _⟩
  | cons c cs ih =>
    intro t hl
    cases hne : t.heads with
    | nil =>
      have hp : t.Peek = none := by simp [TransactionsByPriceAndNonce.Peek, hne]
      exact ⟨t, 0, by simp only [runShiftPop, hp], hp, Nat.zero_le _⟩
    | cons top rest0 =>
      have hp : t.Peek = some top := by simp [TransactionsByPriceAndNonce.Peek, hne]
      have hstep : ∃ t1, (if c = true then t.Shift else t.Pop) = some t1 ∧
          bookSize t1 + 1 = bookSize t := by
        cases c with
        | true => simpa using Shift_size t top rest0 hne
        | false => simpa using Pop_size t top rest0 hne
      obtain ⟨t1, h1, h2⟩ := hstep
      simp only [List.length_cons] at hl
      obtain ⟨r, k, r1, r2, r3⟩ := ih t1 (by omega)
      refine ⟨r, k + 1, ?_, r2, by omega⟩
      simp only [runShiftPop, hp, h1, r1]

/-- C18: let `bookSize` be the number of head entries plus the total length of
the sender queues. On a book with at least one head, `Shift` and `Pop` each
return a book whose `bookSize` is smaller by exactly one; so every run that only
calls `Shift` or `Pop` while `Peek` is not nil, given at least `bookSize`
choices, ends at a book whose `Peek` is nil after at most `bookSize` calls. -/
theorem book_exhaustible (t : TransactionsByPriceAndNonce) (cs : List Bool)
    (hl : bookSize t ≤ cs.length) :
    (t.heads ≠ [] →
      (∃ t1, t.Shift = some t1 ∧ bookSize t1 + 1 = bookSize t) ∧
      (∃ t1, t.Pop = some t1 ∧ bookSize t1 + 1 = bookSize t)) ∧
    ∃ r k, runShiftPop cs t = some (r, k) ∧ r.Peek = none ∧ k ≤ bookSize t := by
  refine ⟨?_, runShiftPop_ends cs t hl⟩
  intro hne
  cases h : t.heads with
  | nil => exact absurd h hne
  | cons top rest0 => exact ⟨Shift_size t top rest0 h, Pop_size t top rest0 h⟩

theorem book_exhaustible_witness :
    (exampleBookTwo.heads ≠ [] →
      (∃ t1, exampleBookTwo.Shift = some t1 ∧ bookSize t1 + 1 = bookSize exampleBookTwo) ∧
      (∃ t1, exampleBookTwo.Pop = some t1 ∧ bookSize t1 + 1 = bookSize exampleBookTwo)) ∧
    ∃ r k, runShiftPop [true, false, true, true, false, true] exampleBookTwo = some (r, k) ∧
      r.Peek = none ∧ k ≤ bookSize exampleBookTwo :=
  book_exhaustible exampleBookTwo [true, false, true, true, false, true] (by decide)

/-! ## Order book: aborts of the constructor and of `DeepCopy` -/

/-- C11, evaluated on a sender mapping in which the key `2` is mapped to the
empty transaction sequence: reading `accTxs[0]` aborts and the constructor
returns no book. -/
theorem New_aborts_on_empty_queue :
    NewTransactionsByPriceAndNonce exampleSigner [(1, exampleQueue1), (2, [])]
      [exampleBundle] [] (some 0) = none :=
  rfl

theorem foldl_mapSet_eq (m : TxMap) :
    ∀ (acc : TxMap), ((acc ++ m).map Prod.fst).Nodup →
      m.foldl (fun m e => mapSet m e.1 e.2) acc = acc ++ m := by
  induction m with
  | nil =>
    intro acc _
    simp
  | cons e m ih =>
    intro acc hnd
    have hset : ∀ (acc : TxMap), e.1 ∉ acc.map Prod.fst → mapSet acc e.1 e.2 = acc ++ [e] := by
      intro acc
      induction acc with
      | nil =>
        intro _
        rfl
      | cons x acc ih2 =>
        intro hx
        obtain ⟨k, w⟩ := x
        simp only [List.map_cons, List.mem_cons, not_or] at hx
        have hk : ¬ k = e.1 := fun h => hx.1 h.symm
        simp only [mapSet, if_neg hk, ih2 hx.2, List.cons_append]
    have hnot : e.1 ∉ acc.map Prod.fst := by
      intro hmem
      rw [List.map_append, List.map_cons] at hnd
      have := (List.nodup_append.mp hnd).2.2
      exact this hmem (List.mem_cons_self _ _)
    rw [List.foldl_cons, hset acc hnot, ih (acc ++ [e])]
    · simp
    · simpa using hnd

theorem DeepCopy_of_baseFee (t : TransactionsByPriceAndNonce) (b : Int)
    (hb : t.baseFee = some b) (hnd : (t.txs.map Prod.fst).Nodup) :
    t.DeepCopy = some ⟨t.txs, t.heads, t.signer, some b⟩ := by
  simp only [TransactionsByPriceAndNonce.DeepCopy, hb, List.nil_append]
  rw [foldl_mapSet_eq t.txs [] (by simpa using hnd)]
  rfl

/-- C15, evaluated on the book that the constructor returns for the queue of
account `1` and no base fee: the constructor returns a book, and `DeepCopy` of
this book aborts, since it reads the value behind the nil base fee. -/
theorem DeepCopy_aborts_without_baseFee :
    ∃ t, NewTransactionsByPriceAndNonce exampleSigner [(1, exampleQueue1)] [] [] none = some t ∧
      t.baseFee = none ∧ t.DeepCopy = none :=
  ⟨⟨[(1, [⟨1, 20, 20, 20, 21000, 1⟩, ⟨2, 3, 3, 3, 21000, 2⟩])],
      [⟨_Order._TxOrder (some ⟨0, 10, 10, 10, 21000, 0⟩), 10⟩], exampleSigner, none⟩,
    rfl, rfl, rfl⟩

/-! ## Order book: `Peek` -/

/-- C17: `Peek` is a function of the book alone and returns no new state. It
returns nil exactly when the book has no head entries, and otherwise the entry
at position `0` of the heads. In the scenario (base fee `100`, one transaction
of tip cap `10` and fee cap `150`, one bundle of lower price) `Peek` returns
the transaction with price `10`, after one `Pop` it returns the bundle, and
after a second `Pop` it returns nil. -/
theorem Peek_spec :
    (∀ t : TransactionsByPriceAndNonce, t.Peek = none ↔ t.heads = []) ∧
    (∀ t : TransactionsByPriceAndNonce, t.Peek = t.heads[0]?) ∧
    (∃ b0 b1 b2,
      NewTransactionsByPriceAndNonce exampleSigner [(1, [scenarioTx])] [scenarioBundle] []
        (some 100) = some b0 ∧
      b0.Peek = some ⟨_Order._TxOrder (some scenarioTx), 10⟩ ∧
      b0.Pop = some b1 ∧
      b1.Peek = some ⟨_Order._BundleOrder (some scenarioBundle), 0⟩ ∧
      b1.Pop = some b2 ∧
      b2.Peek = none) := by
  refine ⟨?_, ?_, ?_⟩
  · intro t
    cases h : t.heads with
    | nil => simp [TransactionsByPriceAndNonce.Peek, h]
    | cons w rest => simp [TransactionsByPriceAndNonce.Peek, h]
  · intro t
    cases h : t.heads with
    | nil => simp [TransactionsByPriceAndNonce.Peek, h]
    | cons w rest => simp [TransactionsByPriceAndNonce.Peek, h]
  · exact ⟨⟨[(1, [])], [⟨_Order._TxOrder (some scenarioTx), 10⟩,
        ⟨_Order._BundleOrder (some scenarioBundle), 0⟩], exampleSigner, some 100⟩,
      ⟨[(1, [])], [⟨_Order._BundleOrder (some scenarioBundle), 0⟩], exampleSigner, some 100⟩,
      ⟨[(1, [])], [], exampleSigner, some 100⟩, rfl, rfl, rfl, rfl, rfl, rfl⟩

/-! ## Order wrapper: `Profit` and `SetProfit` -/

theorem SBundle_kinds (a : TxWithMinerFee) (sb : SimSBundle) (h : a.SBundle = some sb) :
    a.Tx = none ∧ a.Bundle = none := by
  cases a with
  | mk order fee =>
    cases order <;>
      simp_all [TxWithMinerFee.Bundle, TxWithMinerFee.Tx, TxWithMinerFee.SBundle,
        _Order.AsBundle, _Order.AsTx, _Order.AsSBundle]

/-- C19: for a supplied base fee `b`, `Profit(b, gasUsed)` of a wrapper that
holds a transaction is `(gasPrice - b) * gasUsed` when `gasUsed` is not zero and
`(gasPrice - b) * gasLimit` when it is zero, as exact integers; of a wrapper
that holds a bundle it is the `EthSentToCoinbase` of the bundle; of a wrapper
that holds an sbundle it is the `Profit` of the sbundle. -/
theorem Profit_spec (t : TxWithMinerFee) (b : Int) (gasUsed : Nat) :
    (∀ tx, t.Tx = some tx →
      t.Profit (some b) gasUsed =
        some (if gasUsed ≠ 0 then (tx.gasPrice - b) * (gasUsed : Int)
          else (tx.gasPrice - b) * (tx.gas : Int))) ∧
    (∀ bundle, t.Bundle = some bundle →
      t.Profit (some b) gasUsed = some bundle.EthSentToCoinbase) ∧
    (∀ sbundle, t.SBundle = some sbundle →
      t.Profit (some b) gasUsed = some sbundle.Profit) := by
  refine ⟨?_, ?_, ?_⟩
  · intro tx h
    simp only [TxWithMinerFee.Profit, h, Transaction.GasPrice, Transaction.Gas]
    split <;> rfl
  · intro bundle h
    simp only [TxWithMinerFee.Profit, h, Tx_eq_none_of_Bundle t bundle h]
  · intro sbundle h
    obtain ⟨h1, h2⟩ := SBundle_kinds t sbundle h
    simp only [TxWithMinerFee.Profit, h, h1, h2]

theorem Profit_spec_witness :
    (⟨_Order._TxOrder (some scenarioTx), 10⟩ : TxWithMinerFee).Profit (some 100) 0 =
      some (if 0 ≠ 0 then (scenarioTx.gasPrice - 100) * ((0 : Nat) : Int)
        else (scenarioTx.gasPrice - 100) * (scenarioTx.gas : Int)) :=
  (Profit_spec ⟨_Order._TxOrder (some scenarioTx), 10⟩ 100 0).1 scenarioTx rfl

/-- C20, evaluated on the wrapper of a bundle whose coinbase value is `1`:
`Profit` returns `1` before `SetProfit(7)` and still `1` after it, since
`SetProfit` writes `TotalEth` and `Profit` reads `EthSentToCoinbase`; on the
wrapper of an sbundle `Profit` returns `7` after `SetProfit(7)`. -/
theorem SetProfit_bundle_keeps_Profit :
    (wrapBundle profitBundle).Profit (some 0) 0 = some 1 ∧
    ((wrapBundle profitBundle).SetProfit 7).bind (fun w => w.Profit (some 0) 0) = some 1 ∧
    ((wrapSBundle ⟨4, 1⟩).SetProfit 7).bind (fun w => w.Profit (some 0) 0) = some 7 :=
  ⟨rfl, rfl, rfl⟩

/-! ## Order book: `DeepCopy` shares no object with the original -/

theorem load_congr (mem mem1 : Memory) (o : BookRef)
    (h1 : mem1.maps[o.txs]? = mem.maps[o.txs]?)
    (h2 : mem1.slices[o.heads]? = mem.slices[o.heads]?)
    (h3 : ∀ q, o.baseFee = some q → mem1.ints[q]? = mem.ints[q]?) :
    mem1.load o = mem.load o := by
  unfold Memory.load
  rw [h1, h2]
  cases hb : o.baseFee with
  | none => rfl
  | some q =>
    dsimp only
    rw [h3 q hb]

theorem load_valid (mem : Memory) (o : BookRef) (t : TransactionsByPriceAndNonce)
    (h : mem.load o = some t) :
    o.txs < mem.maps.length ∧ o.heads < mem.slices.length ∧
      ∀ q, o.baseFee = some q → q < mem.ints.length := by
  unfold Memory.load at h
  split at h
  · next m hd hm hh =>
    refine ⟨(List.getElem?_eq_some.mp hm).1, (List.getElem?_eq_some.mp hh).1, ?_⟩
    intro q hq
    rw [hq] at h
    dsimp only at h
    split at h
    · next v hv => exact (List.getElem?_eq_some.mp hv).1
    · exact absurd h (by simp)
  · exact absurd h (by simp)

theorem Apart_symm (r o : BookRef) (h : r.Apart o) : o.Apart r :=
  ⟨fun e => h.1 e.symm, fun e => h.2.1 e.symm, fun p q hp hq e => h.2.2 q p hq hp e.symm⟩

theorem getElem?_append_of_lt {α : Type} (l : List α) (x : α) (i : Nat) (h : i < l.length) :
    (l ++ [x])[i]? = l[i]? := by
  rw [List.getElem?_append, if_pos h]

theorem step_frame (mem mem1 : Memory) (r r1 o : BookRef) (t : TransactionsByPriceAndNonce)
    (op : MemOp) (hap : r.Apart o) (ho : mem.load o = some t)
    (hs : mem.step r op = some (mem1, r1)) :
    mem1.load o = some t ∧ r1.Apart o := by
  obtain ⟨a1, a2, a3⟩ := hap
  obtain ⟨_, _, v3⟩ := load_valid mem o t ho
  cases op with
  | call bop =>
    simp only [Memory.step] at hs
    split at hs
    · exact absurd hs (by simp)
    · split at hs
      · exact absurd hs (by simp)
      · next tr _ t1 _ =>
        simp only [Option.some.injEq, Prod.mk.injEq] at hs
        obtain ⟨rfl, rfl⟩ := hs
        refine ⟨?_, a1, a2, a3⟩
        rw [← ho]
        apply load_congr
        · exact List.getElem?_set_ne a1
        · exact List.getElem?_set_ne a2
        · intro _ _
          rfl
  | setBaseFee v =>
    simp only [Memory.step] at hs
    split at hs
    · exact absurd hs (by simp)
    · next p hp =>
      split at hs
      · simp only [Option.some.injEq, Prod.mk.injEq] at hs
        obtain ⟨rfl, rfl⟩ := hs
        refine ⟨?_, a1, a2, a3⟩
        rw [← ho]
        apply load_congr
        · rfl
        · rfl
        · intro q hq
          exact List.getElem?_set_ne (a3 p q hp hq)
      · exact absurd hs (by simp)
  | newBaseFee v =>
    simp only [Memory.step, Option.some.injEq, Prod.mk.injEq] at hs
    obtain ⟨rfl, rfl⟩ := hs
    refine ⟨?_, a1, a2, ?_⟩
    · rw [← ho]
      apply load_congr
      · rfl
      · rfl
      · intro q hq
        exact getElem?_append_of_lt _ _ _ (v3 q hq)
    · intro p q hp hq
      simp only [Option.some.injEq] at hp
      have := v3 q hq
      omega
  | setQueue a q =>
    simp only [Memory.step] at hs
    split at hs
    · exact absurd hs (by simp)
    · simp only [Option.some.injEq, Prod.mk.injEq] at hs
      obtain ⟨rfl, rfl⟩ := hs
      refine ⟨?_, a1, a2, a3⟩
      rw [← ho]
      apply load_congr
      · exact List.getElem?_set_ne a1
      · rfl
      · intro _ _
        rfl
  | deleteQueue a =>
    simp only [Memory.step] at hs
    split at hs
    · exact absurd hs (by simp)
    · simp only [Option.some.injEq, Prod.mk.injEq] at hs
      obtain ⟨rfl, rfl⟩ := hs
      refine ⟨?_, a1, a2, a3⟩
      rw [← ho]
      apply load_congr
      · exact List.getElem?_set_ne a1
      · rfl
      · intro _ _
        rfl

theorem steps_frame (o : BookRef) (t : TransactionsByPriceAndNonce) (ops : List MemOp) :
    ∀ (mem mem1 : Memory) (r r1 : BookRef), r.Apart o → mem.load o = some t →
      Memory.steps mem r ops = some (mem1, r1) → mem1.load o = some t := by
  induction ops with
  | nil =>
    intro mem mem1 r r1 _ ho hs
    simp only [Memory.steps, Option.some.injEq, Prod.mk.injEq] at hs
    obtain ⟨rfl, rfl⟩ := hs
    exact ho
  | cons op ops ih =>
    intro mem mem1 r r1 hap ho hs
    simp only [Memory.steps] at hs
    split at hs
    · exact absurd hs (by simp)
    · next mem2 r2 h2 =>
      obtain ⟨f1, f2⟩ := step_frame mem mem2 r r2 o t op hap ho h2
      exact ih mem2 mem1 r2 r1 f2 f1 hs

theorem DeepCopy_fresh (mem mem1 : Memory) (b c : BookRef) (tb : TransactionsByPriceAndNonce)
    (hb : mem.load b = some tb) (hc : mem.DeepCopy b = some (mem1, c)) :
    mem1.load b = some tb ∧ c.Apart b ∧ mem1.load c = tb.DeepCopy := by
  obtain ⟨v1, v2, v3⟩ := load_valid mem b tb hb
  simp only [Memory.DeepCopy, hb] at hc
  split at hc
  · exact absurd hc (by simp)
  · next tc htc =>
    split at hc
    · exact absurd hc (by simp)
    · next v hv =>
      simp only [Option.some.injEq, Prod.mk.injEq] at hc
      obtain ⟨rfl, rfl⟩ := hc
      refine ⟨?_, ⟨?_, ?_, ?_⟩, ?_⟩
      · rw [← hb]
        apply load_congr
        · exact getElem?_append_of_lt _ _ _ v1
        · exact getElem?_append_of_lt _ _ _ v2
        · intro q hq
          exact getElem?_append_of_lt _ _ _ (v3 q hq)
      · dsimp only
        omega
      · dsimp only
        omega
      · intro p q hp hq
        simp only [Option.some.injEq] at hp
        have := v3 q hq
        omega
      · rw [htc]
        simp only [Memory.load, List.getElem?_concat_length]
        cases tc with
        | mk ctxs cheads csigner cfee =>
          simp only at hv
          subst hv
          rfl

/-- C14: let `c` be the `DeepCopy` of the book `b`, both seen as references
into a memory of map objects, heads storage and base fee integers. Then `b`
denotes the same book after the copy and `c` denotes its copy; `b` still
denotes the same book (the same heads sequence, sender queues and base fee,
hence the same `Peek`) after every finite sequence of `Shift`, `Pop`, `Push`,
`ShiftAndPushByAccountForTx`, base fee replacements and queue assignments or
deletions applied to `c`; and the book that `c` denotes is likewise unchanged
by every such sequence applied to `b`. -/
theorem DeepCopy_isolated (mem mem1 : Memory) (b c : BookRef)
    (tb : TransactionsByPriceAndNonce)
    (hb : mem.load b = some tb) (hc : mem.DeepCopy b = some (mem1, c)) :
    mem1.load b = some tb ∧ mem1.load c = tb.DeepCopy ∧
    (∀ ops mem2 c2, Memory.steps mem1 c ops = some (mem2, c2) →
      mem2.load b = some tb ∧ (mem2.load b).bind (fun t => t.Peek) = tb.Peek) ∧
    (∀ ops mem2 b2 tc, mem1.load c = some tc → Memory.steps mem1 b ops = some (mem2, b2) →
      mem2.load c = some tc ∧ (mem2.load c).bind (fun t => t.Peek) = tc.Peek) := by
  obtain ⟨h1, h2, h3⟩ := DeepCopy_fresh mem mem1 b c tb hb hc
  refine ⟨h1, h3, ?_, ?_⟩
  · intro ops mem2 c2 hs
    have := steps_frame b tb ops mem1 mem2 c c2 h2 h1 hs
    exact ⟨this, by rw [this]; rfl⟩
  · intro ops mem2 b2 tc htc hs
    have := steps_frame c tc ops mem1 mem2 b b2 (Apart_symm c b h2) htc hs
    exact ⟨this, by rw [this]; rfl⟩

theorem DeepCopy_isolated_witness :
    exampleMemoryCopied.load ⟨0, 0, exampleSigner, some 0⟩ = some exampleBook ∧
    exampleMemoryCopied.load ⟨1, 1, exampleSigner, some 1⟩ = exampleBook.DeepCopy ∧
    (∀ ops mem2 c2,
      Memory.steps exampleMemoryCopied ⟨1, 1, exampleSigner, some 1⟩ ops = some (mem2, c2) →
      mem2.load ⟨0, 0, exampleSigner, some 0⟩ = some exampleBook ∧
        (mem2.load ⟨0, 0, exampleSigner, some 0⟩).bind (fun t => t.Peek) = exampleBook.Peek) ∧
    (∀ ops mem2 b2 tc, exampleMemoryCopied.load ⟨1, 1, exampleSigner, some 1⟩ = some tc →
      Memory.steps exampleMemoryCopied ⟨0, 0, exampleSigner, some 0⟩ ops = some (mem2, b2) →
      mem2.load ⟨1, 1, exampleSigner, some 1⟩ = some tc ∧
        (mem2.load ⟨1, 1, exampleSigner, some 1⟩).bind (fun t => t.Peek) = tc.Peek) :=
  DeepCopy_isolated exampleMemory exampleMemoryCopied ⟨0, 0, exampleSigner, some 0⟩
    ⟨1, 1, exampleSigner, some 1⟩ exampleBook rfl rfl

/-! ## Order of the heap: where `Less` is strict -/

/-- C27, at concrete slices: `Less(0, 0)` is true on a bundle entry and on an
sbundle entry, and `Less` is true in both directions for two bundles of equal
price and equal total gas used, for two sbundles of equal price and for an
sbundle and a transaction of equal price. -/
theorem Less_not_strict :
    TxByPriceAndTime.Less [⟨_Order._BundleOrder (some exampleBundle), 5⟩] 0 0 = true ∧
    TxByPriceAndTime.Less [⟨_Order._SBundleOrder (some ⟨5, 0⟩), 5⟩] 0 0 = true ∧
    (TxByPriceAndTime.Less [⟨_Order._BundleOrder (some exampleBundle), 5⟩,
        ⟨_Order._BundleOrder (some exampleBundle), 5⟩] 0 1 = true ∧
      TxByPriceAndTime.Less [⟨_Order._BundleOrder (some exampleBundle), 5⟩,
        ⟨_Order._BundleOrder (some exampleBundle), 5⟩] 1 0 = true) ∧
    (TxByPriceAndTime.Less [⟨_Order._SBundleOrder (some ⟨5, 0⟩), 5⟩,
        ⟨_Order._SBundleOrder (some ⟨5, 1⟩), 5⟩] 0 1 = true ∧
      TxByPriceAndTime.Less [⟨_Order._SBundleOrder (some ⟨5, 0⟩), 5⟩,
        ⟨_Order._SBundleOrder (some ⟨5, 1⟩), 5⟩] 1 0 = true) ∧
    (TxByPriceAndTime.Less [⟨_Order._SBundleOrder (some ⟨5, 0⟩), 5⟩,
        ⟨_Order._TxOrder (some exampleTx), 5⟩] 0 1 = true ∧
      TxByPriceAndTime.Less [⟨_Order._SBundleOrder (some ⟨5, 0⟩), 5⟩,
        ⟨_Order._TxOrder (some exampleTx), 5⟩] 1 0 = true) := by
  decide

theorem less_self_tx (a : TxWithMinerFee) (tx : Transaction) (h : a.Tx = some tx) :
    a.less a = false := by
  simp [TxWithMinerFee.less, h]

theorem less_self_no_tx (a : TxWithMinerFee) (h : a.Tx = none) : a.less a = true := by
  unfold TxWithMinerFee.less
  rw [if_pos rfl, h]
  cases hb : a.Bundle with
  | none => rfl
  | some b => simp

theorem less_no_tx_no_bundle (a b : TxWithMinerFee) (hp : a.minerFee = b.minerFee)
    (ha : a.Tx = none) (hb : a.Bundle = none) : a.less b = true := by
  unfold TxWithMinerFee.less
  rw [if_pos hp, ha, hb]

theorem less_asymm_cases (a b : TxWithMinerFee)
    (h : a.minerFee ≠ b.minerFee ∨ (a.Tx ≠ none ∧ b.Tx ≠ none) ∨
      (∃ ba bb, a.Bundle = some ba ∧ b.Bundle = some bb ∧ ba.TotalGasUsed ≠ bb.TotalGasUsed) ∨
      (a.Bundle ≠ none ∧ b.Bundle = none)) :
    ¬ (a.less b = true ∧ b.less a = true) := by
  rintro ⟨h1, h2⟩
  rcases h with h | ⟨ha, hb⟩ | ⟨ba, bb, ha, hb, hg⟩ | ⟨ha, hb⟩
  · have e1 := less_true_price a b h1
    have e2 := less_true_price b a h2
    exact h (le_antisymm e2 e1)
  · by_cases hp : a.minerFee = b.minerFee
    · obtain ⟨ta, hta⟩ := Option.ne_none_iff_exists'.mp ha
      obtain ⟨tb, htb⟩ := Option.ne_none_iff_exists'.mp hb
      simp only [TxWithMinerFee.less, hp, hta, htb, if_true, decide_eq_true_eq] at h1 h2
      omega
    · have e1 := less_true_price a b h1
      have e2 := less_true_price b a h2
      exact hp (le_antisymm e2 e1)
  · by_cases hp : a.minerFee = b.minerFee
    · have hat := Tx_eq_none_of_Bundle a ba ha
      have hbt := Tx_eq_none_of_Bundle b bb hb
      simp only [TxWithMinerFee.less, hp, ha, hb, hat, hbt, if_true, decide_eq_true_eq] at h1 h2
      omega
    · have e1 := less_true_price a b h1
      have e2 := less_true_price b a h2
      exact hp (le_antisymm e2 e1)
  · by_cases hp : a.minerFee = b.minerFee
    · obtain ⟨ba, hba⟩ := Option.ne_none_iff_exists'.mp ha
      have hat := Tx_eq_none_of_Bundle a ba hba
      simp [TxWithMinerFee.less, hp, hba, hb, hat] at h1
    · have e1 := less_true_price a b h1
      have e2 := less_true_price b a h2
      exact hp (le_antisymm e2 e1)

/-- C27, amended: for entries `a` at position `i` and `b` at position `j` of a
slice, `Less(i, i)` is false when `a` holds a transaction and true when it holds
none; `Less(i, j)` and `Less(j, i)` are not both true when the prices differ,
when both hold transactions, when both hold bundles of different total gas
used, or when `a` holds a bundle and `b` holds none; and `Less` is true in both
directions when the prices are equal and neither entry holds a bundle while at
least one of them holds no transaction (two sbundles, an sbundle and a
transaction), or both hold bundles of equal total gas used. -/
theorem Less_strict_where (s : TxByPriceAndTime) (i j : Nat) (a b : TxWithMinerFee)
    (hi : s[i]? = some a) (hj : s[j]? = some b) :
    (a.Tx ≠ none → TxByPriceAndTime.Less s i i = false) ∧
    (a.Tx = none → TxByPriceAndTime.Less s i i = true) ∧
    ((a.minerFee ≠ b.minerFee ∨ (a.Tx ≠ none ∧ b.Tx ≠ none) ∨
        (∃ ba bb, a.Bundle = some ba ∧ b.Bundle = some bb ∧
          ba.TotalGasUsed ≠ bb.TotalGasUsed) ∨
        (a.Bundle ≠ none ∧ b.Bundle = none)) →
      ¬ (TxByPriceAndTime.Less s i j = true ∧ TxByPriceAndTime.Less s j i = true)) ∧
    (a.minerFee = b.minerFee → a.Bundle = none → b.Bundle = none →
      (a.Tx = none ∨ b.Tx = none) →
      TxByPriceAndTime.Less s i j = true ∧ TxByPriceAndTime.Less s j i = true) ∧
    (∀ ba bb, a.minerFee = b.minerFee → a.Bundle = some ba → b.Bundle = some bb →
      ba.TotalGasUsed = bb.TotalGasUsed →
      TxByPriceAndTime.Less s i j = true ∧ TxByPriceAndTime.Less s j i = true) := by
  rw [Less_eq_less s i j a b hi hj, Less_eq_less s j i b a hj hi, Less_eq_less s i i a a hi hi]
  refine ⟨?_, less_self_no_tx a, less_asymm_cases a b, ?_, ?_⟩
  · intro h
    obtain ⟨tx, htx⟩ := Option.ne_none_iff_exists'.mp h
    exact less_self_tx a tx htx
  · intro hp ha hb hor
    rcases hor with h | h
    · refine ⟨less_no_tx_no_bundle a b hp h ha, ?_⟩
      unfold TxWithMinerFee.less
      rw [if_pos hp.symm, h, hb]
      cases b.Tx <;> rfl
    · refine ⟨?_, less_no_tx_no_bundle b a hp.symm h hb⟩
      unfold TxWithMinerFee.less
      rw [if_pos hp, h, ha]
      cases a.Tx <;> rfl
  · intro ba bb hp ha hb hg
    have hat := Tx_eq_none_of_Bundle a ba ha
    have hbt := Tx_eq_none_of_Bundle b bb hb
    simp only [TxWithMinerFee.less, hp, ha, hb, hat, hbt, if_true, decide_eq_true_eq]
    omega

theorem Less_strict_where_witness :
    ¬ (TxByPriceAndTime.Less
          [⟨_Order._TxOrder (some exampleTx), 5⟩, ⟨_Order._TxOrder (some exampleTxLate), 5⟩] 0 1
          = true ∧
        TxByPriceAndTime.Less
          [⟨_Order._TxOrder (some exampleTx), 5⟩, ⟨_Order._TxOrder (some exampleTxLate), 5⟩] 1 0
          = true) :=
  (Less_strict_where _ 0 1 ⟨_Order._TxOrder (some exampleTx), 5⟩
    ⟨_Order._TxOrder (some exampleTxLate), 5⟩ rfl rfl).2.2.1
    (Or.inr (Or.inl ⟨by decide, by decide⟩))

/-! ## Order wrapper: `Profit` without a base fee -/

/-- C21, evaluated on the transaction `exampleTx`: `NewTxWithMinerFee` without
a base fee returns a wrapper of the transaction, and `Profit` of this wrapper
without a base fee returns no value: the subtraction reads the nil base
fee and the call aborts, where the claim says that `Profit` returns a value
for every base fee, supplied or not. -/
theorem Profit_aborts_without_baseFee :
    NewTxWithMinerFee exampleTx none = Except.ok ⟨_Order._TxOrder (some exampleTx), 5⟩ ∧
    (⟨_Order._TxOrder (some exampleTx), 5⟩ : TxWithMinerFee).Profit none 0 = none :=
  ⟨rfl, rfl⟩

/-- A wrapper from one of the three constructors holds a transaction, a bundle
or an sbundle. -/
theorem FromConstructor_kind (w : TxWithMinerFee) (h : FromConstructor w) :
    (∃ tx, w.Tx = some tx) ∨ (∃ bundle, w.Tx = none ∧ w.Bundle = some bundle) ∨
      (∃ sbundle, w.Tx = none ∧ w.Bundle = none ∧ w.SBundle = some sbundle) := by
  rcases h with ⟨tx, baseFee, h⟩ | ⟨bundle, baseFee, h⟩ | ⟨sbundle, baseFee, h⟩
  · exact Or.inl ⟨tx, NewTxWithMinerFee_Tx tx baseFee w h⟩
  · simp only [NewBundleWithMinerFee, Except.ok.injEq] at h
    subst h
    exact Or.inr (Or.inl ⟨bundle, rfl, rfl⟩)
  · simp only [NewSBundleWithMinerFee, Except.ok.injEq] at h
    subst h
    exact Or.inr (Or.inr ⟨sbundle, rfl, rfl, rfl⟩)

/-- With a supplied base fee `Profit` returns a value on every wrapper from one
of the three constructors, and it never reaches the abort for an unsupported
order; without a base fee it returns a value when the wrapper holds no
transaction. -/
theorem Profit_constructed (w : TxWithMinerFee) (hc : FromConstructor w) :
    ¬ (w.Tx = none ∧ w.Bundle = none ∧ w.SBundle = none) ∧
    (∀ (b : Int) (gasUsed : Nat), ∃ v, w.Profit (some b) gasUsed = some v) ∧
    (w.Tx = none → ∀ gasUsed : Nat, ∃ v, w.Profit none gasUsed = some v) := by
  rcases FromConstructor_kind w hc with ⟨tx, h1⟩ | ⟨bundle, h1, h2⟩ | ⟨sbundle, h1, h2, h3⟩
  · refine ⟨fun h => by simp [h1] at h, ?_, fun h => by simp [h1] at h⟩
    intro b gasUsed
    simp only [TxWithMinerFee.Profit, h1]
    split <;> exact ⟨_, rfl⟩
  · refine ⟨fun h => by simp [h2] at h, ?_, ?_⟩
    · intro b gasUsed
      exact ⟨bundle.EthSentToCoinbase, by simp only [TxWithMinerFee.Profit, h1, h2]⟩
    · intro _ gasUsed
      exact ⟨bundle.EthSentToCoinbase, by simp only [TxWithMinerFee.Profit, h1, h2]⟩
  · refine ⟨fun h => by simp [h3] at h, ?_, ?_⟩
    · intro b gasUsed
      exact ⟨sbundle.Profit, by simp only [TxWithMinerFee.Profit, h1, h2, h3]⟩
    · intro _ gasUsed
      exact ⟨sbundle.Profit, by simp only [TxWithMinerFee.Profit, h1, h2, h3]⟩

/-! ## Order book: every offered transaction pays the base fee -/

theorem NewTxWithMinerFee_pays (tx : Transaction) (b : Int) (w : TxWithMinerFee)
    (h : NewTxWithMinerFee tx (some b) = Except.ok w) : PaysBaseFee b w := by
  intro tx1 htx
  have h1 := NewTxWithMinerFee_Tx tx (some b) w h
  rw [h1] at htx
  simp only [Option.some.injEq] at htx
  subst htx
  simp only [NewTxWithMinerFee, Transaction.EffectiveGasTip, Transaction.GasFeeCap,
    Transaction.GasTipCap] at h
  by_cases hlt : tx.gasFeeCap < b
  · simp [hlt] at h
  · simp only [hlt, if_false, Except.ok.injEq] at h
    subst h
    refine ⟨by omega, ?_⟩
    simp only [TxWithMinerFee.Price, BigMin]
    split <;> omega

theorem PaysBaseFee_of_no_tx (b : Int) (w : TxWithMinerFee) (h : w.Tx = none) :
    PaysBaseFee b w := by
  intro tx htx
  rw [h] at htx
  exact absurd htx (by simp)

theorem seedLoop_pays (signer : Signer) (b : Int) :
    ∀ (rest : List (Address × Transactions)) (m m1 : TxMap) (heads heads1 : TxByPriceAndTime),
      (∀ w ∈ heads, PaysBaseFee b w) →
      seedLoop signer (some b) rest (m, heads) = some (m1, heads1) →
      ∀ w ∈ heads1, PaysBaseFee b w := by
  intro rest
  induction rest with
  | nil =>
    intro m m1 heads heads1 hh h
    simp only [seedLoop, Option.some.injEq, Prod.mk.injEq] at h
    obtain ⟨_, rfl⟩ := h
    exact hh
  | cons e rest ih =>
    intro m m1 heads heads1 hh h
    obtain ⟨frm, q⟩ := e
    cases q with
    | nil => simp [seedLoop] at h
    | cons tx0 tail =>
      rw [seedLoop_step] at h
      cases hs : seedHead signer (some b) (frm, tx0 :: tail) with
      | none =>
        rw [hs] at h
        exact ih _ _ _ _ hh h
      | some w0 =>
        rw [hs] at h
        apply ih _ _ _ _ _ h
        intro w hw
        rcases List.mem_append.mp hw with hw | hw
        · exact hh w hw
        · simp only [List.mem_singleton] at hw
          subst hw
          simp only [seedHead] at hs
          split at hs
          · split at hs
            · next wrapped hN =>
              simp only [Option.some.injEq] at hs
              subst hs
              exact NewTxWithMinerFee_pays tx0 b _ hN
            · exact absurd hs (by simp)
          · exact absurd hs (by simp)

theorem New_pays (signer : Signer) (txs : TxMap) (bundles : List SimulatedBundle)
    (sbundles : List SimSBundle) (b : Int) (t : TransactionsByPriceAndNonce)
    (h : NewTransactionsByPriceAndNonce signer txs bundles sbundles (some b) = some t) :
    t.baseFee = some b ∧ ∀ w ∈ t.heads, PaysBaseFee b w := by
  obtain ⟨m, heads, hseed, rfl⟩ := New_heads signer txs bundles sbundles (some b) t h
  refine ⟨rfl, ?_⟩
  have h0 : ∀ w ∈ wrapBundles (some b) bundles (wrapSBundles (some b) sbundles []),
      PaysBaseFee b w := by
    intro w hw
    rw [wrapBundles_eq, wrapSBundles_eq, List.nil_append] at hw
    apply PaysBaseFee_of_no_tx
    rcases List.mem_append.mp hw with hw | hw
    · obtain ⟨x, _, rfl⟩ := List.mem_map.mp hw
      rfl
    · obtain ⟨x, _, rfl⟩ := List.mem_map.mp hw
      rfl
  have h1 := seedLoop_pays signer b txs txs m _ heads h0 hseed
  intro w hw
  exact h1 w ((Init_spec heads).2.subset hw)

theorem Pop_pays (b : Int) (t t1 : TransactionsByPriceAndNonce)
    (hb : t.baseFee = some b) (hh : ∀ w ∈ t.heads, PaysBaseFee b w) (h : t.Pop = some t1) :
    t1.baseFee = some b ∧ ∀ w ∈ t1.heads, PaysBaseFee b w := by
  cases hne : t.heads with
  | nil => simp [TransactionsByPriceAndNonce.Pop, heap.Pop, TxByPriceAndTime.Len, hne] at h
  | cons top rest0 =>
    obtain ⟨rest, h1, h2⟩ := book_Pop_perm t top rest0 hne
    rw [h1] at h
    simp only [Option.some.injEq] at h
    subst h
    refine ⟨hb, ?_⟩
    intro w hw
    apply hh w
    rw [hne]
    exact List.mem_cons_of_mem _ (h2.subset hw)

theorem Shift_pays (b : Int) (t t1 : TransactionsByPriceAndNonce)
    (hb : t.baseFee = some b) (hh : ∀ w ∈ t.heads, PaysBaseFee b w) (h : t.Shift = some t1) :
    t1.baseFee = some b ∧ ∀ w ∈ t1.heads, PaysBaseFee b w := by
  cases hne : t.heads with
  | nil => simp [TransactionsByPriceAndNonce.Shift, hne] at h
  | cons top rest0 =>
    cases hs : t.shiftNext top with
    | none =>
      rw [Shift_eq_pop t top rest0 hne hs] at h
      exact Pop_pays b t t1 hb hh h
    | some r =>
      obtain ⟨acc, wrapped, tail⟩ := r
      rw [Shift_eq_replace t top rest0 hne acc wrapped tail hs] at h
      simp only [Option.some.injEq] at h
      subst h
      obtain ⟨tx, tx0, _, _, _, hw⟩ := shiftNext_some t top wrapped acc tail hs
      rw [hb] at hw
      refine ⟨hb, ?_⟩
      intro w hwm
      have := (Fix_perm (wrapped :: rest0) 0).subset hwm
      rcases List.mem_cons.mp this with rfl | hr
      · exact NewTxWithMinerFee_pays tx0 b _ hw
      · apply hh w
        rw [hne]
        exact List.mem_cons_of_mem _ hr

theorem ShiftAndPush_pays (b : Int) (t : TransactionsByPriceAndNonce) (tx : Option Transaction)
    (hb : t.baseFee = some b) (hh : ∀ w ∈ t.heads, PaysBaseFee b w) :
    (t.ShiftAndPushByAccountForTx tx).baseFee = some b ∧
      ∀ w ∈ (t.ShiftAndPushByAccountForTx tx).heads, PaysBaseFee b w := by
  cases tx with
  | none => exact ⟨hb, hh⟩
  | some x =>
    simp only [TransactionsByPriceAndNonce.ShiftAndPushByAccountForTx]
    split
    · next tx0 tail hq =>
      split
      · next wrapped hw =>
        rw [hb] at hw
        refine ⟨hb, ?_⟩
        intro w hwm
        have := (Push_perm t.heads wrapped).subset hwm
        rcases List.mem_cons.mp this with rfl | hr
        · exact NewTxWithMinerFee_pays tx0 b _ hw
        · exact hh w hr
      · exact ⟨hb, hh⟩
    · exact ⟨hb, hh⟩

theorem applyOps_pays (b : Int) (ops : List BookOp) :
    ∀ (t t1 : TransactionsByPriceAndNonce), (∀ op ∈ ops, ∀ w, op ≠ BookOp.Push w) →
      t.baseFee = some b → (∀ w ∈ t.heads, PaysBaseFee b w) → applyOps t ops = some t1 →
      t1.baseFee = some b ∧ ∀ w ∈ t1.heads, PaysBaseFee b w := by
  induction ops with
  | nil =>
    intro t t1 _ hb hh h
    simp only [applyOps, Option.some.injEq] at h
    subst h
    exact ⟨hb, hh⟩
  | cons op ops ih =>
    intro t t1 hno hb hh h
    simp only [applyOps] at h
    split at h
    · exact absurd h (by simp)
    · next t2 h2 =>
      have hno2 : ∀ op ∈ ops, ∀ w, op ≠ BookOp.Push w :=
        fun o ho => hno o (List.mem_cons_of_mem _ ho)
      have hstep : t2.baseFee = some b ∧ ∀ w ∈ t2.heads, PaysBaseFee b w := by
        cases op with
        | Shift => exact Shift_pays b t t2 hb hh h2
        | Pop => exact Pop_pays b t t2 hb hh h2
        | Push w => exact absurd rfl (hno (BookOp.Push w) (List.mem_cons_self _ _) w)
        | ShiftAndPushByAccountForTx tx =>
          simp only [applyOp, Option.some.injEq] at h2
          subst h2
          exact ShiftAndPush_pays b t tx hb hh
      exact ih t2 t1 hno2 hstep.1 hstep.2 h

/-- C28: in every book reached from `NewTransactionsByPriceAndNonce` with the
supplied base fee `b` by a finite sequence of `Shift`, `Pop` and
`ShiftAndPushByAccountForTx`, without a call of `Push`, the base fee of the book
is `b` and every head entry that holds a transaction has a fee cap of at least
`b` and a cached price equal to the minimum of the tip cap and the fee cap
minus `b`. -/
theorem heads_pay_baseFee (signer : Signer) (txs : TxMap) (bundles : List SimulatedBundle)
    (sbundles : List SimSBundle) (b : Int) (ops : List BookOp)
    (t0 t : TransactionsByPriceAndNonce)
    (h0 : NewTransactionsByPriceAndNonce signer txs bundles sbundles (some b) = some t0)
    (hno : ∀ op ∈ ops, ∀ w, op ≠ BookOp.Push w)
    (hops : applyOps t0 ops = some t) :
    t.baseFee = some b ∧
    ∀ w ∈ t.heads, ∀ tx, w.Tx = some tx →
      b ≤ tx.gasFeeCap ∧ w.Price = min tx.gasTipCap (tx.gasFeeCap - b) := by
  obtain ⟨h1, h2⟩ := New_pays signer txs bundles sbundles b t0 h0
  exact applyOps_pays b ops t0 t hno h1 h2 hops

theorem heads_pay_baseFee_witness :
    exampleBookShifted.baseFee = some 0 ∧
    ∀ w ∈ exampleBookShifted.heads, ∀ tx, w.Tx = some tx →
      0 ≤ tx.gasFeeCap ∧ w.Price = min tx.gasTipCap (tx.gasFeeCap - 0) :=
  heads_pay_baseFee exampleSigner [(1, exampleQueue1)] [exampleBundle] [] 0
    [BookOp.Shift, BookOp.Shift] exampleBook exampleBookShifted rfl
    (by
      intro op hop w
      simp only [List.mem_cons, List.mem_singleton, List.not_mem_nil, or_false] at hop
      rcases hop with rfl | rfl <;> exact fun h => BookOp.noConfusion h)
    rfl

/-! ## Set differences: `HashDifference` and `TxDifference` -/

/-- The first loop of the two functions builds a list with the elements of
`b` as its members, next to those it started with. -/
theorem removeLoop_mem {α : Type} (f : α → Hash) (b : List α) (m : List Hash) (x : Hash) :
    x ∈ b.foldl (fun m a => if f a ∈ m then m else m ++ [f a]) m ↔ x ∈ m ∨ x ∈ b.map f := by
  induction b generalizing m with
  | nil => simp
  | cons a rest ih =>
    rw [List.foldl_cons, ih]
    by_cases h : f a ∈ m
    · rw [if_pos h]
      simp only [List.map_cons, List.mem_cons]
      constructor
      · rintro (h1 | h1)
        · exact Or.inl h1
        · exact Or.inr (Or.inr h1)
      · rintro (h1 | h1 | h1)
        · exact Or.inl h1
        · exact Or.inl (h1 ▸ h)
        · exact Or.inr h1
    · rw [if_neg h]
      simp only [List.map_cons, List.mem_cons, List.mem_append, List.mem_singleton]
      tauto

/-- The second loop of the two functions appends the elements that pass the
test, in their order. -/
theorem keepLoop_eq {α : Type} (p : α → Bool) (a keep : List α) :
    a.foldl (fun keep x => if p x then keep else keep ++ [x]) keep
      = keep ++ a.filter (fun x => !p x) := by
  induction a generalizing keep with
  | nil => simp
  | cons x rest ih =>
    rw [List.foldl_cons, ih]
    cases hp : p x
    · simp [List.filter_cons, hp]
    · simp [List.filter_cons, hp]

/-- The function `HashDifference` is the filter of `a` by absence from `b`. -/
theorem HashDifference_eq_filter (a b : List Hash) :
    HashDifference a b = a.filter (fun hash => decide (hash ∉ b)) := by
  unfold HashDifference
  have h := keepLoop_eq
    (fun hash : Hash => decide (hash ∈ b.foldl (fun m hash => if hash ∈ m then m else m ++ [hash]) []))
    a []
  simp only [decide_eq_true_eq, List.nil_append] at h
  rw [h]
  apply List.filter_congr
  intro x _
  have hm := removeLoop_mem (fun h : Hash => h) b [] x
  simp only [List.map_id_fun, id_eq, List.not_mem_nil, false_or, List.map_id'] at hm
  rw [decide_not]
  exact congrArg not (decide_eq_decide.mpr hm)

/-- The function `TxDifference` is the filter of `a` by absence of the hash
among the hashes of `b`. -/
theorem TxDifference_eq_filter (hashOf : Transaction → Hash) (a b : Transactions) :
    TxDifference hashOf a b = a.filter (fun tx => decide (hashOf tx ∉ b.map hashOf)) := by
  unfold TxDifference
  have h := keepLoop_eq
    (fun tx : Transaction => decide (hashOf tx ∈
      b.foldl (fun m tx => if hashOf tx ∈ m then m else m ++ [hashOf tx]) []))
    a []
  simp only [decide_eq_true_eq, List.nil_append] at h
  rw [h]
  apply List.filter_congr
  intro x _
  have hm := removeLoop_mem hashOf b [] (hashOf x)
  simp only [List.not_mem_nil, false_or] at hm
  rw [decide_not]
  exact congrArg not (decide_eq_decide.mpr hm)

/-- C26: `HashDifference a b` is the list of the elements of `a` that do not occur
in `b`, in their order and with their multiplicity in `a`, and `TxDifference`
is the same for transactions compared by their hash. So `HashDifference a []`
is `a`, `HashDifference a a` is empty, and no element of the result occurs in
`b`. -/
theorem Difference_spec (hashOf : Transaction → Hash) (a b : List Hash)
    (txa txb : Transactions) :
    HashDifference a b = a.filter (fun hash => decide (hash ∉ b)) ∧
    TxDifference hashOf txa txb
      = txa.filter (fun tx => decide (hashOf tx ∉ txb.map hashOf)) ∧
    HashDifference a [] = a ∧
    HashDifference a a = [] ∧
    (∀ hash, hash ∈ HashDifference a b → hash ∈ a ∧ hash ∉ b) ∧
    (∀ hash, List.count hash (HashDifference a b) = if hash ∈ b then 0 else List.count hash a) ∧
    (HashDifference a b).Sublist a ∧
    (∀ tx, tx ∈ TxDifference hashOf txa txb → tx ∈ txa ∧ ∀ other, other ∈ txb → hashOf tx ≠ hashOf other) := by
  refine ⟨HashDifference_eq_filter a b, TxDifference_eq_filter hashOf txa txb, ?_, ?_, ?_, ?_, ?_, ?_⟩
  · rw [HashDifference_eq_filter]
    simp
  · rw [HashDifference_eq_filter, List.filter_eq_nil_iff]
    intro x hx
    simpa using hx
  · intro hash h
    rw [HashDifference_eq_filter, List.mem_filter] at h
    exact ⟨h.1, by simpa using h.2⟩
  · intro hash
    rw [HashDifference_eq_filter]
    by_cases hb : hash ∈ b
    · rw [if_pos hb, List.count_eq_zero, List.mem_filter]
      rintro ⟨_, h2⟩
      exact (of_decide_eq_true h2) hb
    · rw [if_neg hb]
      exact List.count_filter (decide_eq_true hb)
  · rw [HashDifference_eq_filter]
    exact List.filter_sublist a
  · intro tx h
    rw [TxDifference_eq_filter, List.mem_filter] at h
    refine ⟨h.1, ?_⟩
    intro other ho heq
    have h2 : hashOf tx ∉ txb.map hashOf := by simpa using h.2
    exact h2 (List.mem_map.mpr ⟨other, ho, heq.symm⟩)

/-- C26, on the hashes `[1]`, `[2]`, `[1]`, `[3]` less the hash `[2]`: both
occurrences of `[1]` stay, in their places. -/
theorem Difference_spec_witness :
    HashDifference [[1], [2], [1], [3]] [[2]] = [[1], [1], [3]] :=
  (Difference_spec (fun _ => []) [[1], [2], [1], [3]] [[2]] [] []).1.trans (by decide)

/-! ## Typed transaction envelope: decoding errors -/

/-- The function `decodeTyped` on at most one byte. -/
theorem decodeTyped_short {L A D E : Type} (c : RlpCodec L A D E) (b : Bytes)
    (h : b.length ≤ 1) :
    (decodeTyped c b : Except (CodecError E) (TxData L A D))
      = Except.error (CodecError.types Error.errShortTypedTx) := by
  unfold decodeTyped
  rw [if_pos h]

/-- The result of `decodeTyped` on two bytes or more, by the first byte. -/
theorem decodeTyped_long {L A D E : Type} (c : RlpCodec L A D E) (b : Bytes)
    (h : 2 ≤ b.length) :
    (b.headD 0 = AccessListTxType ∧
      ((∃ inner, c.decodeAccessList b.tail = Except.ok inner ∧
          decodeTyped c b = Except.ok (TxData.AccessListTx inner)) ∨
       (∃ err, c.decodeAccessList b.tail = Except.error err ∧
          (decodeTyped c b : Except (CodecError E) (TxData L A D))
            = Except.error (CodecError.rlp err)))) ∨
    (b.headD 0 = DynamicFeeTxType ∧
      ((∃ inner, c.decodeDynamicFee b.tail = Except.ok inner ∧
          decodeTyped c b = Except.ok (TxData.DynamicFeeTx inner)) ∨
       (∃ err, c.decodeDynamicFee b.tail = Except.error err ∧
          (decodeTyped c b : Except (CodecError E) (TxData L A D))
            = Except.error (CodecError.rlp err)))) ∨
    (b.headD 0 ≠ AccessListTxType ∧ b.headD 0 ≠ DynamicFeeTxType ∧
      (decodeTyped c b : Except (CodecError E) (TxData L A D))
        = Except.error (CodecError.types Error.ErrTxTypeNotSupported)) := by
  have hlen : ¬ b.length ≤ 1 := by omega
  unfold decodeTyped
  rw [if_neg hlen]
  by_cases h1 : b.headD 0 = AccessListTxType
  · left
    refine ⟨h1, ?_⟩
    rw [if_pos h1]
    cases hd : c.decodeAccessList b.tail with
    | ok inner => exact Or.inl ⟨inner, rfl, rfl⟩
    | error err => exact Or.inr ⟨err, rfl, rfl⟩
  · rw [if_neg h1]
    by_cases h2 : b.headD 0 = DynamicFeeTxType
    · right; left
      refine ⟨h2, ?_⟩
      rw [if_pos h2]
      cases hd : c.decodeDynamicFee b.tail with
      | ok inner => exact Or.inl ⟨inner, rfl, rfl⟩
      | error err => exact Or.inr ⟨err, rfl, rfl⟩
    · right; right
      rw [if_neg h2]
      exact ⟨h1, h2, rfl⟩

/-- C23: `decodeTyped` fails with `errShortTypedTx` exactly on the byte strings of
length at most one; on two bytes or more it fails with `ErrTxTypeNotSupported`
exactly when the first byte is neither `AccessListTxType` nor
`DynamicFeeTxType`, so also when it is `LegacyTxType`; and `UnmarshalBinary`
on the empty input fails with `errShortTypedTx`, whatever the receiver. -/
theorem decodeTyped_errors {L A D E : Type} (c : RlpCodec L A D E) (b : Bytes) :
    ((decodeTyped c b : Except (CodecError E) (TxData L A D))
        = Except.error (CodecError.types Error.errShortTypedTx) ↔ b.length ≤ 1) ∧
    (2 ≤ b.length →
      ((decodeTyped c b : Except (CodecError E) (TxData L A D))
          = Except.error (CodecError.types Error.ErrTxTypeNotSupported) ↔
        b.headD 0 ≠ AccessListTxType ∧ b.headD 0 ≠ DynamicFeeTxType)) ∧
    (2 ≤ b.length → b.headD 0 = LegacyTxType →
      (decodeTyped c b : Except (CodecError E) (TxData L A D))
        = Except.error (CodecError.types Error.ErrTxTypeNotSupported)) ∧
    (∀ tx : Envelope L A D,
      tx.UnmarshalBinary c [] = Except.error (CodecError.types Error.errShortTypedTx)) := by
  have key : 2 ≤ b.length →
      ((decodeTyped c b : Except (CodecError E) (TxData L A D))
          = Except.error (CodecError.types Error.ErrTxTypeNotSupported) ↔
        b.headD 0 ≠ AccessListTxType ∧ b.headD 0 ≠ DynamicFeeTxType) := by
    intro h
    rcases decodeTyped_long c b h with ⟨h1, ⟨i, _, e⟩ | ⟨err, _, e⟩⟩ |
      ⟨h1, ⟨i, _, e⟩ | ⟨err, _, e⟩⟩ | ⟨h1, h2, e⟩
    · rw [e]; exact ⟨fun x => (by cases x), fun x => absurd h1 x.1⟩
    · rw [e]; exact ⟨fun x => (by cases x), fun x => absurd h1 x.1⟩
    · rw [e]; exact ⟨fun x => (by cases x), fun x => absurd h1 x.2⟩
    · rw [e]; exact ⟨fun x => (by cases x), fun x => absurd h1 x.2⟩
    · rw [e]; exact ⟨fun _ => ⟨h1, h2⟩, fun _ => rfl⟩
  refine ⟨⟨?_, decodeTyped_short c b⟩, key, ?_, ?_⟩
  · intro e
    by_contra hlen
    have h : 2 ≤ b.length := by omega
    rcases decodeTyped_long c b h with ⟨_, ⟨i, _, e2⟩ | ⟨err, _, e2⟩⟩ |
      ⟨_, ⟨i, _, e2⟩ | ⟨err, _, e2⟩⟩ | ⟨_, _, e2⟩ <;>
    · rw [e2] at e
      cases e
  · intro h h0
    refine (key h).mpr ⟨?_, ?_⟩
    · rw [h0]; decide
    · rw [h0]; decide
  · intro tx
    rfl

/-- C23, on the one-byte payload `[1]`, on the payload `[0, 0xc1, 5]` that starts
with the legacy type byte, and on the empty input. -/
theorem decodeTyped_errors_witness :
    (decodeTyped exampleCodec [1] : Except (CodecError Unit) (TxData Nat Nat Nat))
      = Except.error (CodecError.types Error.errShortTypedTx) ∧
    (decodeTyped exampleCodec [0, 0xc1, 5] : Except (CodecError Unit) (TxData Nat Nat Nat))
      = Except.error (CodecError.types Error.ErrTxTypeNotSupported) :=
  ⟨(decodeTyped_errors exampleCodec [1]).1.mpr (by decide),
    (decodeTyped_errors exampleCodec [0, 0xc1, 5]).2.2.1 (by decide) rfl⟩

/-! ## Typed transaction envelope: the round trip -/

/-- A decoded transaction is a legacy transaction exactly when the first byte
of the input is above `0x7f`. -/
theorem UnmarshalBinary_path {L A D E : Type} (c : RlpCodec L A D E) (recv tx : Envelope L A D)
    (b : Bytes) (h : recv.UnmarshalBinary c b = Except.ok tx) :
    tx.Type = some LegacyTxType ↔ (b.length > 0 ∧ b.headD 0 > 0x7f) := by
  unfold Envelope.UnmarshalBinary at h
  by_cases hb : b.length > 0 ∧ b.headD 0 > 0x7f
  · rw [if_pos hb] at h
    cases hd : c.decodeLegacy b with
    | error err => rw [hd] at h; cases h
    | ok data =>
      rw [hd] at h
      cases h
      exact ⟨fun _ => hb, fun _ => rfl⟩
  · rw [if_neg hb] at h
    refine ⟨fun ht => ?_, fun h2 => absurd h2 hb⟩
    exfalso
    by_cases hlen : b.length ≤ 1
    · rw [decodeTyped_short c b hlen] at h
      cases h
    · rcases decodeTyped_long c b (by omega) with ⟨_, ⟨i, _, e2⟩ | ⟨err, _, e2⟩⟩ |
        ⟨_, ⟨i, _, e2⟩ | ⟨err, _, e2⟩⟩ | ⟨_, _, e2⟩ <;> rw [e2] at h <;> cases h <;> cases ht

/-- The round trip on a receiver with no cached hash. If the codec of `rlp`
decodes each of its encodings of the three structs to the struct encoded, and
no encoding is empty or starts with a byte up to `0x7f`, then for every
transaction `NewTx inner` that the codec encodes, `MarshalBinary` returns
bytes, their first byte is above `0x7f` exactly for a legacy transaction, and
`UnmarshalBinary` of them on a receiver with no cached hash succeeds with the
same `inner`, so the same type and field values, the length of the input as
its size, and the same `Hash`. For every input that `UnmarshalBinary` decodes,
the result is a legacy transaction exactly when the first byte is above
`0x7f`. -/
theorem MarshalBinary_UnmarshalBinary {L A D E : Type} (c : RlpCodec L A D E)
    (rlpHash : TxData L A D → Hash) (prefixedRlpHash : Nat → TxData L A D → Hash)
    (hLegacy : ∀ x b, c.encodeLegacy x = Except.ok b → c.decodeLegacy b = Except.ok x)
    (hAccessList : ∀ x b, c.encodeAccessList x = Except.ok b →
      c.decodeAccessList b = Except.ok x)
    (hDynamicFee : ∀ x b, c.encodeDynamicFee x = Except.ok b →
      c.decodeDynamicFee b = Except.ok x)
    (hList : ∀ x b, c.Encode x = Except.ok b → b.length > 0 ∧ b.headD 0 > 0x7f)
    (inner : TxData L A D) (bs : Bytes) (hEncode : c.Encode inner = Except.ok bs) :
    (∃ b, (NewTx inner).MarshalBinary c = some (Except.ok b) ∧
      ((b.length > 0 ∧ b.headD 0 > 0x7f) ↔ inner.txType = LegacyTxType) ∧
      ∀ recv : Envelope L A D, recv.hash = none →
        ∃ tx h, recv.UnmarshalBinary c b = Except.ok tx ∧
          tx.inner = some inner ∧
          tx.Type = (NewTx inner).Type ∧
          tx.size = some b.length ∧
          (tx.Hash rlpHash prefixedRlpHash).map Prod.fst = some h ∧
          ((NewTx inner).Hash rlpHash prefixedRlpHash).map Prod.fst = some h) ∧
    (∀ (recv tx : Envelope L A D) (b : Bytes), recv.UnmarshalBinary c b = Except.ok tx →
      (tx.Type = some LegacyTxType ↔ (b.length > 0 ∧ b.headD 0 > 0x7f))) := by
  refine ⟨?_, fun recv tx b h => UnmarshalBinary_path c recv tx b h⟩
  have hl := hList inner bs hEncode
  cases inner with
  | LegacyTx x =>
    refine ⟨bs, ?_, ⟨fun _ => rfl, fun _ => hl⟩, ?_⟩
    · simp only [Envelope.MarshalBinary, NewTx, Envelope.setDecoded, TxData.copy, TxData.txType,
        if_true, hEncode]
    · intro recv hrecv
      have hd := hLegacy x bs hEncode
      refine ⟨recv.setDecoded (TxData.LegacyTx x) bs.length, rlpHash (TxData.LegacyTx x),
        ?_, rfl, rfl, ?_, ?_, ?_⟩
      · unfold Envelope.UnmarshalBinary
        rw [if_pos hl, hd]
      · simp only [Envelope.setDecoded, if_pos hl.1]
      · simp only [Envelope.Hash, Envelope.setDecoded, hrecv, TxData.txType, if_true,
          Option.map_some']
      · rfl
  | AccessListTx x =>
    have hne : ¬ ((AccessListTxType :: bs).length > 0 ∧
        (AccessListTxType :: bs).headD 0 > 0x7f) := by
      simp [AccessListTxType]
    refine ⟨AccessListTxType :: bs, ?_, ⟨fun h => absurd h hne, fun h => by cases h⟩, ?_⟩
    · simp only [Envelope.MarshalBinary, Envelope.encodeTyped, NewTx, Envelope.setDecoded,
        TxData.copy, TxData.txType, hEncode]
      rfl
    · intro recv hrecv
      have hd := hAccessList x bs hEncode
      have hdec : (decodeTyped c (AccessListTxType :: bs)
          : Except (CodecError E) (TxData L A D)) = Except.ok (TxData.AccessListTx x) := by
        unfold decodeTyped
        have h1 : ¬ (AccessListTxType :: bs).length ≤ 1 := by
          simp only [List.length_cons]; omega
        rw [if_neg h1]
        simp only [List.headD_cons, List.tail_cons, if_true, hd]
      refine ⟨recv.setDecoded (TxData.AccessListTx x) (AccessListTxType :: bs).length,
        prefixedRlpHash AccessListTxType (TxData.AccessListTx x), ?_, rfl, rfl, ?_, ?_, ?_⟩
      · unfold Envelope.UnmarshalBinary
        rw [if_neg hne, hdec]
      · simp [Envelope.setDecoded]
      · simp [Envelope.Hash, Envelope.setDecoded, hrecv, TxData.txType, AccessListTxType,
          LegacyTxType]
      · rfl
  | DynamicFeeTx x =>
    have hne : ¬ ((DynamicFeeTxType :: bs).length > 0 ∧
        (DynamicFeeTxType :: bs).headD 0 > 0x7f) := by
      simp [DynamicFeeTxType]
    refine ⟨DynamicFeeTxType :: bs, ?_, ⟨fun h => absurd h hne, fun h => by cases h⟩, ?_⟩
    · simp only [Envelope.MarshalBinary, Envelope.encodeTyped, NewTx, Envelope.setDecoded,
        TxData.copy, TxData.txType, hEncode]
      rfl
    · intro recv hrecv
      have hd := hDynamicFee x bs hEncode
      have hdec : (decodeTyped c (DynamicFeeTxType :: bs)
          : Except (CodecError E) (TxData L A D)) = Except.ok (TxData.DynamicFeeTx x) := by
        unfold decodeTyped
        have h1 : ¬ (DynamicFeeTxType :: bs).length ≤ 1 := by
          simp only [List.length_cons]; omega
        rw [if_neg h1]
        have h2 : ¬ DynamicFeeTxType = AccessListTxType := by decide
        simp only [List.headD_cons, List.tail_cons, if_neg h2, if_true, hd]
      refine ⟨recv.setDecoded (TxData.DynamicFeeTx x) (DynamicFeeTxType :: bs).length,
        prefixedRlpHash DynamicFeeTxType (TxData.DynamicFeeTx x), ?_, rfl, rfl, ?_, ?_, ?_⟩
      · unfold Envelope.UnmarshalBinary
        rw [if_neg hne, hdec]
      · simp [Envelope.setDecoded]
      · simp [Envelope.Hash, Envelope.setDecoded, hrecv, TxData.txType, DynamicFeeTxType,
          LegacyTxType]
      · rfl

/-- The round trip of the dynamic-fee transaction with the contents `5` under
the codec `exampleCodec`, whose encoding is `[2, 0xc1, 5]`, on every receiver
with no cached hash. -/
theorem MarshalBinary_UnmarshalBinary_example :
    exampleCodec.Encode (TxData.DynamicFeeTx 5) = Except.ok [0xc1, 5] ∧
    ∃ b, (NewTx (TxData.DynamicFeeTx 5 : TxData Nat Nat Nat)).MarshalBinary exampleCodec
        = some (Except.ok b) ∧
      ((b.length > 0 ∧ b.headD 0 > 0x7f) ↔
        (TxData.DynamicFeeTx 5 : TxData Nat Nat Nat).txType = LegacyTxType) ∧
      ∀ recv : Envelope Nat Nat Nat, recv.hash = none →
        ∃ tx h, recv.UnmarshalBinary exampleCodec b = Except.ok tx ∧
          tx.inner = some (TxData.DynamicFeeTx 5) ∧
          tx.Type = (NewTx (TxData.DynamicFeeTx 5 : TxData Nat Nat Nat)).Type ∧
          tx.size = some b.length ∧
          (tx.Hash (fun _ => [0]) (fun t _ => [t])).map Prod.fst = some h ∧
          ((NewTx (TxData.DynamicFeeTx 5 : TxData Nat Nat Nat)).Hash
            (fun _ => [0]) (fun t _ => [t])).map Prod.fst = some h :=
  ⟨rfl,
    (MarshalBinary_UnmarshalBinary exampleCodec (fun _ => [0]) (fun t _ => [t])
      (fun x b h => by cases h; rfl)
      (fun x b h => by cases h; rfl)
      (fun x b h => by cases h; rfl)
      (fun x b h => by cases x <;> cases h <;> exact ⟨Nat.succ_pos _, (by decide : (0x7f : Nat) < 0xc1)⟩)
      (TxData.DynamicFeeTx 5) [0xc1, 5] rfl).1⟩

/-- C22, evaluated on a receiver that has cached its hash. The codec
`exampleCodec` decodes each of its encodings to the struct encoded and no
encoding starts with a byte up to `0x7f`. `MarshalBinary` of the dynamic-fee
transaction `5` returns `[2, 0xc1, 5]`, and the hash of that transaction is
`[2, 0xc1, 5]`. `UnmarshalBinary` of these bytes on the legacy transaction `3`,
after a call of `Hash` on it, succeeds and stores the dynamic-fee contents, but
`setDecoded` leaves the cached hash, so `Hash` of the decoded transaction is
`[0xc1, 3]`, the hash of the legacy contents, where the claim says that the
decoded transaction has the hash of the encoded one. -/
theorem UnmarshalBinary_keeps_cached_hash :
    (∀ x b, exampleCodec.encodeLegacy x = Except.ok b →
      exampleCodec.decodeLegacy b = Except.ok x) ∧
    (∀ x b, exampleCodec.encodeAccessList x = Except.ok b →
      exampleCodec.decodeAccessList b = Except.ok x) ∧
    (∀ x b, exampleCodec.encodeDynamicFee x = Except.ok b →
      exampleCodec.decodeDynamicFee b = Except.ok x) ∧
    (∀ x b, exampleCodec.Encode x = Except.ok b → b.length > 0 ∧ b.headD 0 > 0x7f) ∧
    (NewTx (TxData.DynamicFeeTx 5 : TxData Nat Nat Nat)).MarshalBinary exampleCodec
      = some (Except.ok [2, 0xc1, 5]) ∧
    ((NewTx (TxData.DynamicFeeTx 5 : TxData Nat Nat Nat)).Hash exampleRlpHash
      examplePrefixedRlpHash).map Prod.fst = some [2, 0xc1, 5] ∧
    (NewTx (TxData.LegacyTx 3 : TxData Nat Nat Nat)).Hash exampleRlpHash examplePrefixedRlpHash
      = some ([0xc1, 3], exampleHashedLegacy) ∧
    exampleHashedLegacy.UnmarshalBinary exampleCodec [2, 0xc1, 5]
      = Except.ok exampleDecodedOverHashed ∧
    exampleDecodedOverHashed.inner = some (TxData.DynamicFeeTx 5) ∧
    (exampleDecodedOverHashed.Hash exampleRlpHash examplePrefixedRlpHash).map Prod.fst
      = some [0xc1, 3] ∧
    ([0xc1, 3] : Hash) ≠ [2, 0xc1, 5] :=
  ⟨fun x b h => by cases h; rfl,
    fun x b h => by cases h; rfl,
    fun x b h => by cases h; rfl,
    fun x b h => by
      cases x <;> cases h <;> exact ⟨Nat.succ_pos _, (by decide : (0x7f : Nat) < 0xc1)⟩,
    rfl, rfl, rfl, rfl, rfl, rfl, by decide⟩

/-! ## Signature checks: replay protection -/

/-- The loop of `BitLen` has enough steps when started with the number itself,
and then counts the binary digits: the result is at most `k` exactly when the
number is below `2 ^ k`. -/
theorem bitLenLoop_le (fuel : Nat) : ∀ n k : Nat, n ≤ fuel →
    (bitLenLoop fuel n ≤ k ↔ n < 2 ^ k) := by
  induction fuel with
  | zero =>
    intro n k hn
    have h0 : n = 0 := by omega
    subst h0
    simp [bitLenLoop]
  | succ fuel ih =>
    intro n k hn
    by_cases h0 : n = 0
    · subst h0
      simp [bitLenLoop]
    · simp only [bitLenLoop, if_neg h0]
      cases k with
      | zero =>
        simp only [pow_zero, Nat.lt_one_iff]
        constructor
        · intro h; omega
        · intro h; exact absurd h h0
      | succ k =>
        have hhalf : n / 2 ≤ fuel := by omega
        rw [Nat.add_le_add_iff_right, ih (n / 2) k hhalf, pow_succ,
          Nat.div_lt_iff_lt_mul (by decide : 0 < 2)]

/-- The function `isProtectedV` on a natural number. -/
theorem isProtectedV_ofNat (n : Nat) :
    isProtectedV (n : Int) = true ↔ (n ≠ 0 ∧ n ≠ 1 ∧ n ≠ 27 ∧ n ≠ 28) := by
  unfold isProtectedV BitLen Uint64
  simp only [Int.natAbs_ofNat]
  by_cases h : bitLenLoop n n ≤ 8
  · rw [if_pos h]
    have hlt : n < 2 ^ 8 := (bitLenLoop_le n n 8 (le_refl n)).mp h
    have hmod : n % 2 ^ 64 = n := Nat.mod_eq_of_lt (by omega)
    simp only [hmod, Bool.and_eq_true, bne_iff_ne, ne_eq]
    tauto
  · rw [if_neg h]
    have hge : ¬ n < 2 ^ 8 := fun hlt => h ((bitLenLoop_le n n 8 (le_refl n)).mpr hlt)
    simp only [true_iff]
    omega

/-- The three results of `sanityCheckSignature`. -/
theorem sanityCheckSignature_cases (deriveChainId : Int → Int)
    (ValidateSignatureValues : Nat → Int → Int → Bool → Bool) (v r s : Int)
    (maybeProtected : Bool) :
    (isProtectedV v = true ∧ maybeProtected = false ∧
      sanityCheckSignature deriveChainId ValidateSignatureValues v r s maybeProtected
        = some Error.ErrUnexpectedProtection) ∨
    (¬ (isProtectedV v = true ∧ maybeProtected = false) ∧
      (sanityCheckSignature deriveChainId ValidateSignatureValues v r s maybeProtected
          = some Error.ErrInvalidSig ∨
       sanityCheckSignature deriveChainId ValidateSignatureValues v r s maybeProtected
          = none)) := by
  unfold sanityCheckSignature
  by_cases h : (isProtectedV v && !maybeProtected) = true
  · left
    rw [if_pos h]
    simp only [Bool.and_eq_true, Bool.not_eq_true'] at h
    exact ⟨h.1, h.2, rfl⟩
  · right
    rw [if_neg h]
    simp only [Bool.and_eq_true, Bool.not_eq_true'] at h
    refine ⟨h, ?_⟩
    dsimp only
    repeat' split
    all_goals first | exact Or.inl rfl | exact Or.inr rfl

/-- C25: For a non-negative `V`, `isProtectedV` holds exactly when `V` is none of
`0`, `1`, `27` and `28`. `sanityCheckSignature` returns
`ErrUnexpectedProtection` exactly when `V` is protected and `maybeProtected`
is false, also with a validation that rejects every signature, and never
returns `ErrInvalidSig` then. `Protected` of a legacy transaction is true
exactly when its `V` is present and protected, and `Protected` of a typed
transaction is true. -/
theorem sanityCheckSignature_protection {L A D : Type} (deriveChainId : Int → Int)
    (ValidateSignatureValues : Nat → Int → Int → Bool → Bool) (getV : L → Option Int)
    (V R S : Int) (maybeProtected : Bool) (hV : 0 ≤ V) :
    (isProtectedV V = true ↔ (V ≠ 0 ∧ V ≠ 1 ∧ V ≠ 27 ∧ V ≠ 28)) ∧
    (sanityCheckSignature deriveChainId ValidateSignatureValues V R S maybeProtected
        = some Error.ErrUnexpectedProtection ↔
      ((V ≠ 0 ∧ V ≠ 1 ∧ V ≠ 27 ∧ V ≠ 28) ∧ maybeProtected = false)) ∧
    (((V ≠ 0 ∧ V ≠ 1 ∧ V ≠ 27 ∧ V ≠ 28) ∧ maybeProtected = false) →
      sanityCheckSignature deriveChainId (fun _ _ _ _ => false) V R S maybeProtected
        = some Error.ErrUnexpectedProtection) ∧
    (sanityCheckSignature deriveChainId ValidateSignatureValues V R S maybeProtected
        = some Error.ErrInvalidSig →
      ¬ ((V ≠ 0 ∧ V ≠ 1 ∧ V ≠ 27 ∧ V ≠ 28) ∧ maybeProtected = false)) ∧
    (∀ (tx : Envelope L A D) (inner : L), tx.inner = some (TxData.LegacyTx inner) →
      (tx.Protected getV = true ↔ ∃ v, getV inner = some v ∧ isProtectedV v = true)) ∧
    (∀ (tx : Envelope L A D) (inner : TxData L A D), tx.inner = some inner →
      inner.txType ≠ LegacyTxType → tx.Protected getV = true) := by
  obtain ⟨n, rfl⟩ := Int.eq_ofNat_of_zero_le hV
  have hp : isProtectedV (n : Int) = true ↔
      ((n : Int) ≠ 0 ∧ (n : Int) ≠ 1 ∧ (n : Int) ≠ 27 ∧ (n : Int) ≠ 28) := by
    rw [isProtectedV_ofNat]
    omega
  refine ⟨hp, ?_, ?_, ?_, ?_, ?_⟩
  · rw [← hp]
    rcases sanityCheckSignature_cases deriveChainId ValidateSignatureValues n R S maybeProtected
      with ⟨h1, h2, e⟩ | ⟨h1, e | e⟩
    · rw [e]; exact ⟨fun _ => ⟨h1, h2⟩, fun _ => rfl⟩
    · rw [e]; exact ⟨fun x => (by cases x), fun x => absurd x h1⟩
    · rw [e]; exact ⟨fun x => (by cases x), fun x => absurd x h1⟩
  · rw [← hp]
    intro h
    rcases sanityCheckSignature_cases deriveChainId (fun _ _ _ _ => false) n R S maybeProtected
      with ⟨_, _, e⟩ | ⟨h1, _⟩
    · exact e
    · exact absurd h h1
  · rw [← hp]
    intro e h
    rcases sanityCheckSignature_cases deriveChainId ValidateSignatureValues n R S maybeProtected
      with ⟨_, _, e2⟩ | ⟨h1, _⟩
    · rw [e2] at e; cases e
    · exact h1 h
  · intro tx inner h
    unfold Envelope.Protected
    rw [h]
    dsimp only
    cases hv : getV inner with
    | none => simp
    | some v => simp
  · intro tx inner h hty
    unfold Envelope.Protected
    rw [h]
    cases inner with
    | LegacyTx x => exact absurd rfl hty
    | AccessListTx x => rfl
    | DynamicFeeTx x => rfl

/-- C25, at `V = 37`, the protected value of chain `1`, with
`maybeProtected` false. -/
theorem sanityCheckSignature_protection_witness :
    (0 : Int) ≤ 37 ∧
    sanityCheckSignature (fun v => (v - 35) / 2) (fun _ _ _ _ => true) 37 1 1 false
      = some Error.ErrUnexpectedProtection :=
  ⟨by decide,
    (@sanityCheckSignature_protection Int Unit Unit (fun v => (v - 35) / 2)
      (fun _ _ _ _ => true) (fun v => some v) 37 1 1 false (by decide)).2.1.mpr
      ⟨⟨by decide, by decide, by decide, by decide⟩, rfl⟩⟩

/-! ## Bundle identity: the payload does not depend on the order of the reverting hashes -/

/-- The order of `bytes.Compare` is total. -/
theorem bytesCompare_total : ∀ x y : Bytes, bytesCompare x y ≤ 0 ∨ bytesCompare y x ≤ 0
  | [], [] => Or.inl (by simp [bytesCompare])
  | [], _ :: _ => Or.inl (by simp [bytesCompare])
  | _ :: _, [] => Or.inr (by simp [bytesCompare])
  | x :: xs, y :: ys => by
    simp only [bytesCompare]
    by_cases h1 : x < y
    · left; rw [if_pos h1]; decide
    · by_cases h2 : y < x
      · right; rw [if_pos h2]; decide
      · rw [if_neg h1, if_neg h2, if_neg h2, if_neg h1]
        exact bytesCompare_total xs ys

/-- Two byte strings that compare below or equal both ways are equal. -/
theorem bytesCompare_antisymm : ∀ x y : Bytes, bytesCompare x y ≤ 0 → bytesCompare y x ≤ 0 →
    x = y
  | [], [], _, _ => rfl
  | [], _ :: _, _, h => by simp [bytesCompare] at h
  | _ :: _, [], h, _ => by simp [bytesCompare] at h
  | x :: xs, y :: ys, h1, h2 => by
    simp only [bytesCompare] at h1 h2
    by_cases hxy : x < y
    · have hyx : ¬ y < x := by omega
      rw [if_neg hyx, if_pos hxy] at h2
      exact absurd h2 (by decide)
    · by_cases hyx : y < x
      · rw [if_neg hxy, if_pos hyx] at h1
        exact absurd h1 (by decide)
      · rw [if_neg hxy, if_neg hyx] at h1
        rw [if_neg hyx, if_neg hxy] at h2
        have e : x = y := by omega
        rw [e, bytesCompare_antisymm xs ys h1 h2]

/-- The order of `bytes.Compare` is transitive. -/
theorem bytesCompare_trans : ∀ x y z : Bytes, bytesCompare x y ≤ 0 → bytesCompare y z ≤ 0 →
    bytesCompare x z ≤ 0
  | [], [], _, _, h => h
  | [], _ :: _, [], _, h => by simp [bytesCompare] at h
  | [], _ :: _, _ :: _, _, _ => by simp [bytesCompare]
  | _ :: _, [], _, h, _ => by simp [bytesCompare] at h
  | _ :: _, _ :: _, [], _, h => by simp [bytesCompare] at h
  | x :: xs, y :: ys, z :: zs, h1, h2 => by
    simp only [bytesCompare] at h1 h2 ⊢
    by_cases hxy : x < y
    · by_cases hyz : y < z
      · rw [if_pos (by omega : x < z)]; decide
      · rw [if_neg hyz] at h2
        by_cases hzy : z < y
        · rw [if_pos hzy] at h2
          exact absurd h2 (by decide)
        · rw [if_pos (by omega : x < z)]; decide
    · rw [if_neg hxy] at h1
      by_cases hyx : y < x
      · rw [if_pos hyx] at h1
        exact absurd h1 (by decide)
      · rw [if_neg hyx] at h1
        have e : x = y := by omega
        subst e
        by_cases hyz : x < z
        · rw [if_pos hyz]; decide
        · rw [if_neg hyz] at h2 ⊢
          by_cases hzy : z < x
          · rw [if_pos hzy] at h2
            exact absurd h2 (by decide)
          · rw [if_neg hzy] at h2 ⊢
            exact bytesCompare_trans xs ys zs h1 h2

/-- The sorted list is in ascending byte order and holds the same hashes. -/
theorem sortHashes_sorted (l : List Hash) :
    (sortHashes l).Sorted (fun x y => bytesCompare x y ≤ 0) ∧ (sortHashes l).Perm l := by
  haveI : IsTotal Hash (fun x y => bytesCompare x y ≤ 0) := ⟨bytesCompare_total⟩
  haveI : IsTrans Hash (fun x y => bytesCompare x y ≤ 0) := ⟨bytesCompare_trans⟩
  exact ⟨List.sorted_insertionSort _ l, List.perm_insertionSort _ l⟩

/-- An ascending list is determined by its members: there is one ascending
arrangement of a list of hashes. -/
theorem sorted_unique (l1 l2 : List Hash) (hp : l1.Perm l2)
    (h1 : l1.Sorted (fun x y => bytesCompare x y ≤ 0))
    (h2 : l2.Sorted (fun x y => bytesCompare x y ≤ 0)) : l1 = l2 := by
  haveI : IsAntisymm Hash (fun x y => bytesCompare x y ≤ 0) := ⟨bytesCompare_antisymm⟩
  exact List.eq_of_perm_of_sorted hp h1 h2

/-- The loop that appends the hashes appends their concatenation. -/
theorem foldl_append_flatten (l : List Hash) (buf : Bytes) :
    l.foldl (fun buf txHash => buf ++ txHash) buf = buf ++ l.flatten := by
  induction l generalizing buf with
  | nil => simp
  | cons x rest ih => rw [List.foldl_cons, ih, List.flatten_cons, List.append_assoc]

/-- More steps than ten change nothing in the loop of `AppendUvarint` on a
`uint64`: the loop ends within its bound. -/
theorem appendUvarintLoop_fuel (fuel : Nat) : ∀ (more : Nat) (buf : Bytes) (x : Nat),
    x < 128 ^ fuel → appendUvarintLoop (fuel + more) buf x = appendUvarintLoop fuel buf x := by
  induction fuel with
  | zero =>
    intro more buf x hx
    have h0 : x = 0 := by simpa using hx
    subst h0
    cases more with
    | zero => rfl
    | succ m => simp [appendUvarintLoop]
  | succ fuel ih =>
    intro more buf x hx
    rw [show fuel + 1 + more = (fuel + more) + 1 by omega]
    simp only [appendUvarintLoop]
    by_cases h : x ≥ 0x80
    · rw [if_pos h, if_pos h]
      apply ih
      rw [pow_succ] at hx
      exact (Nat.div_lt_iff_lt_mul (by decide : 0 < 128)).mpr hx
    · rw [if_neg h, if_neg h]

/-- The conversion to `int64` keeps a number below `2 ^ 63`. -/
theorem toInt64_of_lt (u : Nat) (h : u < 2 ^ 63) : toInt64 u = (u : Int) := by
  unfold toInt64
  have hm : u % 2 ^ 64 = u := Nat.mod_eq_of_lt (by omega)
  rw [hm, if_pos h]

/-- The method `Int64` returns the number itself when it fits an `int64`. -/
theorem Int64_of_range (x : Int) (h1 : -(2 ^ 63) ≤ x) (h2 : x < 2 ^ 63) : Int64 x = x := by
  unfold Int64
  dsimp only
  by_cases hx : x < 0
  · rw [if_pos hx]
    unfold toInt64
    split <;> split <;> omega
  · rw [if_neg hx]
    unfold toInt64
    split <;> omega

/-- C24: two bundles with the same `BlockNumber` and `Hash` whose
`RevertingTxHashes` are permutations of each other have the same
`UniquePayload` and the same `ComputeUUID`. The payload is the varint of the
block number as an `int64`, which is the block number itself when it fits,
followed by `Hash`, followed by the reverting hashes in ascending byte order:
the sorted list is ascending, holds the same hashes, is left in the bundle, and
every ascending arrangement of the hashes gives the same payload. -/
theorem UniquePayload_permutation (NewHash : Bytes → List Nat) (b1 b2 : MevBundle)
    (hBlock : b1.BlockNumber = b2.BlockNumber) (hHash : b1.Hash = b2.Hash)
    (hPerm : b1.RevertingTxHashes.Perm b2.RevertingTxHashes) :
    b1.UniquePayload.1 = b2.UniquePayload.1 ∧
    (b1.ComputeUUID NewHash).1 = (b2.ComputeUUID NewHash).1 ∧
    b1.UniquePayload.1 = AppendVarint [] (Int64 b1.BlockNumber) ++ b1.Hash
      ++ (sortHashes b1.RevertingTxHashes).flatten ∧
    (sortHashes b1.RevertingTxHashes).Sorted (fun x y => bytesCompare x y ≤ 0) ∧
    (sortHashes b1.RevertingTxHashes).Perm b1.RevertingTxHashes ∧
    b1.UniquePayload.2.RevertingTxHashes = sortHashes b1.RevertingTxHashes ∧
    (∀ sorted : List Hash, sorted.Sorted (fun x y => bytesCompare x y ≤ 0) →
      sorted.Perm b1.RevertingTxHashes →
      b1.UniquePayload.1 = AppendVarint [] (Int64 b1.BlockNumber) ++ b1.Hash
        ++ sorted.flatten) ∧
    (-(2 ^ 63) ≤ b1.BlockNumber → b1.BlockNumber < 2 ^ 63 →
      Int64 b1.BlockNumber = b1.BlockNumber) := by
  have hpay : ∀ b : MevBundle, b.UniquePayload.1
      = AppendVarint [] (Int64 b.BlockNumber) ++ b.Hash
        ++ (sortHashes b.RevertingTxHashes).flatten := by
    intro b
    simp only [MevBundle.UniquePayload, foldl_append_flatten]
  have huniq : ∀ sorted : List Hash, sorted.Sorted (fun x y => bytesCompare x y ≤ 0) →
      sorted.Perm b1.RevertingTxHashes → sorted = sortHashes b1.RevertingTxHashes := by
    intro sorted hs hp
    exact sorted_unique sorted _ (hp.trans (sortHashes_sorted _).2.symm) hs
      (sortHashes_sorted _).1
  have hsame : sortHashes b2.RevertingTxHashes = sortHashes b1.RevertingTxHashes :=
    huniq _ (sortHashes_sorted _).1 ((sortHashes_sorted _).2.trans hPerm.symm)
  have h12 : b1.UniquePayload.1 = b2.UniquePayload.1 := by
    rw [hpay b1, hpay b2, hBlock, hHash, hsame]
  refine ⟨h12, ?_, hpay b1, (sortHashes_sorted _).1, (sortHashes_sorted _).2, rfl, ?_,
    Int64_of_range b1.BlockNumber⟩
  · simp only [MevBundle.ComputeUUID]
    rw [h12]
  · intro sorted hs hp
    rw [hpay b1, huniq sorted hs hp]

/-- C24, on the bundle `exampleMevBundle` and the bundle with its two reverting
hashes in the other order. -/
theorem UniquePayload_permutation_witness :
    exampleMevBundle.RevertingTxHashes.Perm exampleMevBundlePermuted.RevertingTxHashes ∧
    exampleMevBundle.UniquePayload.1 = exampleMevBundlePermuted.UniquePayload.1 :=
  ⟨List.Perm.swap [1, 9] [2, 1] [],
    (UniquePayload_permutation (fun data => data) exampleMevBundle exampleMevBundlePermuted
      rfl rfl (List.Perm.swap [1, 9] [2, 1] [])).1⟩

end types
